import Mathlib

/-!
# BusTub buffer pool: LRU-K replacer and buffer pool manager

A shallow embedding of `src/buffer/lru_k_replacer.cpp` and
`src/buffer/buffer_pool_manager.cpp`.

* `size_t` values are natural numbers below `2 ^ 64`; `++`, `--` and `-` on them wrap
  (`size_inc`, `size_dec`, `size_sub`).
* `frame_id_t` and `page_id_t` are 32-bit signed integers, embedded as `Int`.
* `std::unordered_map` is an association list with distinct keys whose list order is the
  iteration order of the map.  The standard leaves that order unspecified: theorems about
  a single call hold for every list order, and the reachability relations admit any
  reordering of the maps.
* A call that throws is `Except.error s`, where `s` is the state at the `throw`.
* The mutexes (`latch_`) are not modelled: every operation holds its latch from entry to
  exit, so operations are atomic state transformers.
-/

namespace bustub

/-! ## Machine integers -/

/-- The type `frame_id_t` (a 32-bit signed integer in the source). -/
abbrev frame_id_t := Int

/-- The type `page_id_t` (a 32-bit signed integer in the source). -/
abbrev page_id_t := Int

/-- The constant `INT_MAX` of `<climits>`. -/
def INT_MAX : Nat := 2147483647

/-- The number of values of `size_t` (64 bits). -/
def SIZE_MOD : Nat := 18446744073709551616

/-- The operation `x++` on a `size_t`. -/
def size_inc (x : Nat) : Nat := (x + 1) % SIZE_MOD

/-- The operation `x--` on a `size_t`; zero wraps to `SIZE_MOD - 1`. -/
def size_dec (x : Nat) : Nat := (x + (SIZE_MOD - 1)) % SIZE_MOD

/-- The operation `a - b` on two `size_t` values. -/
def size_sub (a b : Nat) : Nat := (a + (SIZE_MOD - b % SIZE_MOD)) % SIZE_MOD

/-! ## LRU-K replacer -/

/-- Modelled from the spec: the node record `LRUKNode` is declared in
`buffer/lru_k_replacer.h`, which is not among the source files.  The spec (section 3,
"Replacer node") gives it a bounded `history` of access timestamps retaining up to `k`
entries, an `is_evictable` flag and the parameter `k`; a node is created
tracked-non-evictable (section 4.1, "State").  The order of the entries is the one the
source relies on in `Evict`: line 24 names the difference taken from `front()` (lines 35,
39) the time since the most recent access, and line 38 takes the k-distance from
`back()`; so `front()` is the newest timestamp and `back()` the oldest kept one.  (The
spec's "front = oldest kept, back = newest" is the reverse order.) -/
structure LRUKNode where
  /-- Retained access timestamps, newest first; the head of the list is `front()`. -/
  history : List Nat := []
  k : Nat := 0
  fid : frame_id_t := 0
  is_evictable : Bool := false
deriving DecidableEq

/-- Modelled from the spec: `LRUKNode::addHistory` (header not among the source files).
Section 4.1, `RecordAccess`: the new timestamp joins the node's history, "evicting the
oldest entry once history exceeds length `k`".  The new timestamp goes to the front and
the oldest entry leaves at the back, the order `Evict` relies on (lines 24, 35, 38, 39). -/
def LRUKNode.addHistory (n : LRUKNode) (timestamp : Nat) : LRUKNode :=
  let h := timestamp :: n.history
  { n with history := if h.length > n.k then h.dropLast else h }

/-- The call `getHistory().front()`, the most recent retained timestamp; on an empty list
(undefined in C++) it is `0`. -/
def LRUKNode.front (n : LRUKNode) : Nat := n.history.head?.getD 0

/-- The call `getHistory().back()`, the oldest retained timestamp; on an empty list
(undefined in C++) it is `0`. -/
def LRUKNode.back (n : LRUKNode) : Nat := n.history.getLast?.getD 0

/-- The call `setIsEvictable(b)`. -/
def LRUKNode.setIsEvictable (n : LRUKNode) (b : Bool) : LRUKNode :=
  { n with is_evictable := b }

/-- The class `LRUKReplacer`: `node_store_` in iteration order and the four counters. -/
structure LRUKReplacer where
  node_store : List (frame_id_t × LRUKNode) := []
  current_timestamp : Nat := 0
  curr_size : Nat := 0
  evictable_size : Nat := 0
  replacer_size : Nat
  k : Nat
deriving DecidableEq

namespace LRUKReplacer

/-- The constructor `LRUKReplacer(num_frames, k)` (line 18).  It sets `replacer_size_` and
`k_`; the initialisers of the other members are in the header, which is not among the
source files, and follow the spec (section 8: on a fresh replacer the first access is at
timestamp 1, and no frame is tracked). -/
def new (num_frames k : Nat) : LRUKReplacer :=
  { replacer_size := num_frames, k := k }

/-- The lookup `node_store_.find(frame_id)`; `none` stands for `node_store_.end()`. -/
def find (r : LRUKReplacer) (frame_id : frame_id_t) : Option LRUKNode :=
  (r.node_store.find? (fun e => e.1 == frame_id)).map Prod.snd

/-- The call `node_store_.erase(frame_id)` on the list of entries. -/
def eraseKey (l : List (frame_id_t × LRUKNode)) (frame_id : frame_id_t) :
    List (frame_id_t × LRUKNode) :=
  l.filter (fun e => !(e.1 == frame_id))

/-- An in-place update `node_store_[frame_id].m(...)` of the node stored under a key. -/
def modifyKey (l : List (frame_id_t × LRUKNode)) (frame_id : frame_id_t)
    (m : LRUKNode → LRUKNode) : List (frame_id_t × LRUKNode) :=
  l.map (fun e => if e.1 == frame_id then (e.1, m e.2) else e)

/-- The loop variables of `Evict`: `max_k_distance`, `max_last_access_time`, `target_it`
(`none` stands for `node_store_.end()`). -/
structure EvictAcc where
  max_k_distance : Nat
  max_last_access_time : Nat
  target_it : Option frame_id_t
deriving DecidableEq

/-- One iteration of the loop of `Evict` (lines 26-51) at entry `it`. -/
def evictStep (k current_timestamp : Nat) (acc : EvictAcc) (it : frame_id_t × LRUKNode) :
    EvictAcc :=
  if it.2.is_evictable = false then acc
  else
    let cur_k_distance :=
      if it.2.history.length < k then INT_MAX else size_sub current_timestamp it.2.back
    let cur_last_access_time := size_sub current_timestamp it.2.front
    if cur_k_distance > acc.max_k_distance then
      { max_k_distance := cur_k_distance, max_last_access_time := cur_last_access_time,
        target_it := some it.1 }
    else if cur_k_distance = acc.max_k_distance ∧
        cur_last_access_time > acc.max_last_access_time then
      { max_k_distance := cur_k_distance, max_last_access_time := cur_last_access_time,
        target_it := some it.1 }
    else acc

/-- The loop of `Evict` with its initialisation (lines 23-51): `target_it` starts at
`node_store_.begin()`, which is `end()` exactly when the store is empty. -/
def evictScan (r : LRUKReplacer) : EvictAcc :=
  r.node_store.foldl (evictStep r.k r.current_timestamp)
    { max_k_distance := 0, max_last_access_time := 0,
      target_it := r.node_store.head?.map Prod.fst }

/-- The method `LRUKReplacer::Evict` (lines 20-61): the returned option is the frame
written to `*frame_id` when the call returns `true`, and `none` when it returns `false`. -/
def Evict (r : LRUKReplacer) : Option frame_id_t × LRUKReplacer :=
  let r1 := { r with current_timestamp := size_inc r.current_timestamp }
  match (evictScan r1).target_it with
  | none => (none, r1)
  | some f =>
    (some f, { r1 with node_store := eraseKey r1.node_store f,
                       evictable_size := size_dec r1.evictable_size,
                       curr_size := size_dec r1.curr_size })

/-- The method `LRUKReplacer::RecordAccess` (lines 63-82); `access_type` is unused. -/
def RecordAccess (r : LRUKReplacer) (frame_id : frame_id_t) :
    Except LRUKReplacer LRUKReplacer :=
  let r1 := { r with current_timestamp := size_inc r.current_timestamp }
  match r1.find frame_id with
  | some _ =>
    .ok { r1 with node_store :=
            modifyKey r1.node_store frame_id (fun n => n.addHistory r1.current_timestamp) }
  | none =>
    if r1.curr_size ≥ r1.replacer_size then .error r1
    else
      let lrukNode : LRUKNode := { k := r1.k, fid := frame_id }
      let lrukNode := lrukNode.addHistory r1.current_timestamp
      .ok { r1 with node_store := (frame_id, lrukNode) :: r1.node_store,
                    curr_size := size_inc r1.curr_size }

/-- The method `LRUKReplacer::SetEvictable` (lines 84-100). -/
def SetEvictable (r : LRUKReplacer) (frame_id : frame_id_t) (set_evictable : Bool) :
    Except LRUKReplacer LRUKReplacer :=
  match r.find frame_id with
  | none => .error r
  | some n =>
    let cur_is_evictable := n.is_evictable
    let r1 :=
      if cur_is_evictable = true ∧ set_evictable = false then
        { r with node_store :=
                   modifyKey r.node_store frame_id (fun n => n.setIsEvictable set_evictable),
                 evictable_size := size_dec r.evictable_size }
      else r
    let r2 :=
      if cur_is_evictable = false ∧ set_evictable = true then
        { r1 with node_store :=
                    modifyKey r1.node_store frame_id (fun n => n.setIsEvictable set_evictable),
                  evictable_size := size_inc r1.evictable_size }
      else r1
    .ok r2

/-- The method `LRUKReplacer::Remove` (lines 102-116). -/
def Remove (r : LRUKReplacer) (frame_id : frame_id_t) : Except LRUKReplacer LRUKReplacer :=
  match r.find frame_id with
  | none => .ok r
  | some n =>
    if n.is_evictable = false then .error r
    else
      .ok { r with node_store := eraseKey r.node_store frame_id,
                   evictable_size := size_dec r.evictable_size,
                   curr_size := size_dec r.curr_size }

/-- The method `LRUKReplacer::Size` (line 118). -/
def Size (r : LRUKReplacer) : Nat := r.evictable_size

/-- The state an operation leaves behind, whether it returned or threw. -/
def after (x : Except LRUKReplacer LRUKReplacer) : LRUKReplacer :=
  match x with
  | .ok r => r
  | .error r => r

/-- The number of tracked nodes whose evictable flag is set. -/
def evictableCount (r : LRUKReplacer) : Nat :=
  (r.node_store.filter (fun e => e.2.is_evictable)).length

/-- The value `Evict` assigns to `cur_k_distance` for a node (lines 33-40). -/
def curK (k current_timestamp : Nat) (n : LRUKNode) : Nat :=
  if n.history.length < k then INT_MAX else size_sub current_timestamp n.back

/-- The value `Evict` assigns to `cur_last_access_time` for a node (lines 35, 39). -/
def curLast (current_timestamp : Nat) (n : LRUKNode) : Nat :=
  size_sub current_timestamp n.front

/-- The test of lines 41 and 46: the candidate `(d, t)` replaces the running maximum
`(d0, t0)`. -/
def beats (d t d0 t0 : Nat) : Prop := d > d0 ∨ (d = d0 ∧ t > t0)

instance (d t d0 t0 : Nat) : Decidable (beats d t d0 t0) := by
  unfold beats
  infer_instance

/-- Well-formed replacer states: the keys of the map are distinct, every node has a
non-empty history, and every recorded timestamp lies between `1` and the clock.  Every
state reached before the 64-bit clock wraps is well formed (`Reachable.wf`). -/
def WF (r : LRUKReplacer) : Prop :=
  (r.node_store.map Prod.fst).Nodup ∧
  ∀ e ∈ r.node_store, e.2.history ≠ [] ∧ ∀ t ∈ e.2.history, 1 ≤ t ∧ t ≤ r.current_timestamp

/-- The replacer states reachable from construction (with `k ≥ 1`) by its public
operations, calls that throw included, before the 64-bit clock wraps; `reorder` admits
any iteration order of `node_store_`. -/
inductive Reachable : LRUKReplacer → Prop where
  | init (num_frames k : Nat) (hk : 1 ≤ k) : Reachable (new num_frames k)
  | recordAccess (r : LRUKReplacer) (f : frame_id_t) :
      Reachable r → r.current_timestamp + 1 < SIZE_MOD → Reachable (after (RecordAccess r f))
  | setEvictable (r : LRUKReplacer) (f : frame_id_t) (b : Bool) :
      Reachable r → Reachable (after (SetEvictable r f b))
  | evict (r : LRUKReplacer) :
      Reachable r → r.current_timestamp + 1 < SIZE_MOD → Reachable (Evict r).2
  | remove (r : LRUKReplacer) (f : frame_id_t) : Reachable r → Reachable (after (Remove r f))
  | reorder (r : LRUKReplacer) (ns : List (frame_id_t × LRUKNode)) :
      Reachable r → ns.Perm r.node_store → Reachable { r with node_store := ns }

end LRUKReplacer

/-! ## Buffer pool manager -/

/-- The bytes of one page (`char data_[BUSTUB_PAGE_SIZE]`), as a list of byte values. -/
abbrev PageData := List Nat

/-- Modelled from the spec: the class `Page` is declared in `storage/page/page.h`, which is
not among the source files.  The spec (section 3, "Page frame") gives each frame a
`page_id` (an "invalid" sentinel, `-1`, when the frame holds no page), a `data` buffer, a
`pin_count` and an `is_dirty` flag.  `pin_count` is a signed `int` that the source
compares with `<= 0`; it is embedded as an unbounded integer. -/
structure Page where
  data : PageData := []
  page_id : page_id_t := -1
  pin_count : Int := 0
  is_dirty : Bool := false
deriving DecidableEq

/-- Modelled from the spec: the disk manager is an external collaborator (section 6):
`WritePage(page_id, buffer)` persists the buffer as the page's bytes and
`ReadPage(page_id, buffer)` populates the buffer with the page's bytes.  The model keeps
the sequence of writes and the sequence of page ids read, each newest first; a page
never written reads as the empty buffer. -/
structure DiskManager where
  writes : List (page_id_t × PageData) := []
  reads : List page_id_t := []
deriving DecidableEq

/-- The call `disk_manager_->WritePage(page_id, data)`. -/
def DiskManager.WritePage (d : DiskManager) (page_id : page_id_t) (data : PageData) :
    DiskManager :=
  { d with writes := (page_id, data) :: d.writes }

/-- The bytes the disk holds for a page: those last written under its id. -/
def DiskManager.bytes (d : DiskManager) (page_id : page_id_t) : PageData :=
  match d.writes.find? (fun e => e.1 == page_id) with
  | some e => e.2
  | none => []

/-- The call `disk_manager_->ReadPage(page_id, data)`: the bytes placed in the buffer, and
the disk manager with the read recorded. -/
def DiskManager.ReadPage (d : DiskManager) (page_id : page_id_t) :
    PageData × DiskManager :=
  (d.bytes page_id, { d with reads := page_id :: d.reads })

/-- The class `BufferPoolManager`: `pages_` indexed by frame id, the replacer, the free
list (front of the `std::list` = head), `page_table_` in iteration order, the page id
counter, the disk behind `disk_manager_`, and the page ids handed to `DeallocatePage`. -/
structure BufferPoolManager where
  pool_size : Nat
  pages : frame_id_t → Page
  replacer : LRUKReplacer
  free_list : List frame_id_t
  page_table : List (page_id_t × frame_id_t)
  next_page_id : page_id_t
  disk_manager : DiskManager
  deallocated : List page_id_t

namespace BufferPoolManager

/-- The constructor (lines 21-32): `pages_` holds `pool_size` default pages, the replacer
is `LRUKReplacer(pool_size, replacer_k)`, and all frames are on the free list in index
order.  The disk manager is supplied by the caller; the page table starts empty and the
page id counter at zero (spec, section 6). -/
def new (pool_size replacer_k : Nat) (disk : DiskManager) : BufferPoolManager :=
  { pool_size := pool_size
    pages := fun _ => {}
    replacer := LRUKReplacer.new pool_size replacer_k
    free_list := (List.range pool_size).map Int.ofNat
    page_table := []
    next_page_id := 0
    disk_manager := disk
    deallocated := [] }

/-- The lookup `find(page_id)` on the entries of the page table. -/
def tableFind (t : List (page_id_t × frame_id_t)) (page_id : page_id_t) : Option frame_id_t :=
  (t.find? (fun e => e.1 == page_id)).map Prod.snd

/-- The lookup `page_table_.find(page_id)`; `none` stands for `page_table_.end()`. -/
def findPage (s : BufferPoolManager) (page_id : page_id_t) : Option frame_id_t :=
  tableFind s.page_table page_id

/-- The call `page_table_.erase(page_id)` on the list of entries. -/
def tableErase (t : List (page_id_t × frame_id_t)) (page_id : page_id_t) :
    List (page_id_t × frame_id_t) :=
  t.filter (fun e => !(e.1 == page_id))

/-- The call `page_table_.insert(std::make_pair(page_id, frame_id))`: `insert` on a
`std::unordered_map` leaves the map unchanged when the key is already present. -/
def tableInsert (t : List (page_id_t × frame_id_t)) (page_id : page_id_t)
    (frame_id : frame_id_t) : List (page_id_t × frame_id_t) :=
  if t.any (fun e => e.1 == page_id) then t else (page_id, frame_id) :: t

/-- An assignment to the fields of `pages_[frame_id]`. -/
def setPage (s : BufferPoolManager) (frame_id : frame_id_t) (p : Page) : BufferPoolManager :=
  { s with pages := fun f => if f = frame_id then p else s.pages f }

/-- The frame choice shared verbatim by `NewPage` (lines 39-54) and `FetchPage`
(lines 79-94): the front of the free list, else a frame from `Evict`, whose bytes are
written back when dirty and whose page id leaves the page table; `none` is the
`return nullptr` branch. -/
def acquireFrame (s : BufferPoolManager) : Option frame_id_t × BufferPoolManager :=
  match s.free_list with
  | f :: rest => (some f, { s with free_list := rest })
  | [] =>
    match s.replacer.Evict with
    | (some f, r) =>
      let disk :=
        if (s.pages f).is_dirty then
          s.disk_manager.WritePage (s.pages f).page_id (s.pages f).data
        else s.disk_manager
      (some f, { s with replacer := r, disk_manager := disk,
                        page_table := tableErase s.page_table (s.pages f).page_id })
    | (none, r) => (none, { s with replacer := r })

/-- The calls `replacer_->RecordAccess(f); replacer_->SetEvictable(f, false)` that end
`NewPage` and the miss path of `FetchPage`; a throw leaves the state reached so far. -/
def recordAndPin (s : BufferPoolManager) (f : frame_id_t) :
    Except BufferPoolManager BufferPoolManager :=
  match s.replacer.RecordAccess f with
  | .error r => .error { s with replacer := r }
  | .ok r =>
    match r.SetEvictable f false with
    | .error r1 => .error { s with replacer := r1 }
    | .ok r1 => .ok { s with replacer := r1 }

/-- The method `AllocatePage` (line 165): `return next_page_id_++`.  The counter is
declared in the header; the spec (section 6) makes it a monotonic counter starting at
zero, embedded here as an unbounded integer. -/
def AllocatePage (s : BufferPoolManager) : page_id_t × BufferPoolManager :=
  (s.next_page_id, { s with next_page_id := s.next_page_id + 1 })

/-- The method `NewPage` (lines 36-65): it returns the frame (for the `Page *`) and the
value written to `*page_id`, or `none` for `nullptr`. -/
def NewPage (s : BufferPoolManager) :
    Except BufferPoolManager (Option (frame_id_t × page_id_t) × BufferPoolManager) :=
  match acquireFrame s with
  | (none, s1) => .ok (none, s1)
  | (some replacement_frame, s1) =>
    let new_page_id := (AllocatePage s1).1
    let s2 := (AllocatePage s1).2
    let pg := s2.pages replacement_frame
    let s3 := setPage s2 replacement_frame
      { pg with page_id := new_page_id, pin_count := pg.pin_count + 1, is_dirty := false }
    let s4 := { s3 with page_table := tableInsert s3.page_table new_page_id replacement_frame }
    match recordAndPin s4 replacement_frame with
    | .error s5 => .error s5
    | .ok s5 => .ok (some (replacement_frame, new_page_id), s5)

/-- The method `FetchPage` (lines 67-104); `access_type` is unused. -/
def FetchPage (s : BufferPoolManager) (page_id : page_id_t) :
    Except BufferPoolManager (Option frame_id_t × BufferPoolManager) :=
  match s.findPage page_id with
  | some frame_id =>
    match s.replacer.RecordAccess frame_id with
    | .error r => .error { s with replacer := r }
    | .ok r =>
      let s1 := { s with replacer := r }
      let pg := s1.pages frame_id
      let s2 := setPage s1 frame_id { pg with pin_count := pg.pin_count + 1 }
      match s2.replacer.SetEvictable frame_id false with
      | .error r1 => .error { s2 with replacer := r1 }
      | .ok r1 => .ok (some frame_id, { s2 with replacer := r1 })
  | none =>
    match acquireFrame s with
    | (none, s1) => .ok (none, s1)
    | (some frame_id, s0) =>
      let s1 := { s0 with disk_manager := (s0.disk_manager.ReadPage page_id).2 }
      let pg := s1.pages frame_id
      let s2 := setPage s1 frame_id
        { data := (s0.disk_manager.ReadPage page_id).1, page_id := page_id,
          pin_count := pg.pin_count + 1, is_dirty := false }
      let s3 := { s2 with page_table := tableInsert s2.page_table page_id frame_id }
      match recordAndPin s3 frame_id with
      | .error s4 => .error s4
      | .ok s4 => .ok (some frame_id, s4)

/-- The method `UnpinPage` (lines 106-125); `access_type` is unused. -/
def UnpinPage (s : BufferPoolManager) (page_id : page_id_t) (is_dirty : Bool) :
    Except BufferPoolManager (Bool × BufferPoolManager) :=
  match s.findPage page_id with
  | none => .ok (false, s)
  | some frame_id =>
    if (s.pages frame_id).pin_count ≤ 0 then .ok (false, s)
    else
      let pg := s.pages frame_id
      let s1 := setPage s frame_id { pg with pin_count := pg.pin_count - 1 }
      let marked :=
        if (s1.pages frame_id).pin_count = 0 then s1.replacer.SetEvictable frame_id true
        else .ok s1.replacer
      match marked with
      | .error r => .error { s1 with replacer := r }
      | .ok r =>
        let s2 := { s1 with replacer := r }
        let s3 :=
          if (!(s2.pages frame_id).is_dirty) && is_dirty then
            setPage s2 frame_id { s2.pages frame_id with is_dirty := is_dirty }
          else s2
        .ok (true, s3)

/-- The method `FlushPage` (lines 127-137). -/
def FlushPage (s : BufferPoolManager) (page_id : page_id_t) : Bool × BufferPoolManager :=
  match s.findPage page_id with
  | none => (false, s)
  | some frame_id =>
    let s1 := { s with disk_manager :=
                  s.disk_manager.WritePage page_id (s.pages frame_id).data }
    (true, setPage s1 frame_id { s1.pages frame_id with is_dirty := false })

/-- The method `FlushAllPages` (lines 139-145): `FlushPage` on every key of the page
table, in iteration order (`FlushPage` does not alter the table). -/
def FlushAllPages (s : BufferPoolManager) : BufferPoolManager :=
  s.page_table.foldl (fun acc it => (FlushPage acc it.1).2) s

/-- Modelled from the spec: `DeallocatePage` is defined in the header, which is not among
the source files.  The spec (section 4.2, `DeletePage`) says the page id is released "to
the external deallocator"; the model records the released ids, newest first. -/
def DeallocatePage (s : BufferPoolManager) (page_id : page_id_t) : BufferPoolManager :=
  { s with deallocated := page_id :: s.deallocated }

/-- The method `DeletePage` (lines 147-163). -/
def DeletePage (s : BufferPoolManager) (page_id : page_id_t) :
    Except BufferPoolManager (Bool × BufferPoolManager) :=
  match s.findPage page_id with
  | none => .ok (true, s)
  | some frame_id =>
    if (s.pages frame_id).pin_count > 0 then .ok (false, s)
    else
      match s.replacer.Remove frame_id with
      | .error r => .error { s with replacer := r }
      | .ok r =>
        let s1 := { s with replacer := r }
        let s2 := { s1 with page_table := tableErase s1.page_table page_id }
        let s3 := { s2 with free_list := s2.free_list ++ [frame_id] }
        .ok (true, DeallocatePage s3 page_id)

/-- A caller storing bytes through the `Page *` it was handed (`GetData()`). -/
def WriteData (s : BufferPoolManager) (frame_id : frame_id_t) (bytes : PageData) :
    BufferPoolManager :=
  setPage s frame_id { s.pages frame_id with data := bytes }

/-- The public operations, with their arguments; `WriteData` is the caller's store into a
frame it holds. -/
inductive Op where
  | NewPage
  | FetchPage (page_id : page_id_t)
  | UnpinPage (page_id : page_id_t) (is_dirty : Bool)
  | FlushPage (page_id : page_id_t)
  | FlushAllPages
  | DeletePage (page_id : page_id_t)
  | WriteData (frame_id : frame_id_t) (bytes : PageData)
deriving DecidableEq

/-- The state a call leaves behind, whether it returned or threw. -/
def after {α : Type} (x : Except BufferPoolManager (α × BufferPoolManager)) :
    BufferPoolManager :=
  match x with
  | .ok (_, s) => s
  | .error s => s

/-- The value a call returned, `none` when it threw. -/
def returned {α : Type} (x : Except BufferPoolManager (α × BufferPoolManager)) : Option α :=
  match x with
  | .ok (a, _) => some a
  | .error _ => none

/-- The state after one operation. -/
def exec (s : BufferPoolManager) : Op → BufferPoolManager
  | .NewPage => after (NewPage s)
  | .FetchPage p => after (FetchPage s p)
  | .UnpinPage p d => after (UnpinPage s p d)
  | .FlushPage p => (FlushPage s p).2
  | .FlushAllPages => FlushAllPages s
  | .DeletePage p => after (DeletePage s p)
  | .WriteData f b => WriteData s f b

/-- The states reachable from construction (a pool of fewer than `2 ^ 31` frames, so that
`static_cast<int>(i)` is exact) by public operations, calls that throw included.  The
iteration order of the two hash maps is unspecified: `reorder` admits any order. -/
inductive Reachable : BufferPoolManager → Prop where
  | init (pool_size replacer_k : Nat) (disk : DiskManager) (h : pool_size < 2 ^ 31) :
      Reachable (new pool_size replacer_k disk)
  | step (s : BufferPoolManager) (op : Op) : Reachable s → Reachable (exec s op)
  | reorder (s : BufferPoolManager) (ns : List (frame_id_t × LRUKNode))
      (pt : List (page_id_t × frame_id_t)) :
      Reachable s → ns.Perm s.replacer.node_store → pt.Perm s.page_table →
      Reachable { s with replacer := { s.replacer with node_store := ns }, page_table := pt }

/-- The invariant of the buffer pool, on the components it constrains: the two maps have
distinct keys and the free list distinct entries; the replacer's capacity is the pool
size and `curr_size_` counts its nodes; tracked frames are frame indices, and a tracked
frame is evictable exactly when its pin count is zero; a frame on the free list is a
frame index that is untracked, unmapped and unpinned; a page-table entry points at a
tracked frame labelled with the entry's page id; pin counts are non-negative. -/
structure InvC (pool_size : Nat) (pages : frame_id_t → Page) (r : LRUKReplacer)
    (free_list : List frame_id_t) (t : List (page_id_t × frame_id_t)) : Prop where
  keys_nodup : (r.node_store.map Prod.fst).Nodup
  table_nodup : (t.map Prod.fst).Nodup
  free_nodup : free_list.Nodup
  pool_small : pool_size < 2 ^ 31
  capacity : r.replacer_size = pool_size
  curr_size_eq : r.curr_size = r.node_store.length
  keys_range : ∀ f ∈ r.node_store.map Prod.fst, 0 ≤ f ∧ f < pool_size
  evictable_iff : ∀ f n, r.find f = some n →
    (n.is_evictable = true ↔ (pages f).pin_count = 0)
  free_ok : ∀ f ∈ free_list, 0 ≤ f ∧ f < pool_size ∧ r.find f = none ∧
    (∀ p, tableFind t p ≠ some f) ∧ (pages f).pin_count = 0
  table_ok : ∀ p f, tableFind t p = some f → r.find f ≠ none ∧ (pages f).page_id = p
  pin_nonneg : ∀ f, 0 ≤ (pages f).pin_count

/-- The invariant of the buffer pool (`Reachable.bpm_inv`: it holds in every reachable
state). -/
def Inv (s : BufferPoolManager) : Prop :=
  InvC s.pool_size s.pages s.replacer s.free_list s.page_table

/-- A frame index that is untracked, off the free list and unmapped: the condition of a
frame just taken by `acquireFrame`. -/
def Detached (s : BufferPoolManager) (f : frame_id_t) : Prop :=
  0 ≤ f ∧ f < s.pool_size ∧ s.replacer.find f = none ∧ f ∉ s.free_list ∧
    ∀ p, s.findPage p ≠ some f

/-- A pool of one frame (`k = 2`, empty disk) after one `NewPage`: page 0 sits in frame 0
with pin count 1 and the free list is empty. -/
def fullPool : BufferPoolManager := exec (new 1 2 {}) .NewPage

/-- The pool `fullPool` after `UnpinPage(0, true)`: page 0 is unpinned and dirty. -/
def dirtyPool : BufferPoolManager := exec fullPool (.UnpinPage 0 true)

/-- The pool `dirtyPool` after `FetchPage(0)`: page 0 is pinned again and still dirty. -/
def refetched : BufferPoolManager := exec dirtyPool (.FetchPage 0)

end BufferPoolManager

/-! ## Concrete replacer states -/

namespace LRUKReplacer

instance (r : LRUKReplacer) : Decidable (WF r) := by
  unfold WF
  infer_instance

/-- A sequence of `RecordAccess` calls, one per listed frame. -/
def recordAll (r : LRUKReplacer) (fs : List frame_id_t) : LRUKReplacer :=
  fs.foldl (fun r f => after (RecordAccess r f)) r

/-- A sequence of `SetEvictable(f, true)` calls, one per listed frame. -/
def markAll (r : LRUKReplacer) (fs : List frame_id_t) : LRUKReplacer :=
  fs.foldl (fun r f => after (SetEvictable r f true)) r

/-- A fresh replacer (capacity 1, `k = 2`) after `RecordAccess(0)`: one tracked node,
not evictable. -/
def onePinned : LRUKReplacer := recordAll (new 1 2) [0]

/-- Scenario 3 of the spec (section 8): `k = 2`, capacity 3, accesses f0, f1, f2, f0, f1
at timestamps 1..5, all three frames evictable. -/
def scenario3 : LRUKReplacer := markAll (recordAll (new 3 2) [0, 1, 2, 0, 1]) [0, 1, 2]

/-- The state (capacity 4, `k = 2`) after `RecordAccess(0)` twice, `SetEvictable(0, true)`
and `n` calls `RecordAccess(3)`, for a clock value `c = 2 + n` with `n ≥ 2`. -/
def busyState (c : Nat) : LRUKReplacer :=
  { node_store :=
      [(3, { history := [c, c - 1], k := 2, fid := 3, is_evictable := false }),
       (0, { history := [2, 1], k := 2, fid := 0, is_evictable := true })]
    current_timestamp := c
    curr_size := 2
    evictable_size := 1
    replacer_size := 4
    k := 2 }

/-- The state `busyState (2 ^ 31 + 2)` followed by `RecordAccess(1)`, `RecordAccess(2)`,
`SetEvictable(1, true)`, `SetEvictable(2, true)`: the clock has passed `INT_MAX`. -/
def lateState : LRUKReplacer :=
  markAll (recordAll (busyState 2147483650) [1, 2]) [1, 2]

end LRUKReplacer

namespace LRUKReplacer

/-- Scenario 4 of the spec (section 8): `k = 2`, capacity 3, accesses f0, f1, f2, f0, f1,
f2 at timestamps 1..6 on a fresh replacer, all three frames evictable. -/
def scenario4 : LRUKReplacer :=
  markAll (recordAll (new 3 2) [0, 1, 2, 0, 1, 2]) [0, 1, 2]

/-- A replacer (capacity 2, `k = 2`) after `RecordAccess(0)`, `RecordAccess(1)` and
`SetEvictable(1, true)`: frame 0 is tracked and not evictable, frame 1 is evictable. -/
def mixedPair : LRUKReplacer := markAll (recordAll (new 2 2) [0, 1]) [1]

/-- A fresh replacer (capacity 1, `k = 2`) after `RecordAccess(0)`, `Evict` (which takes
the non-evictable node and runs `evictable_size_--` on zero) and `RecordAccess(0)`: one
tracked node, not evictable, with `evictable_size_` at `2 ^ 64 - 1`. -/
def wrappedSize : LRUKReplacer := recordAll (Evict onePinned).2 [0]

/-- The state `wrappedSize` after `SetEvictable(0, true)`: one tracked node, evictable,
with `evictable_size_` at zero. -/
def zeroSize : LRUKReplacer := markAll wrappedSize [0]

end LRUKReplacer

namespace BufferPoolManager

/-- The calls of a client that fetches only pages it knows of: `FetchPage` is called with
a page id below the page id counter, hence with no id that `NewPage` has yet to issue. -/
def Op.issued (s : BufferPoolManager) : Op → Prop
  | .FetchPage p => p < s.next_page_id
  | _ => True

/-- The states reachable from construction by public operations when every `FetchPage`
asks for a page id below the page id counter. -/
inductive ReachableIssued : BufferPoolManager → Prop where
  | init (pool_size replacer_k : Nat) (disk : DiskManager) (h : pool_size < 2 ^ 31) :
      ReachableIssued (new pool_size replacer_k disk)
  | step (s : BufferPoolManager) (op : Op) :
      ReachableIssued s → Op.issued s op → ReachableIssued (exec s op)
  | reorder (s : BufferPoolManager) (ns : List (frame_id_t × LRUKNode))
      (pt : List (page_id_t × frame_id_t)) :
      ReachableIssued s → ns.Perm s.replacer.node_store → pt.Perm s.page_table →
      ReachableIssued
        { s with replacer := { s.replacer with node_store := ns }, page_table := pt }

/-- What holds in addition to `Inv` when no page id is fetched before it is issued: a
tracked frame is the one its page id is mapped to, every mapped page id is below the page
id counter, and every frame index is on the free list or tracked. -/
structure Tight (s : BufferPoolManager) : Prop where
  tracked_mapped : ∀ (f : frame_id_t) (n : LRUKNode), s.replacer.find f = some n →
    s.findPage (s.pages f).page_id = some f
  keys_issued : ∀ (p : page_id_t) (f : frame_id_t), s.findPage p = some f →
    p < s.next_page_id
  frames_placed : ∀ f : frame_id_t, 0 ≤ f → f < s.pool_size →
    f ∈ s.free_list ∨ s.replacer.find f ≠ none

/-- A stretch of a run in which page `p` is not brought in: public operations with every
`FetchPage` below the page id counter, where a `FetchPage(p)` is one that returns
`nullptr`. -/
inductive Away (p : page_id_t) : BufferPoolManager → BufferPoolManager → Prop where
  | refl (s : BufferPoolManager) : Away p s s
  | step (s t : BufferPoolManager) (op : Op) :
      Away p s t → Op.issued t op →
      (op = .FetchPage p → returned (FetchPage t p) = some none) →
      Away p s (exec t op)
  | reorder (s t : BufferPoolManager) (ns : List (frame_id_t × LRUKNode))
      (pt : List (page_id_t × frame_id_t)) :
      Away p s t → ns.Perm t.replacer.node_store → pt.Perm t.page_table →
      Away p s { t with replacer := { t.replacer with node_store := ns }, page_table := pt }

/-- The state after a sequence of operations. -/
def execAll (s : BufferPoolManager) (ops : List Op) : BufferPoolManager :=
  ops.foldl exec s

/-- A pool of two frames (`k = 2`, empty disk) after `FetchPage(0)`, called before any
page id was issued: page id 0 is mapped to frame 0. -/
def strayPool : BufferPoolManager := exec (new 2 2 {}) (.FetchPage 0)

/-- The pool `strayPool` after `NewPage`, which issues page id 0 and takes frame 1. -/
def clashPool : BufferPoolManager := exec strayPool .NewPage

/-- A pool of one frame in which page id 1 is fetched before it is issued, filled with
the bytes `[66]` and unpinned dirty; `NewPage` (issuing id 0) evicts it, and the new page
is filled with `[67]` and unpinned clean. -/
def stalePool : BufferPoolManager :=
  execAll (new 1 2 {})
    [.FetchPage 1, .WriteData 0 [66], .UnpinPage 1 true, .NewPage, .WriteData 0 [67],
     .UnpinPage 0 false]

/-- A pool of two frames after two `NewPage` calls and `UnpinPage(0, true)` with the
bytes `[65]` in page 0: both frames are in use, page 0 is unpinned and dirty. -/
def busyPool : BufferPoolManager :=
  execAll (new 2 2 {}) [.NewPage, .WriteData 0 [65], .NewPage, .UnpinPage 0 true]

end BufferPoolManager

/-! ## Lemmas: machine integers -/

theorem size_sub_eq (a b : Nat) (hb : b ≤ a) (ha : a < SIZE_MOD) : size_sub a b = a - b := by
  unfold size_sub SIZE_MOD at *
  omega

theorem size_inc_eq (a : Nat) (ha : a + 1 < SIZE_MOD) : size_inc a = a + 1 := by
  unfold size_inc SIZE_MOD at *
  omega

theorem size_dec_eq (a : Nat) (h0 : 0 < a) (ha : a < SIZE_MOD) : size_dec a = a - 1 := by
  unfold size_dec SIZE_MOD at *
  omega

/-! ## Lemmas: the scan of `Evict` -/

namespace LRUKReplacer

theorem evictStep_eq (k ts : Nat) (acc : EvictAcc) (it : frame_id_t × LRUKNode) :
    evictStep k ts acc it =
      if it.2.is_evictable = true ∧
          beats (curK k ts it.2) (curLast ts it.2) acc.max_k_distance acc.max_last_access_time
      then ⟨curK k ts it.2, curLast ts it.2, some it.1⟩ else acc := by
  unfold evictStep beats curK curLast
  by_cases he : it.2.is_evictable = true
  · simp only [he, Bool.true_eq_false, if_false, true_and]
    split_ifs <;> first | rfl | (exfalso; omega)
  · simp [he]

/-- The loop of `Evict` from any starting accumulator: either nothing replaced the
accumulator and no evictable entry beats it, or the result is an evictable entry that
beats the accumulator and is beaten by no evictable entry. -/
theorem foldl_evictStep (k ts : Nat) (l : List (frame_id_t × LRUKNode)) (acc : EvictAcc) :
    (l.foldl (evictStep k ts) acc = acc ∧
      ∀ e ∈ l, e.2.is_evictable = true →
        ¬ beats (curK k ts e.2) (curLast ts e.2) acc.max_k_distance acc.max_last_access_time) ∨
    (∃ e ∈ l, e.2.is_evictable = true ∧
      l.foldl (evictStep k ts) acc = ⟨curK k ts e.2, curLast ts e.2, some e.1⟩ ∧
      beats (curK k ts e.2) (curLast ts e.2) acc.max_k_distance acc.max_last_access_time ∧
      ∀ e1 ∈ l, e1.2.is_evictable = true →
        ¬ beats (curK k ts e1.2) (curLast ts e1.2) (curK k ts e.2) (curLast ts e.2)) := by
  induction l generalizing acc with
  | nil => left; simp
  | cons x xs ih =>
    rw [List.foldl_cons, evictStep_eq]
    by_cases hx : x.2.is_evictable = true ∧
        beats (curK k ts x.2) (curLast ts x.2) acc.max_k_distance acc.max_last_access_time
    · rw [if_pos hx]
      right
      rcases ih ⟨curK k ts x.2, curLast ts x.2, some x.1⟩ with ⟨h1, h2⟩ | ⟨e, he, hev, h1, h2, h3⟩
      · refine ⟨x, List.mem_cons_self _ _, hx.1, h1, hx.2, ?_⟩
        intro e1 he1 hev1
        rcases List.mem_cons.1 he1 with rfl | hmem
        · unfold beats; omega
        · exact h2 e1 hmem hev1
      · refine ⟨e, List.mem_cons_of_mem _ he, hev, h1, ?_, ?_⟩
        · have := hx.2
          unfold beats at *
          simp only at h2
          omega
        · intro e1 he1 hev1
          rcases List.mem_cons.1 he1 with rfl | hmem
          · unfold beats at *
            simp only at h2
            omega
          · exact h3 e1 hmem hev1
    · rw [if_neg hx]
      rcases ih acc with ⟨h1, h2⟩ | ⟨e, he, hev, h1, h2, h3⟩
      · left
        refine ⟨h1, ?_⟩
        intro e1 he1 hev1
        rcases List.mem_cons.1 he1 with rfl | hmem
        · exact fun hb => hx ⟨hev1, hb⟩
        · exact h2 e1 hmem hev1
      · right
        refine ⟨e, List.mem_cons_of_mem _ he, hev, h1, h2, ?_⟩
        intro e1 he1 hev1
        rcases List.mem_cons.1 he1 with rfl | hmem
        · have hnb : ¬ beats (curK k ts e1.2) (curLast ts e1.2) acc.max_k_distance
              acc.max_last_access_time := fun hb => hx ⟨hev1, hb⟩
          unfold beats at *
          omega
        · exact h3 e1 hmem hev1

end LRUKReplacer

/-! ## Lemmas: association lists -/

theorem find_key_mem {β : Type} (l : List (Int × β)) (k : Int) (e : Int × β)
    (h : l.find? (fun e => e.1 == k) = some e) : e ∈ l ∧ e.1 = k := by
  refine ⟨List.mem_of_find?_eq_some h, ?_⟩
  have := List.find?_some h
  simpa using this

theorem find_key_of_mem {β : Type} (l : List (Int × β)) (e : Int × β)
    (hnd : (l.map Prod.fst).Nodup) (he : e ∈ l) :
    l.find? (fun x => x.1 == e.1) = some e := by
  induction l with
  | nil => cases he
  | cons x xs ih =>
    rw [List.map_cons, List.nodup_cons] at hnd
    rcases List.mem_cons.1 he with rfl | hmem
    · simp
    · have hne : ¬ x.1 = e.1 := by
        intro hxe
        exact hnd.1 (hxe ▸ List.mem_map_of_mem Prod.fst hmem)
      rw [List.find?_cons_of_neg _ (by simpa using hne)]
      exact ih hnd.2 hmem

theorem find_key_none {β : Type} (l : List (Int × β)) (k : Int) :
    l.find? (fun e => e.1 == k) = none ↔ k ∉ l.map Prod.fst := by
  simp [List.find?_eq_none]
  constructor
  · intro h x hx
    exact h k x hx rfl
  · intro h a b hab hk
    subst hk
    exact h b hab

theorem filter_key_nodup {β : Type} (l : List (Int × β)) (p : Int × β → Bool)
    (hnd : (l.map Prod.fst).Nodup) : ((l.filter p).map Prod.fst).Nodup :=
  List.Nodup.sublist (List.Sublist.map _ (List.filter_sublist l)) hnd

namespace LRUKReplacer

theorem find_some_mem (r : LRUKReplacer) (f : frame_id_t) (n : LRUKNode)
    (h : r.find f = some n) : (f, n) ∈ r.node_store := by
  unfold find at h
  cases hf : r.node_store.find? (fun e => e.1 == f) with
  | none => simp [hf] at h
  | some e =>
    rw [hf] at h
    obtain ⟨hm, hk⟩ := find_key_mem _ _ _ hf
    simp only [Option.map_some', Option.some.injEq] at h
    rcases e with ⟨a, b⟩
    simp only at h hk
    subst h hk
    exact hm

theorem find_of_mem (r : LRUKReplacer) (e : frame_id_t × LRUKNode)
    (hnd : (r.node_store.map Prod.fst).Nodup) (he : e ∈ r.node_store) :
    r.find e.1 = some e.2 := by
  unfold find
  rw [find_key_of_mem _ e hnd he]
  rfl

theorem find_none_iff (r : LRUKReplacer) (f : frame_id_t) :
    r.find f = none ↔ f ∉ r.node_store.map Prod.fst := by
  unfold find
  rw [Option.map_eq_none', find_key_none]

theorem mem_eraseKey (l : List (frame_id_t × LRUKNode)) (f : frame_id_t)
    (e : frame_id_t × LRUKNode) : e ∈ eraseKey l f ↔ e ∈ l ∧ e.1 ≠ f := by
  simp [eraseKey]

theorem modifyKey_keys (l : List (frame_id_t × LRUKNode)) (f : frame_id_t)
    (m : LRUKNode → LRUKNode) : (modifyKey l f m).map Prod.fst = l.map Prod.fst := by
  unfold modifyKey
  rw [List.map_map]
  apply List.map_congr_left
  intro e _
  simp only [Function.comp]
  split_ifs <;> rfl

theorem mem_modifyKey (l : List (frame_id_t × LRUKNode)) (f : frame_id_t)
    (m : LRUKNode → LRUKNode) (e : frame_id_t × LRUKNode) (he : e ∈ modifyKey l f m) :
    (e ∈ l ∧ e.1 ≠ f) ∨ (∃ n, (f, n) ∈ l ∧ e = (f, m n)) := by
  unfold modifyKey at he
  rw [List.mem_map] at he
  obtain ⟨e0, h0, rfl⟩ := he
  by_cases hk : e0.1 = f
  · right
    refine ⟨e0.2, ?_, ?_⟩
    · rw [← hk]; exact h0
    · simp [hk]
  · left
    simp [hk, h0]

/-- What the scan leaves in `target_it`: `end()` only for an empty store, and otherwise
the key of a stored entry. -/
theorem evictScan_target (r : LRUKReplacer) :
    ((evictScan r).target_it = none ∧ r.node_store = []) ∨
    (∃ e ∈ r.node_store, (evictScan r).target_it = some e.1) := by
  unfold evictScan
  rcases foldl_evictStep r.k r.current_timestamp r.node_store
      ⟨0, 0, r.node_store.head?.map Prod.fst⟩ with ⟨h1, _⟩ | ⟨e, he, _, h1, _⟩
  · rw [h1]
    cases hs : r.node_store with
    | nil => left; simp
    | cons x xs => right; exact ⟨x, List.mem_cons_self _ _, by simp⟩
  · right
    exact ⟨e, he, by rw [h1]⟩

/-- When some evictable entry has a positive `cur_k_distance`, the scan ends at an
evictable entry that no evictable entry beats. -/
theorem evictScan_max (r : LRUKReplacer)
    (hpos : ∃ e ∈ r.node_store, e.2.is_evictable = true ∧ 0 < curK r.k r.current_timestamp e.2) :
    ∃ e ∈ r.node_store, e.2.is_evictable = true ∧ (evictScan r).target_it = some e.1 ∧
      ∀ e1 ∈ r.node_store, e1.2.is_evictable = true →
        ¬ beats (curK r.k r.current_timestamp e1.2) (curLast r.current_timestamp e1.2)
            (curK r.k r.current_timestamp e.2) (curLast r.current_timestamp e.2) := by
  unfold evictScan
  rcases foldl_evictStep r.k r.current_timestamp r.node_store
      ⟨0, 0, r.node_store.head?.map Prod.fst⟩ with ⟨_, h2⟩ | ⟨e, he, hev, h1, _, h3⟩
  · obtain ⟨e, he, hev, hp⟩ := hpos
    exact absurd (Or.inl hp) (h2 e he hev)
  · exact ⟨e, he, hev, by rw [h1], h3⟩

theorem Evict_fst (r : LRUKReplacer) :
    (Evict r).1 =
      (evictScan { r with current_timestamp := size_inc r.current_timestamp }).target_it := by
  unfold Evict
  simp only
  split <;> simp_all

end LRUKReplacer

/-! ## Lemmas: victim selection in well-formed states -/

namespace LRUKReplacer

theorem front_mem (n : LRUKNode) (h : n.history ≠ []) : n.front ∈ n.history := by
  unfold LRUKNode.front
  cases hh : n.history with
  | nil => exact absurd hh h
  | cons x xs => simp

theorem back_mem (n : LRUKNode) (h : n.history ≠ []) : n.back ∈ n.history := by
  unfold LRUKNode.back
  rw [List.getLast?_eq_getLast _ h]
  exact List.getLast_mem h

/-- The victim among under-accessed frames.  In a well-formed state with the clock below
`INT_MAX` in which some evictable entry has fewer than `k` timestamps, `Evict` returns the
key of an evictable entry with fewer than `k` timestamps whose `front()` is least among
such entries. -/
theorem Evict_under_k (r : LRUKReplacer) (hwf : WF r) (hclock : r.current_timestamp < INT_MAX)
    (hex : ∃ e ∈ r.node_store, e.2.is_evictable = true ∧ e.2.history.length < r.k) :
    ∃ e ∈ r.node_store, (Evict r).1 = some e.1 ∧ e.2.is_evictable = true ∧
      e.2.history.length < r.k ∧
      ∀ e1 ∈ r.node_store, e1.2.is_evictable = true → e1.2.history.length < r.k →
        e.2.front ≤ e1.2.front := by
  obtain ⟨e0, he0, hev0, hlen0⟩ := hex
  have hts : size_inc r.current_timestamp = r.current_timestamp + 1 := by
    apply size_inc_eq
    unfold INT_MAX at hclock
    unfold SIZE_MOD
    omega
  have hK0 : curK r.k (r.current_timestamp + 1) e0.2 = INT_MAX := by
    unfold curK
    rw [if_pos hlen0]
  obtain ⟨e, he, hev, htarget, hmax⟩ :=
    evictScan_max { r with current_timestamp := size_inc r.current_timestamp }
      ⟨e0, he0, hev0, by
        show 0 < curK r.k (size_inc r.current_timestamp) e0.2
        rw [hts, hK0]
        decide⟩
  simp only [hts] at htarget hmax he
  have hsub : ∀ x ∈ r.node_store, curLast (r.current_timestamp + 1) x.2 =
      r.current_timestamp + 1 - x.2.front := by
    intro x hx
    have hb := (hwf.2 x hx).2 _ (front_mem _ (hwf.2 x hx).1)
    unfold curLast
    apply size_sub_eq
    · omega
    · unfold INT_MAX at hclock
      unfold SIZE_MOD
      omega
  have hfront : ∀ x ∈ r.node_store, x.2.front ≤ r.current_timestamp := fun x hx =>
    ((hwf.2 x hx).2 _ (front_mem _ (hwf.2 x hx).1)).2
  have hlen : e.2.history.length < r.k := by
    by_contra hge
    have hb := (hwf.2 e he).2 _ (back_mem _ (hwf.2 e he).1)
    have hK : curK r.k (r.current_timestamp + 1) e.2 = r.current_timestamp + 1 - e.2.back := by
      unfold curK
      rw [if_neg hge]
      apply size_sub_eq
      · omega
      · unfold INT_MAX at hclock
        unfold SIZE_MOD
        omega
    apply hmax e0 he0 hev0
    left
    rw [hK0, hK]
    omega
  refine ⟨e, he, ?_, hev, hlen, ?_⟩
  · rw [Evict_fst]
    simpa [hts] using htarget
  · intro e1 he1 hev1 hlen1
    have hnb := hmax e1 he1 hev1
    have hK1 : curK r.k (r.current_timestamp + 1) e1.2 = INT_MAX := by
      unfold curK
      rw [if_pos hlen1]
    have hK : curK r.k (r.current_timestamp + 1) e.2 = INT_MAX := by
      unfold curK
      rw [if_pos hlen]
    rw [hK1, hK, hsub e1 he1, hsub e he] at hnb
    have h1 := hfront e1 he1
    have h2 := hfront e he
    unfold beats at hnb
    omega

end LRUKReplacer

/-! ## Lemmas: reachable replacer states are well formed -/

namespace LRUKReplacer

theorem addHistory_mem (n : LRUKNode) (ts t : Nat) (h : t ∈ (n.addHistory ts).history) :
    t ∈ n.history ∨ t = ts := by
  unfold LRUKNode.addHistory at h
  simp only at h
  split_ifs at h
  · have := List.mem_of_mem_dropLast h
    simpa [or_comm] using this
  · simpa [or_comm] using h

theorem addHistory_ne_nil (n : LRUKNode) (ts : Nat) (hk : 1 ≤ n.k) :
    (n.addHistory ts).history ≠ [] := by
  unfold LRUKNode.addHistory
  simp only
  split_ifs with h
  · intro hnil
    have hl := congrArg List.length hnil
    simp only [List.length_dropLast, List.length_cons, List.length_nil] at hl h
    omega
  · simp

/-- The new timestamp is at the front of the history. -/
theorem addHistory_head (n : LRUKNode) (ts : Nat) (hk : 1 ≤ n.k) :
    (n.addHistory ts).history.head? = some ts := by
  unfold LRUKNode.addHistory
  simp only
  split_ifs with h
  · cases hh : n.history with
    | nil =>
      rw [hh] at h
      simp only [List.length_cons, List.length_nil] at h
      omega
    | cons x xs => rfl
  · rfl

theorem addHistory_k (n : LRUKNode) (ts : Nat) : (n.addHistory ts).k = n.k := rfl

/-- The invariant carried along a run: well-formedness, `k ≥ 1`, and every node holding
the replacer's `k`. -/
theorem Reachable.inv (r : LRUKReplacer) (h : Reachable r) :
    WF r ∧ 1 ≤ r.k ∧ ∀ e ∈ r.node_store, e.2.k = r.k := by
  induction h with
  | init n k hk =>
    refine ⟨⟨by simp [new], by simp [new]⟩, hk, by simp [new]⟩
  | recordAccess r f _ hclock ih =>
    obtain ⟨⟨hnd, hh⟩, hk, hnk⟩ := ih
    have hts : size_inc r.current_timestamp = r.current_timestamp + 1 := size_inc_eq _ hclock
    unfold RecordAccess
    simp only [hts]
    have hfind : find { r with current_timestamp := r.current_timestamp + 1 } f = r.find f := rfl
    rw [hfind]
    cases hf : r.find f with
    | some n0 =>
      simp only [after]
      refine ⟨⟨by rw [modifyKey_keys]; exact hnd, ?_⟩, hk, ?_⟩
      · intro e he
        have he1 : e ∈ modifyKey r.node_store f
            (fun n => n.addHistory (r.current_timestamp + 1)) := he
        rcases mem_modifyKey _ _ _ _ he1 with ⟨hm, _⟩ | ⟨n, hm, rfl⟩
        · refine ⟨(hh e hm).1, fun t ht => ?_⟩
          have := (hh e hm).2 t ht
          exact ⟨this.1, by simp only; omega⟩
        · refine ⟨addHistory_ne_nil _ _ (by rw [hnk _ hm]; exact hk), fun t ht => ?_⟩
          rcases addHistory_mem _ _ _ ht with h1 | rfl
          · have := (hh _ hm).2 t h1
            exact ⟨this.1, by simp only; omega⟩
          · exact ⟨by omega, le_refl _⟩
      · intro e he
        rcases mem_modifyKey r.node_store f _ e he with ⟨hm, _⟩ | ⟨n, hm, rfl⟩
        · exact hnk e hm
        · exact hnk (f, n) hm
    | none =>
      simp only
      split_ifs with hfull
      · simp only [after]
        refine ⟨⟨hnd, fun e he => ⟨(hh e he).1, fun t ht => ?_⟩⟩, hk, hnk⟩
        have := (hh e he).2 t ht
        exact ⟨this.1, by simp only; omega⟩
      · simp only [after]
        have hnot : f ∉ r.node_store.map Prod.fst := (find_none_iff r f).1 hf
        refine ⟨⟨?_, ?_⟩, hk, ?_⟩
        · simp only [List.map_cons, List.nodup_cons]
          exact ⟨hnot, hnd⟩
        · intro e he
          rcases List.mem_cons.1 he with rfl | hm
          · refine ⟨addHistory_ne_nil _ _ hk, fun t ht => ?_⟩
            rcases addHistory_mem _ _ _ ht with h1 | rfl
            · simp at h1
            · exact ⟨by omega, le_refl _⟩
          · refine ⟨(hh e hm).1, fun t ht => ?_⟩
            have := (hh e hm).2 t ht
            exact ⟨this.1, by simp only; omega⟩
        · intro e he
          rcases List.mem_cons.1 he with rfl | hm
          · rfl
          · exact hnk e hm
  | setEvictable r f b _ ih =>
    obtain ⟨⟨hnd, hh⟩, hk, hnk⟩ := ih
    have key : ∀ l, (l.map Prod.fst).Nodup →
        (∀ e ∈ l, e.2.history ≠ [] ∧ ∀ t ∈ e.2.history, 1 ≤ t ∧ t ≤ r.current_timestamp) →
        (∀ e ∈ l, e.2.k = r.k) →
        ((modifyKey l f (fun n => n.setIsEvictable b)).map Prod.fst).Nodup ∧
        (∀ e ∈ modifyKey l f (fun n => n.setIsEvictable b),
          e.2.history ≠ [] ∧ ∀ t ∈ e.2.history, 1 ≤ t ∧ t ≤ r.current_timestamp) ∧
        (∀ e ∈ modifyKey l f (fun n => n.setIsEvictable b), e.2.k = r.k) := by
      intro l h1 h2 h3
      refine ⟨by rw [modifyKey_keys]; exact h1, ?_, ?_⟩
      · intro e he
        rcases mem_modifyKey _ _ _ _ he with ⟨hm, _⟩ | ⟨n, hm, rfl⟩
        · exact h2 e hm
        · exact h2 (f, n) hm
      · intro e he
        rcases mem_modifyKey _ _ _ _ he with ⟨hm, _⟩ | ⟨n, hm, rfl⟩
        · exact h3 e hm
        · exact h3 (f, n) hm
    unfold SetEvictable
    cases hf : r.find f with
    | none => exact ⟨⟨hnd, hh⟩, hk, hnk⟩
    | some n0 =>
      simp only [after]
      obtain ⟨k1, k2, k3⟩ := key r.node_store hnd hh hnk
      split_ifs <;> first
        | exact ⟨⟨hnd, hh⟩, hk, hnk⟩
        | exact ⟨⟨k1, k2⟩, hk, k3⟩
        | (obtain ⟨j1, j2, j3⟩ := key _ k1 k2 k3
           exact ⟨⟨j1, j2⟩, hk, j3⟩)
  | evict r _ hclock ih =>
    obtain ⟨⟨hnd, hh⟩, hk, hnk⟩ := ih
    have hts : size_inc r.current_timestamp = r.current_timestamp + 1 := size_inc_eq _ hclock
    unfold Evict
    simp only [hts]
    have hup : ∀ e ∈ r.node_store,
        e.2.history ≠ [] ∧ ∀ t ∈ e.2.history, 1 ≤ t ∧ t ≤ r.current_timestamp + 1 := by
      intro e he
      refine ⟨(hh e he).1, fun t ht => ?_⟩
      have := (hh e he).2 t ht
      exact ⟨this.1, by omega⟩
    split
    · exact ⟨⟨hnd, hup⟩, hk, hnk⟩
    · refine ⟨⟨filter_key_nodup _ _ hnd, ?_⟩, hk, ?_⟩
      · intro e he
        exact hup e ((mem_eraseKey _ _ _).1 he).1
      · intro e he
        exact hnk e ((mem_eraseKey _ _ _).1 he).1
  | remove r f _ ih =>
    obtain ⟨⟨hnd, hh⟩, hk, hnk⟩ := ih
    unfold Remove
    cases hf : r.find f with
    | none => exact ⟨⟨hnd, hh⟩, hk, hnk⟩
    | some n0 =>
      simp only
      split_ifs
      · exact ⟨⟨hnd, hh⟩, hk, hnk⟩
      · simp only [after]
        refine ⟨⟨filter_key_nodup _ _ hnd, ?_⟩, hk, ?_⟩
        · intro e he
          exact hh e ((mem_eraseKey _ _ _).1 he).1
        · intro e he
          exact hnk e ((mem_eraseKey _ _ _).1 he).1
  | reorder r ns _ hperm ih =>
    obtain ⟨⟨hnd, hh⟩, hk, hnk⟩ := ih
    refine ⟨⟨?_, ?_⟩, hk, ?_⟩
    · exact (List.Perm.nodup_iff (List.Perm.map _ hperm)).2 hnd
    · intro e he
      exact hh e (hperm.subset he)
    · intro e he
      exact hnk e (hperm.subset he)

/-- Every state reached before the clock wraps is well formed. -/
theorem Reachable.wf (r : LRUKReplacer) (h : Reachable r) : WF r :=
  (Reachable.inv r h).1

end LRUKReplacer

/-! ## Lemmas: the order of the histories -/

namespace LRUKReplacer

end LRUKReplacer

/-! ## Lemmas: runs of the replacer -/

namespace LRUKReplacer

theorem RecordAccess_clock (r : LRUKReplacer) (f : frame_id_t) :
    (after (RecordAccess r f)).current_timestamp = size_inc r.current_timestamp := by
  unfold RecordAccess
  simp only
  split
  · rfl
  · split_ifs <;> rfl

theorem Reachable.recordAll (fs : List frame_id_t) (r : LRUKReplacer) (h : Reachable r)
    (hclock : r.current_timestamp + fs.length < SIZE_MOD) : Reachable (recordAll r fs) := by
  induction fs generalizing r with
  | nil => exact h
  | cons f fs ih =>
    simp only [List.length_cons] at hclock
    have h1 : r.current_timestamp + 1 < SIZE_MOD := by omega
    apply ih _ (Reachable.recordAccess r f h h1)
    rw [RecordAccess_clock, size_inc_eq _ h1]
    omega

theorem Reachable.markAll (fs : List frame_id_t) (r : LRUKReplacer) (h : Reachable r) :
    Reachable (markAll r fs) := by
  induction fs generalizing r with
  | nil => exact h
  | cons f fs ih => exact ih _ (Reachable.setEvictable r f true h)

theorem busyState_step (c : Nat) (hc : c + 1 < SIZE_MOD) :
    after (RecordAccess (busyState c) 3) = busyState (c + 1) := by
  simp [RecordAccess, after, busyState, find, modifyKey, LRUKNode.addHistory, size_inc_eq _ hc]

theorem busyState_reachable (n : Nat) (hn : 4 + n < SIZE_MOD) : Reachable (busyState (4 + n)) := by
  induction n with
  | zero =>
    have h : busyState 4 = recordAll (markAll (recordAll (new 4 2) [0, 0]) [0]) [3, 3] := by
      decide
    rw [h]
    refine Reachable.recordAll _ _ (Reachable.markAll _ _
      (Reachable.recordAll _ _ (Reachable.init 4 2 (by decide)) (by decide))) (by decide)
  | succ n ih =>
    have h1 : 4 + n + 1 < SIZE_MOD := by omega
    have := Reachable.recordAccess _ 3 (ih (by omega)) h1
    rw [busyState_step _ h1] at this
    exact this

theorem lateState_reachable : Reachable lateState := by
  have h := busyState_reachable 2147483646 (by decide)
  exact Reachable.markAll _ _ (Reachable.recordAll _ _ h (by decide))

theorem scenario3_reachable : Reachable scenario3 :=
  Reachable.markAll _ _ (Reachable.recordAll _ _ (Reachable.init 3 2 (by decide)) (by decide))

theorem onePinned_reachable : Reachable onePinned :=
  Reachable.recordAll _ _ (Reachable.init 1 2 (by decide)) (by decide)

/-- When no tracked node is evictable, the loop never assigns `target_it`, so `Evict`
returns whatever `node_store_.begin()` pointed at. -/
theorem Evict_no_evictable (r : LRUKReplacer)
    (h : ∀ e ∈ r.node_store, e.2.is_evictable = false) :
    (Evict r).1 = r.node_store.head?.map Prod.fst := by
  rw [Evict_fst]
  unfold evictScan
  simp only
  rcases foldl_evictStep r.k (size_inc r.current_timestamp) r.node_store
      ⟨0, 0, r.node_store.head?.map Prod.fst⟩ with ⟨h1, _⟩ | ⟨e, he, hev, _⟩
  · rw [h1]
  · rw [h e he] at hev
    cases hev

end LRUKReplacer

/-! ## Lemmas: lookups after erase, update and reordering -/

theorem find_filter_key {β : Type} (l : List (Int × β)) (f g : Int) :
    (l.filter (fun e => !(e.1 == f))).find? (fun e => e.1 == g) =
      if g = f then none else l.find? (fun e => e.1 == g) := by
  induction l with
  | nil => simp
  | cons x xs ih =>
    by_cases hxf : x.1 = f
    · rw [List.filter_cons_of_neg (by simp [hxf]), ih]
      by_cases hgf : g = f
      · simp [hgf]
      · have : ¬ x.1 = g := by rw [hxf]; exact fun h => hgf h.symm
        simp [hgf, this]
    · rw [List.filter_cons_of_pos (by simp [hxf])]
      by_cases hxg : x.1 = g
      · have : ¬ g = f := by rw [← hxg]; exact hxf
        simp [hxg, this]
      · rw [List.find?_cons_of_neg _ (by simp [hxg]), List.find?_cons_of_neg _ (by simp [hxg]), ih]

theorem find_map_key {β : Type} (l : List (Int × β)) (f g : Int) (m : β → β) :
    (l.map (fun e => if e.1 == f then (e.1, m e.2) else e)).find? (fun e => e.1 == g) =
      (l.find? (fun e => e.1 == g)).map (fun e => if e.1 == f then (e.1, m e.2) else e) := by
  induction l with
  | nil => simp
  | cons x xs ih =>
    rw [List.map_cons]
    by_cases hxg : x.1 = g
    · have h1 : (if (x.1 == f) = true then (x.1, m x.2) else x).1 = g := by
        split_ifs <;> simp [hxg]
      rw [List.find?_cons_of_pos _ (by simpa using h1), List.find?_cons_of_pos _ (by simp [hxg])]
      rfl
    · have h1 : ¬ (if (x.1 == f) = true then (x.1, m x.2) else x).1 = g := by
        split_ifs <;> simp [hxg]
      rw [List.find?_cons_of_neg _ (by simpa using h1), List.find?_cons_of_neg _ (by simp [hxg]),
        ih]

theorem find_perm_key {β : Type} (l l2 : List (Int × β)) (g : Int)
    (hnd : (l.map Prod.fst).Nodup) (hp : l2.Perm l) :
    l2.find? (fun e => e.1 == g) = l.find? (fun e => e.1 == g) := by
  have hnd2 : (l2.map Prod.fst).Nodup := (List.Perm.nodup_iff (List.Perm.map _ hp)).2 hnd
  cases h : l.find? (fun e => e.1 == g) with
  | none =>
    rw [List.find?_eq_none] at h ⊢
    intro x hx
    exact h x (hp.subset hx)
  | some e =>
    obtain ⟨hm, hk⟩ := find_key_mem _ _ _ h
    subst hk
    exact find_key_of_mem l2 e hnd2 (hp.symm.subset hm)

/-- A list of distinct integers in `[0, n)` that misses one of them has fewer than `n`
entries. -/
theorem length_lt_of_nodup_range (l : List Int) (n : Nat) (f : Int)
    (hnd : l.Nodup) (hr : ∀ x ∈ l, 0 ≤ x ∧ x < n) (hf0 : 0 ≤ f) (hfn : f < n) (hf : f ∉ l) :
    l.length < n := by
  have hnd2 : (f :: l).Nodup := List.nodup_cons.2 ⟨hf, hnd⟩
  have hinj : ((f :: l).map Int.toNat).Nodup := by
    apply List.Nodup.map_on _ hnd2
    intro x hx y hy hxy
    have hx0 : 0 ≤ x := by
      rcases List.mem_cons.1 hx with rfl | h
      · exact hf0
      · exact (hr x h).1
    have hy0 : 0 ≤ y := by
      rcases List.mem_cons.1 hy with rfl | h
      · exact hf0
      · exact (hr y h).1
    omega
  have hsub : (f :: l).map Int.toNat ⊆ List.range n := by
    intro x hx
    rw [List.mem_map] at hx
    obtain ⟨y, hy, rfl⟩ := hx
    rw [List.mem_range]
    rcases List.mem_cons.1 hy with rfl | h
    · omega
    · have := hr y h
      omega
  have hle := (List.subperm_of_subset hinj hsub).length_le
  simp only [List.length_map, List.length_cons, List.length_range] at hle
  omega

/-! ## Lemmas: effect of the replacer operations on lookups -/

namespace LRUKReplacer

theorem find_modifyKey (r r1 : LRUKReplacer) (f g : frame_id_t) (m : LRUKNode → LRUKNode)
    (h : r1.node_store = modifyKey r.node_store f m) :
    r1.find g = if g = f then (r.find f).map m else r.find g := by
  unfold find
  rw [h]
  unfold modifyKey
  rw [find_map_key]
  by_cases hg : g = f
  · subst hg
    rw [if_pos rfl]
    cases hfind : r.node_store.find? (fun e => e.1 == g) with
    | none => rfl
    | some e =>
      have hk := (find_key_mem _ _ _ hfind).2
      simp [hk]
  · rw [if_neg hg]
    cases hfind : r.node_store.find? (fun e => e.1 == g) with
    | none => rfl
    | some e =>
      have hk := (find_key_mem _ _ _ hfind).2
      have : ¬ e.1 = f := by rw [hk]; exact hg
      simp [this]

theorem find_eraseKey (r r1 : LRUKReplacer) (f g : frame_id_t)
    (h : r1.node_store = eraseKey r.node_store f) :
    r1.find g = if g = f then none else r.find g := by
  unfold find
  rw [h]
  unfold eraseKey
  rw [find_filter_key]
  split_ifs <;> rfl

theorem find_cons (r r1 : LRUKReplacer) (f g : frame_id_t) (n : LRUKNode)
    (h : r1.node_store = (f, n) :: r.node_store) :
    r1.find g = if g = f then some n else r.find g := by
  unfold find
  rw [h]
  by_cases hg : g = f
  · subst hg
    simp
  · have : ¬ f = g := fun h1 => hg h1.symm
    rw [List.find?_cons_of_neg _ (by simpa using this), if_neg hg]

theorem find_mem_keys (r : LRUKReplacer) (f : frame_id_t) (n : LRUKNode)
    (h : r.find f = some n) : f ∈ r.node_store.map Prod.fst :=
  List.mem_map_of_mem Prod.fst (find_some_mem r f n h)

theorem find_ne_none_of_mem (r : LRUKReplacer) (f : frame_id_t)
    (h : f ∈ r.node_store.map Prod.fst) : ∃ n, r.find f = some n := by
  cases hf : r.find f with
  | none => exact absurd h ((find_none_iff r f).1 hf)
  | some n => exact ⟨n, rfl⟩

theorem length_eraseKey (l : List (frame_id_t × LRUKNode)) (f : frame_id_t)
    (hnd : (l.map Prod.fst).Nodup) (hf : f ∈ l.map Prod.fst) :
    (eraseKey l f).length + 1 = l.length := by
  induction l with
  | nil => simp at hf
  | cons x xs ih =>
    rw [List.map_cons, List.nodup_cons] at hnd
    unfold eraseKey at ih ⊢
    by_cases hx : x.1 = f
    · rw [List.filter_cons_of_neg (by simp [hx])]
      have hall : ∀ e ∈ xs, (fun e : frame_id_t × LRUKNode => !(e.1 == f)) e = true := by
        intro e he
        have : e.1 ≠ f := by
          intro h1
          apply hnd.1
          rw [hx, ← h1]
          exact List.mem_map_of_mem Prod.fst he
        simp [this]
      rw [List.filter_eq_self.2 hall]
      rfl
    · rw [List.filter_cons_of_pos (by simp [hx])]
      have hf2 : f ∈ xs.map Prod.fst := by
        rw [List.map_cons, List.mem_cons] at hf
        rcases hf with h1 | h1
        · exact absurd h1.symm hx
        · exact h1
      have := ih hnd.2 hf2
      simp only [List.length_cons]
      omega

theorem eraseKey_keys_mem (l : List (frame_id_t × LRUKNode)) (f g : frame_id_t)
    (h : g ∈ (eraseKey l f).map Prod.fst) : g ∈ l.map Prod.fst ∧ g ≠ f := by
  rw [List.mem_map] at h
  obtain ⟨e, he, rfl⟩ := h
  have := (mem_eraseKey l f e).1 he
  exact ⟨List.mem_map_of_mem Prod.fst this.1, this.2⟩

/-- The call `RecordAccess(f)` on a tracked frame returns, keeps the keys and the
counters, and extends the history of `f` only. -/
theorem RecordAccess_tracked (r : LRUKReplacer) (f : frame_id_t) (n : LRUKNode)
    (h : r.find f = some n) :
    ∃ r1, RecordAccess r f = .ok r1 ∧
      (∀ g, r1.find g =
        if g = f then some (n.addHistory (size_inc r.current_timestamp)) else r.find g) ∧
      r1.node_store.map Prod.fst = r.node_store.map Prod.fst ∧
      r1.curr_size = r.curr_size ∧ r1.replacer_size = r.replacer_size ∧
      r1.evictable_size = r.evictable_size ∧ r1.k = r.k ∧
      r1.current_timestamp = size_inc r.current_timestamp := by
  have hfind : find { r with current_timestamp := size_inc r.current_timestamp } f = some n := h
  unfold RecordAccess
  simp only [hfind]
  refine ⟨_, rfl, ?_, by simp only [modifyKey_keys], rfl, rfl, rfl, rfl, rfl⟩
  intro g
  rw [find_modifyKey r _ f g (fun n => n.addHistory (size_inc r.current_timestamp)) rfl, h]
  rfl

/-- The call `RecordAccess(f)` on an untracked frame below capacity returns and adds a
non-evictable node for `f` with the new timestamp as its only history entry. -/
theorem RecordAccess_untracked (r : LRUKReplacer) (f : frame_id_t)
    (h : r.find f = none) (hroom : r.curr_size < r.replacer_size) :
    ∃ r1 nd, RecordAccess r f = .ok r1 ∧ nd.is_evictable = false ∧
      (∀ g, r1.find g = if g = f then some nd else r.find g) ∧
      r1.node_store.map Prod.fst = f :: r.node_store.map Prod.fst ∧
      r1.curr_size = size_inc r.curr_size ∧ r1.replacer_size = r.replacer_size ∧
      r1.evictable_size = r.evictable_size ∧ r1.k = r.k ∧
      r1.current_timestamp = size_inc r.current_timestamp := by
  have hfind : find { r with current_timestamp := size_inc r.current_timestamp } f = none := h
  unfold RecordAccess
  simp only [hfind]
  rw [if_neg (by simpa using hroom)]
  refine ⟨_, ({ k := r.k, fid := f } : LRUKNode).addHistory (size_inc r.current_timestamp),
    rfl, rfl, ?_, rfl, rfl, rfl, rfl, rfl, rfl⟩
  intro g
  exact find_cons r _ f g _ rfl

/-- The call `RecordAccess(f)` throws exactly when `f` is untracked and the store is at
capacity. -/
theorem RecordAccess_error_iff (r : LRUKReplacer) (f : frame_id_t) :
    (∃ r1, RecordAccess r f = .error r1) ↔
      (r.find f = none ∧ r.replacer_size ≤ r.curr_size) := by
  have hfind : find { r with current_timestamp := size_inc r.current_timestamp } f = r.find f :=
    rfl
  unfold RecordAccess
  simp only [hfind]
  cases hf : r.find f with
  | some n => simp
  | none =>
    simp only
    split_ifs with hfull
    · simpa using hfull
    · simpa using hfull

/-- The call `SetEvictable(f, b)` on a tracked frame returns, sets the flag of `f` and
touches no other node; it changes nothing when the flag already equals `b`. -/
theorem SetEvictable_tracked (r : LRUKReplacer) (f : frame_id_t) (b : Bool) (n : LRUKNode)
    (h : r.find f = some n) :
    ∃ r1, SetEvictable r f b = .ok r1 ∧
      (∀ g, r1.find g = if g = f then some (n.setIsEvictable b) else r.find g) ∧
      r1.node_store.map Prod.fst = r.node_store.map Prod.fst ∧
      r1.curr_size = r.curr_size ∧ r1.replacer_size = r.replacer_size ∧
      r1.k = r.k ∧ r1.current_timestamp = r.current_timestamp ∧
      (n.is_evictable = b → r1 = r) ∧
      (n.is_evictable = false → b = true → r1.evictable_size = size_inc r.evictable_size) ∧
      (n.is_evictable = true → b = false → r1.evictable_size = size_dec r.evictable_size) := by
  have hsame : n.is_evictable = b → n.setIsEvictable b = n := by
    intro hb
    cases n
    simp only [LRUKNode.setIsEvictable] at hb ⊢
    rw [hb]
  by_cases hb : n.is_evictable = b
  · refine ⟨r, ?_, ?_, rfl, rfl, rfl, rfl, rfl, fun _ => rfl, ?_, ?_⟩
    · unfold SetEvictable
      simp only [h]
      cases hn : n.is_evictable <;> cases hbb : b <;> simp_all
    · intro g
      split_ifs with hg
      · rw [hg, h, hsame hb]
      · rfl
    · intro h1 h2
      rw [h1, h2] at hb
      cases hb
    · intro h1 h2
      rw [h1, h2] at hb
      cases hb
  · refine ⟨{ r with node_store := modifyKey r.node_store f (fun n => n.setIsEvictable b),
                     evictable_size :=
                       if b = true then size_inc r.evictable_size
                       else size_dec r.evictable_size },
      ?_, ?_, by simp only [modifyKey_keys], rfl, rfl, rfl, rfl, fun h1 => absurd h1 hb, ?_, ?_⟩
    · unfold SetEvictable
      simp only [h]
      cases hn : n.is_evictable <;> cases hbb : b <;> simp_all
    · intro g
      rw [find_modifyKey r _ f g (fun n => n.setIsEvictable b) rfl, h]
      rfl
    · intro _ h2
      simp [h2]
    · intro _ h2
      simp [h2]

/-- The call `Remove(f)` on a tracked evictable frame returns and erases its node. -/
theorem Remove_evictable (r : LRUKReplacer) (f : frame_id_t) (n : LRUKNode)
    (h : r.find f = some n) (hev : n.is_evictable = true) :
    ∃ r1, Remove r f = .ok r1 ∧
      (∀ g, r1.find g = if g = f then none else r.find g) ∧
      r1.node_store = eraseKey r.node_store f ∧
      r1.curr_size = size_dec r.curr_size ∧ r1.replacer_size = r.replacer_size ∧
      r1.evictable_size = size_dec r.evictable_size ∧ r1.k = r.k ∧
      r1.current_timestamp = r.current_timestamp := by
  have hR : Remove r f = .ok { r with node_store := eraseKey r.node_store f,
                                      evictable_size := size_dec r.evictable_size,
                                      curr_size := size_dec r.curr_size } := by
    unfold Remove
    simp [h, hev]
  refine ⟨_, hR, ?_, rfl, rfl, rfl, rfl, rfl, rfl⟩
  intro g
  exact find_eraseKey r _ f g rfl

/-- The two outcomes of `Evict`: `false` only on an empty store, with nothing but the
clock changed; otherwise a tracked frame, whose node is erased. -/
theorem Evict_cases (r : LRUKReplacer) :
    ((Evict r).1 = none ∧ r.node_store = [] ∧
      (Evict r).2 = { r with current_timestamp := size_inc r.current_timestamp }) ∨
    (∃ f, (Evict r).1 = some f ∧ f ∈ r.node_store.map Prod.fst ∧
      (Evict r).2.node_store = eraseKey r.node_store f ∧
      (∀ g, (Evict r).2.find g = if g = f then none else r.find g) ∧
      (Evict r).2.curr_size = size_dec r.curr_size ∧
      (Evict r).2.replacer_size = r.replacer_size ∧
      (Evict r).2.evictable_size = size_dec r.evictable_size ∧
      (Evict r).2.k = r.k ∧
      (Evict r).2.current_timestamp = size_inc r.current_timestamp) := by
  rcases evictScan_target { r with current_timestamp := size_inc r.current_timestamp } with
    ⟨h1, h2⟩ | ⟨e, he, h1⟩
  · left
    have hE : Evict r = (none, { r with current_timestamp := size_inc r.current_timestamp }) := by
      unfold Evict
      simp only [h1]
    rw [hE]
    exact ⟨rfl, h2, rfl⟩
  · right
    have hE : Evict r = (some e.1,
        { r with current_timestamp := size_inc r.current_timestamp,
                 node_store := eraseKey r.node_store e.1,
                 evictable_size := size_dec r.evictable_size,
                 curr_size := size_dec r.curr_size }) := by
      unfold Evict
      simp only [h1]
    rw [hE]
    refine ⟨e.1, rfl, List.mem_map_of_mem Prod.fst he, rfl, ?_, rfl, rfl, rfl, rfl, rfl⟩
    intro g
    exact find_eraseKey r _ e.1 g rfl

end LRUKReplacer

/-! ## Lemmas: the page table -/

namespace BufferPoolManager

theorem tableFind_erase (t : List (page_id_t × frame_id_t)) (p q : page_id_t) :
    tableFind (tableErase t p) q = if q = p then none else tableFind t q := by
  unfold tableFind tableErase
  rw [find_filter_key]
  split_ifs <;> rfl

theorem tableFind_none_iff (t : List (page_id_t × frame_id_t)) (p : page_id_t) :
    tableFind t p = none ↔ p ∉ t.map Prod.fst := by
  unfold tableFind
  rw [Option.map_eq_none', find_key_none]

theorem tableInsert_absent (t : List (page_id_t × frame_id_t)) (p : page_id_t)
    (f : frame_id_t) (h : tableFind t p = none) : tableInsert t p f = (p, f) :: t := by
  unfold tableInsert
  have hn := (tableFind_none_iff t p).1 h
  have : t.any (fun e => e.1 == p) = false := by
    rw [List.any_eq_false]
    intro x hx hk
    apply hn
    have hk1 : x.1 = p := by simpa using hk
    rw [← hk1]
    exact List.mem_map_of_mem Prod.fst hx
  rw [this]
  rfl

theorem tableInsert_present (t : List (page_id_t × frame_id_t)) (p : page_id_t)
    (f g : frame_id_t) (h : tableFind t p = some g) : tableInsert t p f = t := by
  unfold tableInsert
  have : t.any (fun e => e.1 == p) = true := by
    rw [List.any_eq_true]
    unfold tableFind at h
    cases hf : t.find? (fun e => e.1 == p) with
    | none => simp [hf] at h
    | some e =>
      obtain ⟨hm, hk⟩ := find_key_mem _ _ _ hf
      exact ⟨e, hm, by simp [hk]⟩
  rw [this]
  rfl

theorem tableFind_insert (t : List (page_id_t × frame_id_t)) (p q : page_id_t)
    (f : frame_id_t) :
    tableFind (tableInsert t p f) q =
      if q = p then (if tableFind t p = none then some f else tableFind t p)
      else tableFind t q := by
  cases h : tableFind t p with
  | none =>
    rw [tableInsert_absent t p f h]
    unfold tableFind
    by_cases hq : q = p
    · subst hq
      simp
    · have : ¬ p = q := fun h1 => hq h1.symm
      rw [List.find?_cons_of_neg _ (by simpa using this), if_neg hq]
  | some g =>
    rw [tableInsert_present t p f g h]
    by_cases hq : q = p
    · subst hq
      simp [h]
    · rw [if_neg hq]

theorem tableInsert_nodup (t : List (page_id_t × frame_id_t)) (p : page_id_t)
    (f : frame_id_t) (h : (t.map Prod.fst).Nodup) :
    ((tableInsert t p f).map Prod.fst).Nodup := by
  cases hf : tableFind t p with
  | none =>
    rw [tableInsert_absent t p f hf, List.map_cons, List.nodup_cons]
    exact ⟨(tableFind_none_iff t p).1 hf, h⟩
  | some g =>
    rw [tableInsert_present t p f g hf]
    exact h

theorem length_le_of_nodup_range (l : List Int) (n : Nat)
    (hnd : l.Nodup) (hr : ∀ x ∈ l, 0 ≤ x ∧ x < n) : l.length ≤ n := by
  have hinj : (l.map Int.toNat).Nodup := by
    apply List.Nodup.map_on _ hnd
    intro x hx y hy hxy
    have := (hr x hx).1
    have := (hr y hy).1
    omega
  have hsub : l.map Int.toNat ⊆ List.range n := by
    intro x hx
    rw [List.mem_map] at hx
    obtain ⟨y, hy, rfl⟩ := hx
    rw [List.mem_range]
    have := hr y hy
    omega
  have hle := (List.subperm_of_subset hinj hsub).length_le
  simpa using hle

end BufferPoolManager

/-! ## Lemmas: the invariant of the buffer pool -/

namespace BufferPoolManager

theorem store_length_lt (s : BufferPoolManager) (h : Inv s) :
    s.replacer.node_store.length < SIZE_MOD := by
  have := length_le_of_nodup_range _ s.pool_size h.keys_nodup h.keys_range
  have h2 := h.pool_small
  rw [List.length_map] at this
  unfold SIZE_MOD
  omega

/-- The frame choice keeps the invariant, does not touch the frames, and hands out a
detached frame. -/
theorem acquireFrame_inv (s : BufferPoolManager) (h : Inv s) :
    Inv (acquireFrame s).2 ∧
    (∀ f, (acquireFrame s).1 = some f → Detached (acquireFrame s).2 f) ∧
    (acquireFrame s).2.pool_size = s.pool_size ∧
    (acquireFrame s).2.pages = s.pages := by
  cases hfl : s.free_list with
  | cons f rest =>
    have hA : acquireFrame s = (some f, { s with free_list := rest }) := by
      unfold acquireFrame
      simp only [hfl]
    have hnd := h.free_nodup
    rw [hfl, List.nodup_cons] at hnd
    have hfree : ∀ g ∈ rest, g ∈ s.free_list := by
      intro g hg
      rw [hfl]
      exact List.mem_cons_of_mem _ hg
    have hf := h.free_ok f (by rw [hfl]; exact List.mem_cons_self _ _)
    rw [hA]
    refine ⟨?_, ?_, rfl, rfl⟩
    · exact ⟨h.keys_nodup, h.table_nodup, hnd.2, h.pool_small, h.capacity, h.curr_size_eq,
        h.keys_range, h.evictable_iff, fun g hg => h.free_ok g (hfree g hg), h.table_ok,
        h.pin_nonneg⟩
    · intro g hg
      simp only [Option.some.injEq] at hg
      subst hg
      exact ⟨hf.1, hf.2.1, hf.2.2.1, hnd.1, hf.2.2.2.1⟩
  | nil =>
    rcases hE : s.replacer.Evict with ⟨o, r1⟩
    have hc := LRUKReplacer.Evict_cases s.replacer
    rw [hE] at hc
    simp only at hc
    rcases hc with ⟨ho, hempty, hr1⟩ | ⟨f, ho, hmem, hstore, hfind, hcs, hrs, _, _, _⟩
    · subst ho
      have hA : acquireFrame s = (none, { s with replacer := r1 }) := by
        unfold acquireFrame
        simp only [hfl, hE]
      rw [hA]
      refine ⟨?_, by simp, rfl, rfl⟩
      subst hr1
      exact ⟨h.keys_nodup, h.table_nodup, h.free_nodup, h.pool_small, h.capacity,
        h.curr_size_eq, h.keys_range, h.evictable_iff, h.free_ok, h.table_ok, h.pin_nonneg⟩
    · subst ho
      have hA : acquireFrame s = (some f,
          { s with replacer := r1,
                   disk_manager :=
                     if (s.pages f).is_dirty then
                       s.disk_manager.WritePage (s.pages f).page_id (s.pages f).data
                     else s.disk_manager,
                   page_table := tableErase s.page_table (s.pages f).page_id }) := by
        unfold acquireFrame
        simp only [hfl, hE]
      rw [hA]
      have hlen := LRUKReplacer.length_eraseKey _ f h.keys_nodup hmem
      have hlt := store_length_lt s h
      have hkeys : ∀ g ∈ r1.node_store.map Prod.fst,
          g ∈ s.replacer.node_store.map Prod.fst ∧ g ≠ f := by
        intro g hg
        rw [hstore] at hg
        exact LRUKReplacer.eraseKey_keys_mem _ _ _ hg
      have hfr := h.keys_range f hmem
      refine ⟨?_, ?_, rfl, rfl⟩
      · refine ⟨?_, ?_, by simp [hfl], h.pool_small, by rw [hrs]; exact h.capacity, ?_,
          fun g hg => h.keys_range g (hkeys g hg).1, ?_, by simp [hfl], ?_, h.pin_nonneg⟩
        · rw [hstore]
          exact filter_key_nodup _ _ h.keys_nodup
        · exact filter_key_nodup _ _ h.table_nodup
        · rw [hcs, h.curr_size_eq, hstore, size_dec_eq _ (by omega) hlt]
          omega
        · intro g n hg
          rw [hfind] at hg
          split_ifs at hg
          exact h.evictable_iff g n hg
        · intro p g hp
          simp only at hp
          rw [tableFind_erase] at hp
          split_ifs at hp with hpe
          have hold := h.table_ok p g hp
          have hgf : g ≠ f := by
            intro hgf
            rw [hgf] at hold
            exact hpe hold.2.symm
          rw [hfind, if_neg hgf]
          exact hold
      · intro g hg
        simp only [Option.some.injEq] at hg
        subst hg
        refine ⟨hfr.1, hfr.2, ?_, by simp [hfl], ?_⟩
        · simp only
          rw [hfind, if_pos rfl]
        · intro p hp
          unfold findPage at hp
          simp only at hp
          rw [tableFind_erase] at hp
          split_ifs at hp with hpe
          exact hpe (h.table_ok p f hp).2.symm

/-- Installing a page in a detached frame: after the frame's fields are set (pin count
raised by one) and the mapping inserted, `RecordAccess` and `SetEvictable` do not throw,
the frame ends tracked and non-evictable, and the invariant holds. -/
theorem install_inv (s1 s4 : BufferPoolManager) (f : frame_id_t) (pg : Page) (p : page_id_t)
    (h : Inv s1) (hd : Detached s1 f)
    (hpool : s4.pool_size = s1.pool_size) (hrep : s4.replacer = s1.replacer)
    (hfree : s4.free_list = s1.free_list)
    (htab : s4.page_table = tableInsert s1.page_table p f)
    (hpages : s4.pages = fun g => if g = f then pg else s1.pages g)
    (hid : pg.page_id = p) (hpin : pg.pin_count = (s1.pages f).pin_count + 1) :
    ∃ r1 nd, recordAndPin s4 f = .ok { s4 with replacer := r1 } ∧
      Inv { s4 with replacer := r1 } ∧
      r1.find f = some nd ∧ nd.is_evictable = false ∧
      (∀ g, g ≠ f → r1.find g = s1.replacer.find g) ∧
      r1.evictable_size = s1.replacer.evictable_size := by
  obtain ⟨hf0, hfn, hfind, hnfree, hnmap⟩ := hd
  have hnotkey : f ∉ s1.replacer.node_store.map Prod.fst :=
    (LRUKReplacer.find_none_iff _ _).1 hfind
  have hlen : s1.replacer.node_store.length < s1.pool_size := by
    have := length_lt_of_nodup_range _ s1.pool_size f h.keys_nodup h.keys_range hf0 hfn hnotkey
    simpa using this
  have hroom : s1.replacer.curr_size < s1.replacer.replacer_size := by
    rw [h.curr_size_eq, h.capacity]
    exact hlen
  obtain ⟨r1, nd, hRA, hnd, hfind1, hkeys1, hcs1, hrs1, hes1, _, _⟩ :=
    LRUKReplacer.RecordAccess_untracked s1.replacer f hfind hroom
  have hf1 : r1.find f = some nd := by rw [hfind1, if_pos rfl]
  obtain ⟨r2, hSE, _, _, _, _, _, _, hsame, _, _⟩ :=
    LRUKReplacer.SetEvictable_tracked r1 f false nd hf1
  have hr2 : r2 = r1 := hsame hnd
  subst hr2
  have hpool2 := h.pool_small
  refine ⟨r2, nd, ?_, ?_, hf1, hnd, ?_, hes1⟩
  · unfold recordAndPin
    rw [hrep, hRA]
    simp only
    rw [hSE]
  · show InvC s4.pool_size s4.pages r2 s4.free_list s4.page_table
    rw [hpool, hfree, htab, hpages]
    refine ⟨?_, tableInsert_nodup _ _ _ h.table_nodup, h.free_nodup, h.pool_small, ?_, ?_,
      ?_, ?_, ?_, ?_, ?_⟩
    · rw [hkeys1, List.nodup_cons]
      exact ⟨hnotkey, h.keys_nodup⟩
    · rw [hrs1]
      exact h.capacity
    · have hl : r2.node_store.length = s1.replacer.node_store.length + 1 := by
        have := congrArg List.length hkeys1
        simpa using this
      rw [hcs1, h.curr_size_eq, hl]
      apply size_inc_eq
      unfold SIZE_MOD
      omega
    · intro g hg
      rw [hkeys1, List.mem_cons] at hg
      rcases hg with rfl | hg
      · exact ⟨hf0, hfn⟩
      · exact h.keys_range g hg
    · intro g n hg
      rw [hfind1] at hg
      by_cases hgf : g = f
      · subst hgf
        rw [if_pos rfl] at hg
        simp only [Option.some.injEq] at hg
        subst hg
        simp only [if_pos]
        have := h.pin_nonneg g
        rw [hnd, hpin]
        constructor
        · intro hc
          cases hc
        · intro hc
          omega
      · rw [if_neg hgf] at hg
        simp only [if_neg hgf]
        exact h.evictable_iff g n hg
    · intro g hg
      have hgf : g ≠ f := fun hgf => hnfree (hgf ▸ hg)
      obtain ⟨a, b, c, d, e⟩ := h.free_ok g hg
      refine ⟨a, b, ?_, ?_, ?_⟩
      · rw [hfind1, if_neg hgf]
        exact c
      · intro q hq
        rw [tableFind_insert] at hq
        split_ifs at hq with h1 h2
        · simp only [Option.some.injEq] at hq
          exact hgf hq.symm
        · exact d p hq
        · exact d q hq
      · simp only [if_neg hgf]
        exact e
    · intro q g hq
      rw [tableFind_insert] at hq
      split_ifs at hq with h1 h2
      · simp only [Option.some.injEq] at hq
        subst hq
        refine ⟨by rw [hf1]; simp, ?_⟩
        simp only [if_pos]
        rw [hid, h1]
      · have hgf : g ≠ f := fun hgf => hnmap p (hgf ▸ hq)
        have hold := h.table_ok p g hq
        rw [hfind1, if_neg hgf]
        simp only [if_neg hgf]
        rw [h1]
        exact hold
      · have hgf : g ≠ f := fun hgf => hnmap q (hgf ▸ hq)
        have hold := h.table_ok q g hq
        rw [hfind1, if_neg hgf]
        simp only [if_neg hgf]
        exact hold
    · intro g
      split_ifs
      · have := h.pin_nonneg f
        omega
      · exact h.pin_nonneg g
  · intro g hg
    rw [hfind1, if_neg hg]

/-- The method `NewPage` does not throw from a state satisfying the invariant, and keeps
the invariant. -/
theorem NewPage_inv (s : BufferPoolManager) (h : Inv s) :
    ∃ res s1, NewPage s = .ok (res, s1) ∧ Inv s1 := by
  rcases hA : acquireFrame s with ⟨o, s1⟩
  obtain ⟨hI, hD, _, _⟩ := acquireFrame_inv s h
  rw [hA] at hI hD
  simp only at hI hD
  cases o with
  | none =>
    refine ⟨none, s1, ?_, hI⟩
    unfold NewPage
    rw [hA]
  | some f =>
    obtain ⟨S4, hS4⟩ : ∃ S4 : BufferPoolManager, S4 =
        { setPage (AllocatePage s1).2 f
            { (AllocatePage s1).2.pages f with
              page_id := (AllocatePage s1).1,
              pin_count := ((AllocatePage s1).2.pages f).pin_count + 1,
              is_dirty := false } with
          page_table := tableInsert s1.page_table (AllocatePage s1).1 f } := ⟨_, rfl⟩
    have hN : NewPage s =
        (match recordAndPin S4 f with
          | .error s5 => .error s5
          | .ok s5 => .ok (some (f, (AllocatePage s1).1), s5) :
          Except BufferPoolManager (Option (frame_id_t × page_id_t) × BufferPoolManager)) := by
      rw [hS4]
      unfold NewPage
      rw [hA]
      rfl
    obtain ⟨r1, nd, hRP, hInv, _⟩ := install_inv s1 S4 f
      { (AllocatePage s1).2.pages f with
        page_id := (AllocatePage s1).1,
        pin_count := ((AllocatePage s1).2.pages f).pin_count + 1,
        is_dirty := false }
      (AllocatePage s1).1 hI (hD f rfl)
      (by rw [hS4]; rfl) (by rw [hS4]; rfl) (by rw [hS4]; rfl) (by rw [hS4])
      (by rw [hS4]; rfl) rfl rfl
    rw [hRP] at hN
    exact ⟨_, _, hN, hInv⟩

/-- Changing one frame's fields and its replacer node keeps the invariant, provided the
page id stays, the pin count stays non-negative, the node (if any) is evictable exactly
at pin count zero, tracking of the frame is not lost, and a free frame stays unpinned and
untracked. -/
theorem InvC_update (s : BufferPoolManager) (f : frame_id_t) (pages1 : frame_id_t → Page)
    (r1 : LRUKReplacer) (h : Inv s)
    (hother : ∀ g, g ≠ f → pages1 g = s.pages g)
    (hid : (pages1 f).page_id = (s.pages f).page_id)
    (hpin : 0 ≤ (pages1 f).pin_count)
    (hkeys : r1.node_store.map Prod.fst = s.replacer.node_store.map Prod.fst)
    (hcs : r1.curr_size = s.replacer.curr_size)
    (hrs : r1.replacer_size = s.replacer.replacer_size)
    (hfind : ∀ g, g ≠ f → r1.find g = s.replacer.find g)
    (hflag : ∀ n, r1.find f = some n → (n.is_evictable = true ↔ (pages1 f).pin_count = 0))
    (htracked : s.replacer.find f ≠ none → r1.find f ≠ none)
    (hfree : f ∈ s.free_list → (pages1 f).pin_count = 0 ∧ r1.find f = none) :
    InvC s.pool_size pages1 r1 s.free_list s.page_table := by
  refine ⟨by rw [hkeys]; exact h.keys_nodup, h.table_nodup, h.free_nodup, h.pool_small,
    by rw [hrs]; exact h.capacity, ?_, by rw [hkeys]; exact h.keys_range, ?_, ?_, ?_, ?_⟩
  · have hl : r1.node_store.length = s.replacer.node_store.length := by
      have := congrArg List.length hkeys
      simpa using this
    rw [hcs, hl]
    exact h.curr_size_eq
  · intro g n hg
    by_cases hgf : g = f
    · subst hgf
      exact hflag n hg
    · rw [hfind g hgf] at hg
      rw [hother g hgf]
      exact h.evictable_iff g n hg
  · intro g hg
    obtain ⟨a, b, c, d, e⟩ := h.free_ok g hg
    by_cases hgf : g = f
    · subst hgf
      exact ⟨a, b, (hfree hg).2, d, (hfree hg).1⟩
    · exact ⟨a, b, by rw [hfind g hgf]; exact c, d, by rw [hother g hgf]; exact e⟩
  · intro p g hp
    have hold := h.table_ok p g hp
    by_cases hgf : g = f
    · subst hgf
      exact ⟨htracked hold.1, by rw [hid]; exact hold.2⟩
    · exact ⟨by rw [hfind g hgf]; exact hold.1, by rw [hother g hgf]; exact hold.2⟩
  · intro g
    by_cases hgf : g = f
    · subst hgf
      exact hpin
    · rw [hother g hgf]
      exact h.pin_nonneg g

/-- A mapped frame is not on the free list. -/
theorem mapped_not_free (s : BufferPoolManager) (h : Inv s) (p : page_id_t) (f : frame_id_t)
    (hp : s.findPage p = some f) : f ∉ s.free_list :=
  fun hf => (h.free_ok f hf).2.2.2.1 p hp

/-- The method `FetchPage` does not throw from a state satisfying the invariant, and
keeps the invariant. -/
theorem FetchPage_inv (s : BufferPoolManager) (h : Inv s) (p : page_id_t) :
    ∃ res s1, FetchPage s p = .ok (res, s1) ∧ Inv s1 := by
  cases hp : s.findPage p with
  | some f =>
    obtain ⟨n, hn⟩ : ∃ n, s.replacer.find f = some n := by
      cases hf : s.replacer.find f with
      | none => exact absurd hf (h.table_ok p f hp).1
      | some n => exact ⟨n, rfl⟩
    obtain ⟨r1, hRA, hfind1, hkeys1, hcs1, hrs1, _, _, _⟩ :=
      LRUKReplacer.RecordAccess_tracked s.replacer f n hn
    have hf1 : r1.find f = some (n.addHistory (size_inc s.replacer.current_timestamp)) := by
      rw [hfind1, if_pos rfl]
    obtain ⟨r2, hSE, hfind2, hkeys2, hcs2, hrs2, _, _, _, _, _⟩ :=
      LRUKReplacer.SetEvictable_tracked r1 f false _ hf1
    obtain ⟨S, hS⟩ : ∃ S : BufferPoolManager, S =
        { setPage { s with replacer := r1 } f
            { s.pages f with pin_count := (s.pages f).pin_count + 1 } with
          replacer := r2 } := ⟨_, rfl⟩
    have hF : FetchPage s p = .ok (some f, S) := by
      rw [hS]
      unfold FetchPage
      rw [hp]
      simp only
      rw [hRA]
      simp only
      have hSE2 : (setPage { s with replacer := r1 } f
          { s.pages f with pin_count := (s.pages f).pin_count + 1 }).replacer.SetEvictable f false
          = .ok r2 := hSE
      rw [hSE2]
    refine ⟨_, _, hF, ?_⟩
    rw [hS]
    have hnn := h.pin_nonneg f
    apply InvC_update s f _ r2 h
    · intro g hg
      simp [setPage, hg]
    · simp [setPage]
    · simp only [setPage, if_pos]
      omega
    · rw [hkeys2, hkeys1]
    · rw [hcs2, hcs1]
    · rw [hrs2, hrs1]
    · intro g hg
      rw [hfind2, if_neg hg, hfind1, if_neg hg]
    · intro m hm
      rw [hfind2, if_pos rfl] at hm
      simp only [Option.some.injEq] at hm
      subst hm
      simp only [setPage, if_pos, LRUKNode.setIsEvictable]
      constructor
      · intro hc
        cases hc
      · intro hc
        omega
    · intro _
      rw [hfind2, if_pos rfl]
      simp
    · intro hfr
      exact absurd hfr (mapped_not_free s h p f hp)
  | none =>
    rcases hA : acquireFrame s with ⟨o, s1⟩
    obtain ⟨hI, hD, _, _⟩ := acquireFrame_inv s h
    rw [hA] at hI hD
    simp only at hI hD
    cases o with
    | none =>
      refine ⟨none, s1, ?_, hI⟩
      unfold FetchPage
      rw [hp]
      simp only
      rw [hA]
    | some f =>
      obtain ⟨S4, hS4⟩ : ∃ S4 : BufferPoolManager, S4 =
          { setPage { s1 with disk_manager := (s1.disk_manager.ReadPage p).2 } f
              { data := (s1.disk_manager.ReadPage p).1, page_id := p,
                pin_count := (s1.pages f).pin_count + 1, is_dirty := false } with
            page_table := tableInsert s1.page_table p f } := ⟨_, rfl⟩
      have hN : FetchPage s p =
          (match recordAndPin S4 f with
            | .error s5 => .error s5
            | .ok s5 => .ok (some f, s5) :
            Except BufferPoolManager (Option frame_id_t × BufferPoolManager)) := by
        rw [hS4]
        unfold FetchPage
        rw [hp]
        simp only
        rw [hA]
        rfl
      obtain ⟨r1, nd, hRP, hInv, _⟩ := install_inv s1 S4 f
        { data := (s1.disk_manager.ReadPage p).1, page_id := p,
          pin_count := (s1.pages f).pin_count + 1, is_dirty := false }
        p hI (hD f rfl)
        (by rw [hS4]; rfl) (by rw [hS4]; rfl) (by rw [hS4]; rfl) (by rw [hS4])
        (by rw [hS4]; rfl) rfl rfl
      rw [hRP] at hN
      exact ⟨_, _, hN, hInv⟩

theorem setPage_pages_same (s : BufferPoolManager) (f : frame_id_t) (pg : Page) :
    (setPage s f pg).pages f = pg := by
  simp [setPage]

theorem setPage_pages_other (s : BufferPoolManager) (f g : frame_id_t) (pg : Page)
    (h : g ≠ f) : (setPage s f pg).pages g = s.pages g := by
  simp [setPage, h]

/-- The pinned branch of `UnpinPage` (lines 117-124), for any state: the outcome follows
the call to `SetEvictable`, made only when the decremented count is zero. -/
theorem UnpinPage_pinned (s : BufferPoolManager) (p : page_id_t) (d : Bool) (f : frame_id_t)
    (hp : s.findPage p = some f) (hpin : 0 < (s.pages f).pin_count) :
    (∀ r, (if (s.pages f).pin_count - 1 = 0 then s.replacer.SetEvictable f true
        else .ok s.replacer) = .error r →
      ∃ s1, UnpinPage s p d = .error s1 ∧ s1.replacer = r ∧
        ∀ g, (s1.pages g).is_dirty = (s.pages g).is_dirty) ∧
    (∀ r, (if (s.pages f).pin_count - 1 = 0 then s.replacer.SetEvictable f true
        else .ok s.replacer) = .ok r →
      ∃ s1, UnpinPage s p d = .ok (true, s1) ∧ s1.replacer = r ∧
        s1.pool_size = s.pool_size ∧ s1.page_table = s.page_table ∧
        s1.free_list = s.free_list ∧ s1.next_page_id = s.next_page_id ∧
        s1.disk_manager = s.disk_manager ∧ s1.deallocated = s.deallocated ∧
        (∀ g, g ≠ f → s1.pages g = s.pages g) ∧
        s1.pages f = { s.pages f with pin_count := (s.pages f).pin_count - 1,
                                      is_dirty := (s.pages f).is_dirty || d }) := by
  have hU : UnpinPage s p d =
      (match (if (s.pages f).pin_count - 1 = 0 then s.replacer.SetEvictable f true
          else .ok s.replacer : Except LRUKReplacer LRUKReplacer) with
        | .error r =>
          .error { setPage s f { s.pages f with pin_count := (s.pages f).pin_count - 1 } with
                   replacer := r }
        | .ok r =>
          .ok (true,
            if (!(s.pages f).is_dirty) && d then
              setPage { setPage s f { s.pages f with pin_count := (s.pages f).pin_count - 1 } with
                        replacer := r } f
                { s.pages f with pin_count := (s.pages f).pin_count - 1, is_dirty := d }
            else
              { setPage s f { s.pages f with pin_count := (s.pages f).pin_count - 1 } with
                replacer := r }) :
        Except BufferPoolManager (Bool × BufferPoolManager)) := by
    unfold UnpinPage
    rw [hp]
    simp only
    rw [if_neg (by omega)]
    simp only [setPage_pages_same]
    rfl
  constructor
  · intro r hr
    rw [hr] at hU
    refine ⟨_, hU, rfl, ?_⟩
    intro g
    by_cases hg : g = f
    · subst hg
      simp [setPage]
    · simp [setPage, hg]
  · intro r hr
    rw [hr] at hU
    refine ⟨_, hU, ?_, ?_, ?_, ?_, ?_, ?_, ?_, ?_, ?_⟩
    · split_ifs <;> rfl
    · split_ifs <;> rfl
    · split_ifs <;> rfl
    · split_ifs <;> rfl
    · split_ifs <;> rfl
    · split_ifs <;> rfl
    · split_ifs <;> rfl
    · intro g hg
      split_ifs <;> simp [setPage, hg]
    · cases hdirty : (s.pages f).is_dirty <;> cases d <;> simp [setPage, hdirty]

theorem UnpinPage_not_resident (s : BufferPoolManager) (p : page_id_t) (d : Bool)
    (hp : s.findPage p = none) : UnpinPage s p d = .ok (false, s) := by
  unfold UnpinPage
  rw [hp]

theorem UnpinPage_unpinned (s : BufferPoolManager) (p : page_id_t) (d : Bool) (f : frame_id_t)
    (hp : s.findPage p = some f) (hpin : (s.pages f).pin_count ≤ 0) :
    UnpinPage s p d = .ok (false, s) := by
  unfold UnpinPage
  rw [hp]
  simp only
  rw [if_pos hpin]

/-- The pinned branch of `UnpinPage` from a state satisfying the invariant: the call
returns `true`, the frame's node was tracked and non-evictable, the call to
`SetEvictable` (made when the count reaches zero) does not throw, and the invariant is
kept. -/
theorem UnpinPage_pinned_inv (s : BufferPoolManager) (h : Inv s) (p : page_id_t) (d : Bool)
    (f : frame_id_t) (hp : s.findPage p = some f) (hpin : 0 < (s.pages f).pin_count) :
    ∃ s1 n, UnpinPage s p d = .ok (true, s1) ∧ Inv s1 ∧
      s.replacer.find f = some n ∧ n.is_evictable = false ∧
      s1.pool_size = s.pool_size ∧ s1.page_table = s.page_table ∧
      s1.free_list = s.free_list ∧ s1.next_page_id = s.next_page_id ∧
      s1.disk_manager = s.disk_manager ∧ s1.deallocated = s.deallocated ∧
      (∀ g, g ≠ f → s1.pages g = s.pages g) ∧
      s1.pages f = { s.pages f with pin_count := (s.pages f).pin_count - 1,
                                    is_dirty := (s.pages f).is_dirty || d } ∧
      (∀ g, g ≠ f → s1.replacer.find g = s.replacer.find g) ∧
      ((s.pages f).pin_count - 1 = 0 →
        s.replacer.SetEvictable f true = .ok s1.replacer ∧
        s1.replacer.find f = some (n.setIsEvictable true)) ∧
      ((s.pages f).pin_count - 1 ≠ 0 → s1.replacer = s.replacer) := by
  obtain ⟨n, hn⟩ : ∃ n, s.replacer.find f = some n := by
    cases hf : s.replacer.find f with
    | none => exact absurd hf (h.table_ok p f hp).1
    | some n => exact ⟨n, rfl⟩
  have hnev : n.is_evictable = false := by
    cases hne : n.is_evictable with
    | false => rfl
    | true =>
      have := (h.evictable_iff f n hn).1 hne
      omega
  obtain ⟨r1, hSE, hfind1, hkeys1, hcs1, hrs1, _, _, _, _, _⟩ :=
    LRUKReplacer.SetEvictable_tracked s.replacer f true n hn
  obtain ⟨_, hok⟩ := UnpinPage_pinned s p d f hp hpin
  by_cases h0 : (s.pages f).pin_count - 1 = 0
  · obtain ⟨s1, hU, hrep, hps, hpt, hfl, hnp, hdm, hde, hoth, hpf⟩ :=
      hok r1 (by rw [if_pos h0]; exact hSE)
    refine ⟨s1, n, hU, ?_, hn, hnev, hps, hpt, hfl, hnp, hdm, hde, hoth, hpf, ?_, ?_, ?_⟩
    · show InvC s1.pool_size s1.pages s1.replacer s1.free_list s1.page_table
      rw [hps, hpt, hfl, hrep]
      apply InvC_update s f _ r1 h hoth
      · rw [hpf]
      · rw [hpf]
        simp only
        omega
      · exact hkeys1
      · exact hcs1
      · exact hrs1
      · intro g hg
        rw [hfind1, if_neg hg]
      · intro m hm
        rw [hfind1, if_pos rfl] at hm
        simp only [Option.some.injEq] at hm
        subst hm
        rw [hpf]
        simp [LRUKNode.setIsEvictable, h0]
      · intro _
        rw [hfind1, if_pos rfl]
        simp
      · intro hfr
        exact absurd hfr (mapped_not_free s h p f hp)
    · intro g hg
      rw [hrep, hfind1, if_neg hg]
    · intro _
      rw [hrep]
      exact ⟨hSE, by rw [hfind1, if_pos rfl]⟩
    · intro hc
      exact absurd h0 hc
  · obtain ⟨s1, hU, hrep, hps, hpt, hfl, hnp, hdm, hde, hoth, hpf⟩ :=
      hok s.replacer (by rw [if_neg h0])
    refine ⟨s1, n, hU, ?_, hn, hnev, hps, hpt, hfl, hnp, hdm, hde, hoth, hpf, ?_, ?_, ?_⟩
    · show InvC s1.pool_size s1.pages s1.replacer s1.free_list s1.page_table
      rw [hps, hpt, hfl, hrep]
      apply InvC_update s f _ s.replacer h hoth
      · rw [hpf]
      · rw [hpf]
        simp only
        omega
      · rfl
      · rfl
      · rfl
      · intro g _
        rfl
      · intro m hm
        rw [hn] at hm
        simp only [Option.some.injEq] at hm
        subst hm
        rw [hpf]
        simp [hnev, h0]
      · intro hc
        exact hc
      · intro hfr
        exact absurd hfr (mapped_not_free s h p f hp)
    · intro g _
      rw [hrep]
    · intro hc
      exact absurd hc h0
    · intro _
      exact hrep

/-- The method `UnpinPage` does not throw from a state satisfying the invariant, and
keeps the invariant. -/
theorem UnpinPage_inv (s : BufferPoolManager) (h : Inv s) (p : page_id_t) (d : Bool) :
    ∃ res s1, UnpinPage s p d = .ok (res, s1) ∧ Inv s1 := by
  cases hp : s.findPage p with
  | none => exact ⟨false, s, UnpinPage_not_resident s p d hp, h⟩
  | some f =>
    by_cases hpin : (s.pages f).pin_count ≤ 0
    · exact ⟨false, s, UnpinPage_unpinned s p d f hp hpin, h⟩
    · obtain ⟨s1, _, hU, hI, _⟩ := UnpinPage_pinned_inv s h p d f hp (by omega)
      exact ⟨true, s1, hU, hI⟩

theorem FlushPage_not_resident (s : BufferPoolManager) (p : page_id_t)
    (hp : s.findPage p = none) : FlushPage s p = (false, s) := by
  unfold FlushPage
  rw [hp]

theorem FlushPage_resident (s : BufferPoolManager) (p : page_id_t) (f : frame_id_t)
    (hp : s.findPage p = some f) :
    FlushPage s p =
      (true, setPage { s with disk_manager := s.disk_manager.WritePage p (s.pages f).data } f
        { s.pages f with is_dirty := false }) := by
  unfold FlushPage
  rw [hp]

/-- The method `FlushPage` leaves everything but the disk and one dirty flag as it was. -/
theorem FlushPage_frame (s : BufferPoolManager) (p : page_id_t) :
    (FlushPage s p).2.pool_size = s.pool_size ∧
    (FlushPage s p).2.replacer = s.replacer ∧
    (FlushPage s p).2.free_list = s.free_list ∧
    (FlushPage s p).2.page_table = s.page_table ∧
    (FlushPage s p).2.next_page_id = s.next_page_id ∧
    (FlushPage s p).2.deallocated = s.deallocated ∧
    (∀ g, ((FlushPage s p).2.pages g).pin_count = (s.pages g).pin_count ∧
      ((FlushPage s p).2.pages g).page_id = (s.pages g).page_id ∧
      ((FlushPage s p).2.pages g).data = (s.pages g).data) ∧
    (∀ g, s.findPage p ≠ some g → (FlushPage s p).2.pages g = s.pages g) := by
  cases hp : s.findPage p with
  | none =>
    rw [FlushPage_not_resident s p hp]
    simp
  | some f =>
    rw [FlushPage_resident s p f hp]
    refine ⟨rfl, rfl, rfl, rfl, rfl, rfl, ?_, ?_⟩
    · intro g
      by_cases hg : g = f
      · subst hg
        simp [setPage]
      · simp [setPage, hg]
    · intro g hg
      have : g ≠ f := fun h1 => hg (by rw [h1])
      simp [setPage, this]

theorem FlushPage_inv (s : BufferPoolManager) (h : Inv s) (p : page_id_t) :
    Inv (FlushPage s p).2 := by
  obtain ⟨h1, h2, h3, h4, _, _, h7, _⟩ := FlushPage_frame s p
  show InvC _ _ _ _ _
  rw [h1, h2, h3, h4]
  exact ⟨h.keys_nodup, h.table_nodup, h.free_nodup, h.pool_small, h.capacity, h.curr_size_eq,
    h.keys_range,
    fun f n hf => by rw [(h7 f).1]; exact h.evictable_iff f n hf,
    fun f hf => by
      obtain ⟨a, b, c, d, e⟩ := h.free_ok f hf
      exact ⟨a, b, c, d, by rw [(h7 f).1]; exact e⟩,
    fun q f hq => by
      obtain ⟨a, b⟩ := h.table_ok q f hq
      exact ⟨a, by rw [(h7 f).2.1]; exact b⟩,
    fun f => by rw [(h7 f).1]; exact h.pin_nonneg f⟩

theorem flushAll_inv (l : List (page_id_t × frame_id_t)) (s : BufferPoolManager) (h : Inv s) :
    Inv (l.foldl (fun acc it => (FlushPage acc it.1).2) s) := by
  induction l generalizing s with
  | nil => exact h
  | cons x xs ih => exact ih _ (FlushPage_inv s h x.1)

theorem FlushAllPages_inv (s : BufferPoolManager) (h : Inv s) : Inv (FlushAllPages s) :=
  flushAll_inv s.page_table s h

theorem WriteData_inv (s : BufferPoolManager) (h : Inv s) (f : frame_id_t) (b : PageData) :
    Inv (WriteData s f b) := by
  show InvC s.pool_size (WriteData s f b).pages s.replacer s.free_list s.page_table
  apply InvC_update s f _ s.replacer h
  · intro g hg
    simp [WriteData, setPage, hg]
  · simp [WriteData, setPage]
  · simp only [WriteData, setPage, if_pos]
    exact h.pin_nonneg f
  · rfl
  · rfl
  · rfl
  · intro g _
    rfl
  · intro n hn
    simp only [WriteData, setPage, if_pos]
    exact h.evictable_iff f n hn
  · exact fun hc => hc
  · intro hf
    obtain ⟨_, _, c, _, e⟩ := h.free_ok f hf
    simp only [WriteData, setPage, if_pos]
    exact ⟨e, c⟩

theorem DeletePage_not_resident (s : BufferPoolManager) (p : page_id_t)
    (hp : s.findPage p = none) : DeletePage s p = .ok (true, s) := by
  unfold DeletePage
  rw [hp]

theorem DeletePage_pinned (s : BufferPoolManager) (p : page_id_t) (f : frame_id_t)
    (hp : s.findPage p = some f) (hpin : 0 < (s.pages f).pin_count) :
    DeletePage s p = .ok (false, s) := by
  unfold DeletePage
  rw [hp]
  simp only
  rw [if_pos hpin]

/-- The unpinned branch of `DeletePage` from a state satisfying the invariant: `Remove`
does not throw, the call returns `true`, and the invariant is kept. -/
theorem DeletePage_unpinned_inv (s : BufferPoolManager) (h : Inv s) (p : page_id_t)
    (f : frame_id_t) (hp : s.findPage p = some f) (hpin : ¬ 0 < (s.pages f).pin_count) :
    ∃ r1, s.replacer.Remove f = .ok r1 ∧
      DeletePage s p = .ok (true, { s with replacer := r1,
                                           page_table := tableErase s.page_table p,
                                           free_list := s.free_list ++ [f],
                                           deallocated := p :: s.deallocated }) ∧
      Inv { s with replacer := r1, page_table := tableErase s.page_table p,
                   free_list := s.free_list ++ [f], deallocated := p :: s.deallocated } ∧
      (∀ g, r1.find g = if g = f then none else s.replacer.find g) := by
  have hpin0 : (s.pages f).pin_count = 0 := by
    have := h.pin_nonneg f
    omega
  obtain ⟨n, hn⟩ : ∃ n, s.replacer.find f = some n := by
    cases hf : s.replacer.find f with
    | none => exact absurd hf (h.table_ok p f hp).1
    | some n => exact ⟨n, rfl⟩
  have hev : n.is_evictable = true := (h.evictable_iff f n hn).2 hpin0
  obtain ⟨r1, hR, hfind1, hstore1, hcs1, hrs1, _, _, _⟩ :=
    LRUKReplacer.Remove_evictable s.replacer f n hn hev
  have hmem : f ∈ s.replacer.node_store.map Prod.fst := LRUKReplacer.find_mem_keys _ _ _ hn
  have hlen := LRUKReplacer.length_eraseKey _ f h.keys_nodup hmem
  have hlt := store_length_lt s h
  have hnotfree := mapped_not_free s h p f hp
  have honly : ∀ q, tableFind s.page_table q = some f → q = p := by
    intro q hq
    rw [← (h.table_ok q f hq).2, ← (h.table_ok p f hp).2]
  refine ⟨r1, hR, ?_, ?_, hfind1⟩
  · unfold DeletePage
    rw [hp]
    simp only
    rw [if_neg hpin, hR]
    rfl
  · refine ⟨?_, filter_key_nodup _ _ h.table_nodup, ?_, h.pool_small,
      by rw [hrs1]; exact h.capacity, ?_, ?_, ?_, ?_, ?_, h.pin_nonneg⟩
    · rw [hstore1]
      exact filter_key_nodup _ _ h.keys_nodup
    · simp only
      rw [List.nodup_append]
      refine ⟨h.free_nodup, List.nodup_singleton f, ?_⟩
      intro a ha hb
      rw [List.mem_singleton] at hb
      exact hnotfree (hb ▸ ha)
    · rw [hcs1, h.curr_size_eq, hstore1, size_dec_eq _ (by omega) hlt]
      omega
    · intro g hg
      rw [hstore1] at hg
      exact h.keys_range g (LRUKReplacer.eraseKey_keys_mem _ _ _ hg).1
    · intro g m hg
      rw [hfind1] at hg
      split_ifs at hg
      exact h.evictable_iff g m hg
    · intro g hg
      simp only [List.mem_append, List.mem_singleton] at hg
      rcases hg with hg | rfl
      · obtain ⟨a, b, c, d, e⟩ := h.free_ok g hg
        have hgf : g ≠ f := fun hgf => hnotfree (hgf ▸ hg)
        refine ⟨a, b, by rw [hfind1, if_neg hgf]; exact c, ?_, e⟩
        intro q hq
        simp only at hq
        rw [tableFind_erase] at hq
        split_ifs at hq
        exact d q hq
      · refine ⟨(h.keys_range g hmem).1, (h.keys_range g hmem).2,
          by rw [hfind1, if_pos rfl], ?_, hpin0⟩
        intro q hq
        simp only at hq
        rw [tableFind_erase] at hq
        split_ifs at hq with hqp
        exact hqp (honly q hq)
    · intro q g hq
      simp only at hq
      rw [tableFind_erase] at hq
      split_ifs at hq with hqp
      have hold := h.table_ok q g hq
      have hgf : g ≠ f := by
        intro hgf
        rw [hgf] at hq
        exact hqp (honly q hq)
      exact ⟨by rw [hfind1, if_neg hgf]; exact hold.1, hold.2⟩

/-- The method `DeletePage` does not throw from a state satisfying the invariant, and
keeps the invariant. -/
theorem DeletePage_inv (s : BufferPoolManager) (h : Inv s) (p : page_id_t) :
    ∃ res s1, DeletePage s p = .ok (res, s1) ∧ Inv s1 := by
  cases hp : s.findPage p with
  | none => exact ⟨true, s, DeletePage_not_resident s p hp, h⟩
  | some f =>
    by_cases hpin : 0 < (s.pages f).pin_count
    · exact ⟨false, s, DeletePage_pinned s p f hp hpin, h⟩
    · obtain ⟨r1, _, hD, hI, _⟩ := DeletePage_unpinned_inv s h p f hp hpin
      exact ⟨true, _, hD, hI⟩

theorem new_inv (pool_size replacer_k : Nat) (disk : DiskManager) (h : pool_size < 2 ^ 31) :
    Inv (new pool_size replacer_k disk) := by
  refine ⟨by simp [new, LRUKReplacer.new], by simp [new], ?_, h, rfl, rfl,
    by simp [new, LRUKReplacer.new], ?_, ?_, ?_, ?_⟩
  · simp only [new]
    exact List.Nodup.map (fun a b hab => Int.ofNat.inj hab) (List.nodup_range pool_size)
  · intro f n hf
    simp [new, LRUKReplacer.new, LRUKReplacer.find] at hf
  · intro f hf
    simp only [new, List.mem_map, List.mem_range] at hf
    obtain ⟨i, hi, rfl⟩ := hf
    refine ⟨Int.ofNat_nonneg i, by show (i : Int) < (pool_size : Int); exact_mod_cast hi,
      rfl, ?_, rfl⟩
    intro p hp
    simp [new, tableFind] at hp
  · intro p f hp
    simp [new, tableFind] at hp
  · intro f
    simp [new]

theorem reorder_inv (s : BufferPoolManager) (h : Inv s) (ns : List (frame_id_t × LRUKNode))
    (pt : List (page_id_t × frame_id_t)) (hns : ns.Perm s.replacer.node_store)
    (hpt : pt.Perm s.page_table) :
    Inv { s with replacer := { s.replacer with node_store := ns }, page_table := pt } := by
  have hfind : ∀ g, LRUKReplacer.find { s.replacer with node_store := ns } g =
      s.replacer.find g := by
    intro g
    unfold LRUKReplacer.find
    simp only
    rw [find_perm_key _ _ g h.keys_nodup hns]
  have htab : ∀ q, tableFind pt q = tableFind s.page_table q := by
    intro q
    unfold tableFind
    rw [find_perm_key _ _ q h.table_nodup hpt]
  refine ⟨(List.Perm.nodup_iff (List.Perm.map _ hns)).2 h.keys_nodup,
    (List.Perm.nodup_iff (List.Perm.map _ hpt)).2 h.table_nodup, h.free_nodup, h.pool_small,
    h.capacity, ?_, ?_, ?_, ?_, ?_, h.pin_nonneg⟩
  · show s.replacer.curr_size = ns.length
    rw [hns.length_eq]
    exact h.curr_size_eq
  · intro g hg
    exact h.keys_range g ((List.Perm.map _ hns).subset hg)
  · intro g n hg
    rw [hfind] at hg
    exact h.evictable_iff g n hg
  · intro g hg
    obtain ⟨a, b, c, d, e⟩ := h.free_ok g hg
    exact ⟨a, b, by rw [hfind]; exact c, fun q => by rw [htab]; exact d q, e⟩
  · intro q g hq
    rw [htab] at hq
    rw [hfind]
    exact h.table_ok q g hq

/-- Every reachable state of the buffer pool satisfies the invariant; in particular no
call made from a reachable state throws. -/
theorem Reachable.bpm_inv (s : BufferPoolManager) (h : Reachable s) : Inv s := by
  induction h with
  | init n k disk hn => exact new_inv n k disk hn
  | step s op _ ih =>
    cases op with
    | NewPage =>
      obtain ⟨res, s1, hN, hI⟩ := NewPage_inv s ih
      simp only [exec, hN, after]
      exact hI
    | FetchPage p =>
      obtain ⟨res, s1, hN, hI⟩ := FetchPage_inv s ih p
      simp only [exec, hN, after]
      exact hI
    | UnpinPage p d =>
      obtain ⟨res, s1, hN, hI⟩ := UnpinPage_inv s ih p d
      simp only [exec, hN, after]
      exact hI
    | FlushPage p => exact FlushPage_inv s ih p
    | FlushAllPages => exact FlushAllPages_inv s ih
    | DeletePage p =>
      obtain ⟨res, s1, hN, hI⟩ := DeletePage_inv s ih p
      simp only [exec, hN, after]
      exact hI
    | WriteData f b => exact WriteData_inv s ih f b
  | reorder s ns pt _ hns hpt ih => exact reorder_inv s ih ns pt hns hpt

end BufferPoolManager

/-! ## Lemmas: which operations touch a frame's fields -/

namespace BufferPoolManager

theorem acquireFrame_pages (s : BufferPoolManager) : (acquireFrame s).2.pages = s.pages := by
  unfold acquireFrame
  cases s.free_list with
  | cons f rest => rfl
  | nil =>
    simp only
    rcases hE : s.replacer.Evict with ⟨o, r1⟩
    cases o <;> rfl

theorem recordAndPin_pages (s s1 : BufferPoolManager) (f : frame_id_t)
    (h : recordAndPin s f = .ok s1 ∨ recordAndPin s f = .error s1) : s1.pages = s.pages := by
  unfold recordAndPin at h
  cases hRA : s.replacer.RecordAccess f with
  | error r =>
    rw [hRA] at h
    rcases h with h | h <;> cases h
    rfl
  | ok r =>
    rw [hRA] at h
    simp only at h
    cases hSE : r.SetEvictable f false with
    | error r1 =>
      rw [hSE] at h
      rcases h with h | h <;> cases h
      rfl
    | ok r1 =>
      rw [hSE] at h
      rcases h with h | h <;> cases h
      rfl

/-- The state `NewPage` leaves behind differs from the old one, on the frames, only at
the frame taken by `acquireFrame`. -/
theorem NewPage_pages_other (s : BufferPoolManager) (g : frame_id_t)
    (hg : (acquireFrame s).1 ≠ some g) : (after (NewPage s)).pages g = s.pages g := by
  have hpg := acquireFrame_pages s
  rcases hA : acquireFrame s with ⟨o, s1⟩
  rw [hA] at hg hpg
  simp only at hg hpg
  cases o with
  | none =>
    have : NewPage s = .ok (none, s1) := by
      unfold NewPage
      rw [hA]
    rw [this]
    simp only [after]
    rw [hpg]
  | some f =>
    have hfg : g ≠ f := fun h1 => hg (by rw [h1])
    obtain ⟨S4, hS4⟩ : ∃ S4 : BufferPoolManager, S4 =
        { setPage (AllocatePage s1).2 f
            { (AllocatePage s1).2.pages f with
              page_id := (AllocatePage s1).1,
              pin_count := ((AllocatePage s1).2.pages f).pin_count + 1,
              is_dirty := false } with
          page_table := tableInsert s1.page_table (AllocatePage s1).1 f } := ⟨_, rfl⟩
    have hN : NewPage s =
        (match recordAndPin S4 f with
          | .error s5 => .error s5
          | .ok s5 => .ok (some (f, (AllocatePage s1).1), s5) :
          Except BufferPoolManager (Option (frame_id_t × page_id_t) × BufferPoolManager)) := by
      rw [hS4]
      unfold NewPage
      rw [hA]
      rfl
    have hS4g : S4.pages g = s.pages g := by
      rw [hS4, ← hpg]
      simp [setPage, hfg, AllocatePage]
    rw [hN]
    cases hx : recordAndPin S4 f with
    | error s5 =>
      simp only [after]
      rw [recordAndPin_pages S4 s5 f (Or.inr hx), hS4g]
    | ok s5 =>
      simp only [after]
      rw [recordAndPin_pages S4 s5 f (Or.inl hx), hS4g]

/-- The hit path of `FetchPage` changes no dirty flag. -/
theorem FetchPage_hit_dirty (s : BufferPoolManager) (p : page_id_t) (f g : frame_id_t)
    (hp : s.findPage p = some f) :
    ((after (FetchPage s p)).pages g).is_dirty = (s.pages g).is_dirty := by
  unfold FetchPage
  rw [hp]
  simp only
  cases hRA : s.replacer.RecordAccess f with
  | error r => rfl
  | ok r =>
    simp only
    have hpg : ∀ r1 : LRUKReplacer,
        (({ setPage { s with replacer := r } f
              { s.pages f with pin_count := (s.pages f).pin_count + 1 } with
            replacer := r1 } : BufferPoolManager).pages g).is_dirty = (s.pages g).is_dirty := by
      intro r1
      by_cases hgf : g = f
      · subst hgf
        simp [setPage]
      · simp [setPage, hgf]
    cases hSE : (setPage { s with replacer := r } f
        { s.pages f with pin_count := (s.pages f).pin_count + 1 }).replacer.SetEvictable f false with
    | error r1 => exact hpg r1
    | ok r1 => exact hpg r1

/-- The state the miss path of `FetchPage` leaves behind differs from the old one, on the
frames, only at the frame taken by `acquireFrame`. -/
theorem FetchPage_miss_pages_other (s : BufferPoolManager) (p : page_id_t) (g : frame_id_t)
    (hp : s.findPage p = none) (hg : (acquireFrame s).1 ≠ some g) :
    (after (FetchPage s p)).pages g = s.pages g := by
  have hpg := acquireFrame_pages s
  rcases hA : acquireFrame s with ⟨o, s1⟩
  rw [hA] at hg hpg
  simp only at hg hpg
  cases o with
  | none =>
    have : FetchPage s p = .ok (none, s1) := by
      unfold FetchPage
      rw [hp]
      simp only
      rw [hA]
    rw [this]
    simp only [after]
    rw [hpg]
  | some f =>
    have hfg : g ≠ f := fun h1 => hg (by rw [h1])
    obtain ⟨S4, hS4⟩ : ∃ S4 : BufferPoolManager, S4 =
        { setPage { s1 with disk_manager := (s1.disk_manager.ReadPage p).2 } f
            { data := (s1.disk_manager.ReadPage p).1, page_id := p,
              pin_count := (s1.pages f).pin_count + 1, is_dirty := false } with
          page_table := tableInsert s1.page_table p f } := ⟨_, rfl⟩
    have hN : FetchPage s p =
        (match recordAndPin S4 f with
          | .error s5 => .error s5
          | .ok s5 => .ok (some f, s5) :
          Except BufferPoolManager (Option frame_id_t × BufferPoolManager)) := by
      rw [hS4]
      unfold FetchPage
      rw [hp]
      simp only
      rw [hA]
      rfl
    have hS4g : S4.pages g = s.pages g := by
      rw [hS4, ← hpg]
      simp [setPage, hfg]
    rw [hN]
    cases hx : recordAndPin S4 f with
    | error s5 =>
      simp only [after]
      rw [recordAndPin_pages S4 s5 f (Or.inr hx), hS4g]
    | ok s5 =>
      simp only [after]
      rw [recordAndPin_pages S4 s5 f (Or.inl hx), hS4g]

/-- The method `UnpinPage` never clears a dirty flag, whatever its outcome. -/
theorem UnpinPage_keeps_dirty (s : BufferPoolManager) (p : page_id_t) (d : Bool)
    (g : frame_id_t) (hd : (s.pages g).is_dirty = true) :
    ((after (UnpinPage s p d)).pages g).is_dirty = true := by
  cases hp : s.findPage p with
  | none =>
    rw [UnpinPage_not_resident s p d hp]
    exact hd
  | some f =>
    by_cases hpin : (s.pages f).pin_count ≤ 0
    · rw [UnpinPage_unpinned s p d f hp hpin]
      exact hd
    · obtain ⟨herr, hok⟩ := UnpinPage_pinned s p d f hp (by omega)
      cases hm : (if (s.pages f).pin_count - 1 = 0 then s.replacer.SetEvictable f true
          else .ok s.replacer : Except LRUKReplacer LRUKReplacer) with
      | error r =>
        obtain ⟨s1, hU, _, hdirty⟩ := herr r hm
        rw [hU]
        simp only [after]
        rw [hdirty g]
        exact hd
      | ok r =>
        obtain ⟨s1, hU, _, _, _, _, _, _, _, hoth, hpf⟩ := hok r hm
        rw [hU]
        simp only [after]
        by_cases hgf : g = f
        · subst hgf
          rw [hpf]
          simp [hd]
        · rw [hoth g hgf]
          exact hd

theorem DeletePage_pages (s : BufferPoolManager) (p : page_id_t) :
    (after (DeletePage s p)).pages = s.pages := by
  unfold DeletePage
  cases s.findPage p with
  | none => rfl
  | some f =>
    simp only
    split_ifs
    · rfl
    · cases s.replacer.Remove f <;> rfl

theorem flushAll_pages (l : List (page_id_t × frame_id_t)) (s : BufferPoolManager)
    (g : frame_id_t) (hl : ∀ x ∈ l, s.findPage x.1 ≠ some g) :
    (l.foldl (fun acc it => (FlushPage acc it.1).2) s).pages g = s.pages g := by
  induction l generalizing s with
  | nil => rfl
  | cons x xs ih =>
    rw [List.foldl_cons]
    obtain ⟨_, _, _, h4, _, _, _, h8⟩ := FlushPage_frame s x.1
    rw [ih (FlushPage s x.1).2]
    · exact h8 g (hl x (List.mem_cons_self _ _))
    · intro y hy
      unfold findPage
      rw [h4]
      exact hl y (List.mem_cons_of_mem _ hy)

end BufferPoolManager

/-! ## Lemmas: the victim among frames with full histories -/

namespace LRUKReplacer

end LRUKReplacer

/-! ## Lemmas: the tracked count -/

namespace LRUKReplacer

theorem addHistory_flag (n : LRUKNode) (ts : Nat) :
    (n.addHistory ts).is_evictable = n.is_evictable := rfl

theorem RecordAccess_full (r : LRUKReplacer) (f : frame_id_t) (h : r.find f = none)
    (hfull : r.replacer_size ≤ r.curr_size) :
    RecordAccess r f = .error { r with current_timestamp := size_inc r.current_timestamp } := by
  have hfind : find { r with current_timestamp := size_inc r.current_timestamp } f = none := h
  unfold RecordAccess
  simp only [hfind]
  rw [if_pos (by simpa using hfull)]

/-- In every reachable state of a replacer whose capacity fits a `size_t`, `curr_size_`
is the number of nodes in the store and does not exceed the capacity. -/
theorem Reachable.counted (r : LRUKReplacer) (h : Reachable r)
    (hcap : r.replacer_size < SIZE_MOD) :
    r.curr_size = r.node_store.length ∧ r.curr_size ≤ r.replacer_size := by
  induction h with
  | init n k hk => exact ⟨rfl, Nat.zero_le _⟩
  | recordAccess r f hr _ ih =>
    cases hf : r.find f with
    | some n =>
      obtain ⟨r1, hRA, _, hkeys, hcs, hrs, _⟩ := RecordAccess_tracked r f n hf
      rw [hRA] at hcap ⊢
      simp only [after] at hcap ⊢
      rw [hrs] at hcap
      obtain ⟨h1, h2⟩ := ih hcap
      have hl : r1.node_store.length = r.node_store.length := by
        have := congrArg List.length hkeys
        simpa using this
      rw [hcs, hrs, hl]
      exact ⟨h1, h2⟩
    | none =>
      by_cases hfull : r.replacer_size ≤ r.curr_size
      · rw [RecordAccess_full r f hf hfull] at hcap ⊢
        simp only [after] at hcap ⊢
        exact ih hcap
      · obtain ⟨r1, nd, hRA, _, _, hkeys, hcs, hrs, _⟩ :=
          RecordAccess_untracked r f hf (by omega)
        rw [hRA] at hcap ⊢
        simp only [after] at hcap ⊢
        rw [hrs] at hcap
        obtain ⟨h1, h2⟩ := ih hcap
        have hl : r1.node_store.length = r.node_store.length + 1 := by
          have := congrArg List.length hkeys
          simpa using this
        rw [hcs, hrs, hl, size_inc_eq _ (by omega)]
        omega
  | setEvictable r f b hr ih =>
    cases hf : r.find f with
    | none =>
      have : SetEvictable r f b = .error r := by
        unfold SetEvictable
        rw [hf]
      rw [this] at hcap ⊢
      exact ih hcap
    | some n =>
      obtain ⟨r1, hSE, _, hkeys, hcs, hrs, _⟩ := SetEvictable_tracked r f b n hf
      rw [hSE] at hcap ⊢
      simp only [after] at hcap ⊢
      rw [hrs] at hcap
      obtain ⟨h1, h2⟩ := ih hcap
      have hl : r1.node_store.length = r.node_store.length := by
        have := congrArg List.length hkeys
        simpa using this
      rw [hcs, hrs, hl]
      exact ⟨h1, h2⟩
  | evict r hr _ ih =>
    rcases Evict_cases r with ⟨_, _, heq⟩ | ⟨f, _, hmem, hstore, _, hcs, hrs, _⟩
    · rw [heq] at hcap ⊢
      exact ih hcap
    · rw [hrs] at hcap
      obtain ⟨h1, h2⟩ := ih hcap
      have hlen := length_eraseKey _ f (Reachable.wf r hr).1 hmem
      rw [hcs, hrs, hstore, size_dec_eq _ (by omega) (by omega)]
      omega
  | remove r f hr ih =>
    cases hf : r.find f with
    | none =>
      have : Remove r f = .ok r := by
        unfold Remove
        rw [hf]
      rw [this] at hcap ⊢
      exact ih hcap
    | some n =>
      cases hev : n.is_evictable with
      | false =>
        have : Remove r f = .error r := by
          unfold Remove
          rw [hf]
          simp [hev]
        rw [this] at hcap ⊢
        exact ih hcap
      | true =>
        obtain ⟨r1, hR, _, hstore, hcs, hrs, _⟩ := Remove_evictable r f n hf hev
        rw [hR] at hcap ⊢
        simp only [after] at hcap ⊢
        rw [hrs] at hcap
        obtain ⟨h1, h2⟩ := ih hcap
        have hlen := length_eraseKey _ f (Reachable.wf r hr).1 (find_mem_keys r f n hf)
        rw [hcs, hrs, hstore, size_dec_eq _ (by omega) (by omega)]
        omega
  | reorder r ns hr hperm ih =>
    obtain ⟨h1, h2⟩ := ih hcap
    exact ⟨by show r.curr_size = ns.length; rw [hperm.length_eq]; exact h1, h2⟩

theorem mixedPair_reachable : Reachable mixedPair :=
  Reachable.markAll _ _ (Reachable.recordAll _ _ (Reachable.init 2 2 (by decide)) (by decide))

end LRUKReplacer

/-! ## Lemmas: the hit path of `FetchPage` -/

namespace BufferPoolManager

/-- The hit path of `FetchPage` (lines 70-77) from a state satisfying the invariant:
neither replacer call throws, the mapped frame is returned with its pin count raised by
one and its node non-evictable, and nothing else changes apart from that node's history
and the replacer's clock and size. -/
theorem FetchPage_hit_inv (s : BufferPoolManager) (h : Inv s) (p : page_id_t)
    (f : frame_id_t) (hp : s.findPage p = some f) :
    ∃ s1 n1, FetchPage s p = .ok (some f, s1) ∧ Inv s1 ∧
      s1.pool_size = s.pool_size ∧ s1.page_table = s.page_table ∧
      s1.free_list = s.free_list ∧ s1.next_page_id = s.next_page_id ∧
      s1.disk_manager = s.disk_manager ∧ s1.deallocated = s.deallocated ∧
      (∀ g, g ≠ f → s1.pages g = s.pages g) ∧
      s1.pages f = { s.pages f with pin_count := (s.pages f).pin_count + 1 } ∧
      (∀ g, g ≠ f → s1.replacer.find g = s.replacer.find g) ∧
      s1.replacer.find f = some n1 ∧ n1.is_evictable = false := by
  obtain ⟨n, hn⟩ : ∃ n, s.replacer.find f = some n := by
    cases hf : s.replacer.find f with
    | none => exact absurd hf (h.table_ok p f hp).1
    | some n => exact ⟨n, rfl⟩
  obtain ⟨r1, hRA, hfind1, hkeys1, hcs1, hrs1, _, _, _⟩ :=
    LRUKReplacer.RecordAccess_tracked s.replacer f n hn
  have hf1 : r1.find f = some (n.addHistory (size_inc s.replacer.current_timestamp)) := by
    rw [hfind1, if_pos rfl]
  obtain ⟨r2, hSE, hfind2, hkeys2, hcs2, hrs2, _, _, _, _, _⟩ :=
    LRUKReplacer.SetEvictable_tracked r1 f false _ hf1
  obtain ⟨S, hS⟩ : ∃ S : BufferPoolManager, S =
      { setPage { s with replacer := r1 } f
          { s.pages f with pin_count := (s.pages f).pin_count + 1 } with
        replacer := r2 } := ⟨_, rfl⟩
  have hF : FetchPage s p = .ok (some f, S) := by
    rw [hS]
    unfold FetchPage
    rw [hp]
    simp only
    rw [hRA]
    simp only
    have hSE2 : (setPage { s with replacer := r1 } f
        { s.pages f with pin_count := (s.pages f).pin_count + 1 }).replacer.SetEvictable f false
        = .ok r2 := hSE
    rw [hSE2]
  have hnn := h.pin_nonneg f
  have hother : ∀ g, g ≠ f → S.pages g = s.pages g := by
    intro g hg
    rw [hS]
    simp [setPage, hg]
  have hsame : S.pages f = { s.pages f with pin_count := (s.pages f).pin_count + 1 } := by
    rw [hS]
    simp [setPage]
  have hfindS : ∀ g, g ≠ f → S.replacer.find g = s.replacer.find g := by
    intro g hg
    rw [hS]
    show r2.find g = s.replacer.find g
    rw [hfind2, if_neg hg, hfind1, if_neg hg]
  have hfS : S.replacer.find f =
      some ((n.addHistory (size_inc s.replacer.current_timestamp)).setIsEvictable false) := by
    rw [hS]
    show r2.find f = _
    rw [hfind2, if_pos rfl]
  have e1 : S.pool_size = s.pool_size := by subst hS; rfl
  have e2 : S.free_list = s.free_list := by subst hS; rfl
  have e3 : S.page_table = s.page_table := by subst hS; rfl
  have e4 : S.replacer = r2 := by subst hS; rfl
  refine ⟨S, _, hF, ?_, e1, e3, e2, by subst hS; rfl, by subst hS; rfl, by subst hS; rfl,
    hother, hsame, hfindS, hfS, rfl⟩
  show InvC S.pool_size S.pages S.replacer S.free_list S.page_table
  rw [e1, e2, e3, e4]
  apply InvC_update s f _ r2 h hother
  · rw [hsame]
  · rw [hsame]
    simp only
    omega
  · rw [hkeys2, hkeys1]
  · rw [hcs2, hcs1]
  · rw [hrs2, hrs1]
  · intro g hg
    rw [hfind2, if_neg hg, hfind1, if_neg hg]
  · intro m hm
    rw [hfind2, if_pos rfl] at hm
    simp only [Option.some.injEq] at hm
    subst hm
    rw [hsame]
    simp only [LRUKNode.setIsEvictable]
    constructor
    · intro hc
      cases hc
    · intro hc
      omega
  · intro _
    rw [hfind2, if_pos rfl]
    simp
  · intro hfr
    exact absurd hfr (mapped_not_free s h p f hp)

end BufferPoolManager

/-! ## Lemmas: the frame taken by `NewPage` and `FetchPage` -/

namespace BufferPoolManager

/-- The three outcomes of the frame choice: the head of the free list; `nullptr` when the
free list and the replacer are both empty; otherwise the frame `Evict` names, whose node
leaves the replacer, whose bytes are written back if dirty, and whose page id leaves the
page table. -/
theorem acquireFrame_cases (s : BufferPoolManager) :
    (∃ f rest, s.free_list = f :: rest ∧
      acquireFrame s = (some f, { s with free_list := rest })) ∨
    (s.free_list = [] ∧ s.replacer.node_store = [] ∧
      acquireFrame s = (none, { s with replacer :=
        { s.replacer with current_timestamp := size_inc s.replacer.current_timestamp } })) ∨
    (s.free_list = [] ∧ ∃ f, (LRUKReplacer.Evict s.replacer).1 = some f ∧
      f ∈ s.replacer.node_store.map Prod.fst ∧
      (∀ g, (LRUKReplacer.Evict s.replacer).2.find g =
        if g = f then none else s.replacer.find g) ∧
      acquireFrame s = (some f,
        { s with replacer := (LRUKReplacer.Evict s.replacer).2,
                 disk_manager :=
                   if (s.pages f).is_dirty then
                     s.disk_manager.WritePage (s.pages f).page_id (s.pages f).data
                   else s.disk_manager,
                 page_table := tableErase s.page_table (s.pages f).page_id })) := by
  cases hfl : s.free_list with
  | cons f rest =>
    left
    refine ⟨f, rest, rfl, ?_⟩
    unfold acquireFrame
    simp only [hfl]
  | nil =>
    right
    rcases hE : s.replacer.Evict with ⟨o, r1⟩
    have hc := LRUKReplacer.Evict_cases s.replacer
    rw [hE] at hc
    simp only at hc
    rcases hc with ⟨ho, hempty, hr1⟩ | ⟨f, ho, hmem, _, hfind, _⟩
    · left
      subst ho
      subst hr1
      refine ⟨rfl, hempty, ?_⟩
      unfold acquireFrame
      simp only [hfl, hE]
    · right
      subst ho
      refine ⟨rfl, f, rfl, hmem, hfind, ?_⟩
      unfold acquireFrame
      simp only [hfl, hE]

/-- The frame choice in a state where tracked frames are mapped: the page id counter is
untouched, no mapping is added, tracked frames stay mapped, and every frame index other
than the one handed out is still on the free list or tracked. -/
theorem acquireFrame_tight (s : BufferPoolManager) (ht : Tight s) :
    (acquireFrame s).2.next_page_id = s.next_page_id ∧
    (∀ p g, (acquireFrame s).2.findPage p = some g → s.findPage p = some g) ∧
    (∀ g n, (acquireFrame s).2.replacer.find g = some n →
      (acquireFrame s).2.findPage (s.pages g).page_id = some g) ∧
    (∀ g : frame_id_t, 0 ≤ g → g < s.pool_size → (acquireFrame s).1 ≠ some g →
      g ∈ (acquireFrame s).2.free_list ∨ (acquireFrame s).2.replacer.find g ≠ none) := by
  rcases acquireFrame_cases s with ⟨f, rest, hfl, hA⟩ | ⟨hfl, _, hA⟩ | ⟨hfl, f, _, hmem, hfind, hA⟩
  · rw [hA]
    refine ⟨rfl, fun p g hp => hp, fun g n hg => ht.tracked_mapped g n hg, ?_⟩
    intro g hg0 hgn hgf
    rcases ht.frames_placed g hg0 hgn with hm | hm
    · rw [hfl, List.mem_cons] at hm
      rcases hm with hm | hm
      · exact absurd (by rw [hm]) hgf
      · exact Or.inl hm
    · exact Or.inr hm
  · rw [hA]
    refine ⟨rfl, fun p g hp => hp, fun g n hg => ht.tracked_mapped g n hg, ?_⟩
    intro g hg0 hgn _
    exact ht.frames_placed g hg0 hgn
  · rw [hA]
    refine ⟨rfl, ?_, ?_, ?_⟩
    · intro p g hp
      unfold findPage at hp
      simp only at hp
      rw [tableFind_erase] at hp
      split_ifs at hp
      exact hp
    · intro g n hg
      simp only at hg
      rw [hfind] at hg
      split_ifs at hg with hgf
      have hold := ht.tracked_mapped g n hg
      unfold findPage
      simp only
      rw [tableFind_erase, if_neg]
      · exact hold
      · intro hpe
        obtain ⟨nf, hnf⟩ := LRUKReplacer.find_ne_none_of_mem s.replacer f hmem
        have hf := ht.tracked_mapped f nf hnf
        rw [← hpe, hold] at hf
        simp only [Option.some.injEq] at hf
        exact hgf hf
    · intro g hg0 hgn hgf
      have hgf2 : g ≠ f := fun hc => hgf (by rw [hc])
      rcases ht.frames_placed g hg0 hgn with hm | hm
      · rw [hfl] at hm
        cases hm
      · right
        simp only
        rw [hfind, if_neg hgf2]
        exact hm

end BufferPoolManager

namespace BufferPoolManager

/-- The call `NewPage` when a frame `f` is available, field by field: the page id issued
is the old counter, the frame is relabelled with it, its pin count raised by one and its
dirty flag cleared, the mapping inserted, and the frame's node ends non-evictable. -/
theorem NewPage_frame (s : BufferPoolManager) (h : Inv s) (f : frame_id_t)
    (hf : (acquireFrame s).1 = some f) :
    ∃ s5 nd, NewPage s = .ok (some (f, s.next_page_id), s5) ∧ Inv s5 ∧
      s5.pool_size = s.pool_size ∧
      s5.free_list = (acquireFrame s).2.free_list ∧
      s5.page_table = tableInsert (acquireFrame s).2.page_table s.next_page_id f ∧
      s5.next_page_id = s.next_page_id + 1 ∧
      s5.disk_manager = (acquireFrame s).2.disk_manager ∧
      (∀ g, g ≠ f → s5.pages g = s.pages g) ∧
      s5.pages f = { s.pages f with page_id := s.next_page_id,
                                    pin_count := (s.pages f).pin_count + 1,
                                    is_dirty := false } ∧
      s5.replacer.find f = some nd ∧ nd.is_evictable = false ∧
      (∀ g, g ≠ f → s5.replacer.find g = (acquireFrame s).2.replacer.find g) := by
  have hnext : (acquireFrame s).2.next_page_id = s.next_page_id := by
    rcases acquireFrame_cases s with ⟨_, _, _, hA⟩ | ⟨_, _, hA⟩ | ⟨_, _, _, _, _, hA⟩ <;>
      rw [hA]
  rcases hA : acquireFrame s with ⟨o, s1⟩
  obtain ⟨hI, hD, hps, hpg⟩ := acquireFrame_inv s h
  rw [hA] at hI hD hf hps hpg hnext
  simp only at hI hD hf hps hpg hnext
  subst hf
  obtain ⟨S4, hS4⟩ : ∃ S4 : BufferPoolManager, S4 =
      { setPage (AllocatePage s1).2 f
          { (AllocatePage s1).2.pages f with
            page_id := (AllocatePage s1).1,
            pin_count := ((AllocatePage s1).2.pages f).pin_count + 1,
            is_dirty := false } with
        page_table := tableInsert s1.page_table (AllocatePage s1).1 f } := ⟨_, rfl⟩
  have hN : NewPage s =
      (match recordAndPin S4 f with
        | .error s5 => .error s5
        | .ok s5 => .ok (some (f, (AllocatePage s1).1), s5) :
        Except BufferPoolManager (Option (frame_id_t × page_id_t) × BufferPoolManager)) := by
    rw [hS4]
    unfold NewPage
    rw [hA]
    rfl
  obtain ⟨r1, nd, hRP, hInv, hfd, hev, hoth, _⟩ := install_inv s1 S4 f
    { (AllocatePage s1).2.pages f with
      page_id := (AllocatePage s1).1,
      pin_count := ((AllocatePage s1).2.pages f).pin_count + 1,
      is_dirty := false }
    (AllocatePage s1).1 hI (hD f rfl)
    (by rw [hS4]; rfl) (by rw [hS4]; rfl) (by rw [hS4]; rfl) (by rw [hS4])
    (by rw [hS4]; rfl) rfl rfl
  rw [hRP] at hN
  have hid : (AllocatePage s1).1 = s.next_page_id := hnext
  rw [hid] at hN
  refine ⟨_, nd, hN, hInv, ?_, ?_, ?_, ?_, ?_, ?_, ?_, hfd, hev, hoth⟩
  · subst hS4
    exact hps
  · subst hS4
    rfl
  · subst hS4
    show tableInsert s1.page_table (AllocatePage s1).1 f = _
    rw [hid]
  · subst hS4
    show s1.next_page_id + 1 = _
    rw [hnext]
  · subst hS4
    rfl
  · intro g hg
    subst hS4
    show (if g = f then _ else s1.pages g) = s.pages g
    rw [if_neg hg, hpg]
  · subst hS4
    show (if f = f then _ else s1.pages f) = _
    rw [if_pos rfl]
    simp only [AllocatePage]
    rw [hpg, hnext]

/-- The call `NewPage` when no frame is available. -/
theorem NewPage_none (s : BufferPoolManager) (hf : (acquireFrame s).1 = none) :
    NewPage s = .ok (none, (acquireFrame s).2) := by
  rcases hA : acquireFrame s with ⟨o, s1⟩
  rw [hA] at hf
  simp only at hf
  subst hf
  unfold NewPage
  rw [hA]

/-- The miss path of `FetchPage` when a frame `f` is available, field by field: the
frame receives the bytes read from the disk as left by the frame choice, the page id
asked for, a pin count raised by one and a clear dirty flag; the read is logged, the
mapping inserted, and the frame's node ends non-evictable. -/
theorem FetchPage_miss_frame (s : BufferPoolManager) (h : Inv s) (p : page_id_t)
    (hp : s.findPage p = none) (f : frame_id_t) (hf : (acquireFrame s).1 = some f) :
    ∃ s5 nd, FetchPage s p = .ok (some f, s5) ∧ Inv s5 ∧
      s5.pool_size = s.pool_size ∧
      s5.free_list = (acquireFrame s).2.free_list ∧
      s5.page_table = tableInsert (acquireFrame s).2.page_table p f ∧
      s5.next_page_id = s.next_page_id ∧
      s5.disk_manager = ((acquireFrame s).2.disk_manager.ReadPage p).2 ∧
      (∀ g, g ≠ f → s5.pages g = s.pages g) ∧
      s5.pages f = { data := (acquireFrame s).2.disk_manager.bytes p, page_id := p,
                     pin_count := (s.pages f).pin_count + 1, is_dirty := false } ∧
      s5.replacer.find f = some nd ∧ nd.is_evictable = false ∧
      (∀ g, g ≠ f → s5.replacer.find g = (acquireFrame s).2.replacer.find g) := by
  have hnext : (acquireFrame s).2.next_page_id = s.next_page_id := by
    rcases acquireFrame_cases s with ⟨_, _, _, hA⟩ | ⟨_, _, hA⟩ | ⟨_, _, _, _, _, hA⟩ <;>
      rw [hA]
  rcases hA : acquireFrame s with ⟨o, s1⟩
  obtain ⟨hI, hD, hps, hpg⟩ := acquireFrame_inv s h
  rw [hA] at hI hD hf hps hpg hnext
  simp only at hI hD hf hps hpg hnext
  subst hf
  obtain ⟨S4, hS4⟩ : ∃ S4 : BufferPoolManager, S4 =
      { setPage { s1 with disk_manager := (s1.disk_manager.ReadPage p).2 } f
          { data := (s1.disk_manager.ReadPage p).1, page_id := p,
            pin_count := (s1.pages f).pin_count + 1, is_dirty := false } with
        page_table := tableInsert s1.page_table p f } := ⟨_, rfl⟩
  have hN : FetchPage s p =
      (match recordAndPin S4 f with
        | .error s5 => .error s5
        | .ok s5 => .ok (some f, s5) :
        Except BufferPoolManager (Option frame_id_t × BufferPoolManager)) := by
    rw [hS4]
    unfold FetchPage
    rw [hp]
    simp only
    rw [hA]
    rfl
  obtain ⟨r1, nd, hRP, hInv, hfd, hev, hoth, _⟩ := install_inv s1 S4 f
    { data := (s1.disk_manager.ReadPage p).1, page_id := p,
      pin_count := (s1.pages f).pin_count + 1, is_dirty := false }
    p hI (hD f rfl)
    (by rw [hS4]; rfl) (by rw [hS4]; rfl) (by rw [hS4]; rfl) (by rw [hS4])
    (by rw [hS4]; rfl) rfl rfl
  rw [hRP] at hN
  refine ⟨_, nd, hN, hInv, ?_, ?_, ?_, ?_, ?_, ?_, ?_, hfd, hev, hoth⟩
  · subst hS4
    exact hps
  · subst hS4
    rfl
  · subst hS4
    rfl
  · subst hS4
    exact hnext
  · subst hS4
    rfl
  · intro g hg
    subst hS4
    show (if g = f then _ else s1.pages g) = s.pages g
    rw [if_neg hg, hpg]
  · subst hS4
    show (if f = f then _ else s1.pages f) = _
    rw [if_pos rfl, hpg]
    rfl

/-- The miss path of `FetchPage` when no frame is available. -/
theorem FetchPage_miss_none (s : BufferPoolManager) (p : page_id_t)
    (hp : s.findPage p = none) (hf : (acquireFrame s).1 = none) :
    FetchPage s p = .ok (none, (acquireFrame s).2) := by
  rcases hA : acquireFrame s with ⟨o, s1⟩
  rw [hA] at hf
  simp only at hf
  subst hf
  unfold FetchPage
  rw [hp]
  simp only
  rw [hA]

end BufferPoolManager

/-! ## Lemmas: runs that fetch only issued page ids -/

namespace BufferPoolManager

/-- Installing an unmapped page id `p` in the frame handed out by the frame choice, in a
state where tracked frames are mapped: the mapping `p ↦ f` is in the table, the only new
one; tracked frames are mapped and every frame index is on the free list or tracked. -/
theorem install_tight (s s5 : BufferPoolManager) (ht : Tight s)
    (f : frame_id_t) (hf : (acquireFrame s).1 = some f) (p : page_id_t)
    (hp : s.findPage p = none)
    (hpool : s5.pool_size = s.pool_size)
    (hfree : s5.free_list = (acquireFrame s).2.free_list)
    (htab : s5.page_table = tableInsert (acquireFrame s).2.page_table p f)
    (hother : ∀ g, g ≠ f → s5.pages g = s.pages g)
    (hid : (s5.pages f).page_id = p)
    (hfd : s5.replacer.find f ≠ none)
    (hfind : ∀ g, g ≠ f → s5.replacer.find g = (acquireFrame s).2.replacer.find g) :
    s5.findPage p = some f ∧
    (∀ q g, s5.findPage q = some g → q = p ∨ s.findPage q = some g) ∧
    (∀ g n, s5.replacer.find g = some n → s5.findPage (s5.pages g).page_id = some g) ∧
    (∀ g : frame_id_t, 0 ≤ g → g < s5.pool_size →
      g ∈ s5.free_list ∨ s5.replacer.find g ≠ none) := by
  obtain ⟨_, hsub, hJ1, hJ3⟩ := acquireFrame_tight s ht
  have hp1 : tableFind (acquireFrame s).2.page_table p = none := by
    cases hq : tableFind (acquireFrame s).2.page_table p with
    | none => rfl
    | some g =>
      have := hsub p g hq
      rw [hp] at this
      cases this
  have hfp : ∀ q, s5.findPage q =
      if q = p then some f else (acquireFrame s).2.findPage q := by
    intro q
    unfold findPage
    rw [htab, tableFind_insert, hp1]
    simp
  refine ⟨by rw [hfp, if_pos rfl], ?_, ?_, ?_⟩
  · intro q g hq
    rw [hfp] at hq
    split_ifs at hq with h1
    · exact Or.inl h1
    · exact Or.inr (hsub q g hq)
  · intro g n hg
    by_cases hgf : g = f
    · subst hgf
      rw [hid, hfp, if_pos rfl]
    · rw [hfind g hgf] at hg
      have hold := hJ1 g n hg
      rw [hother g hgf, hfp, if_neg]
      · exact hold
      · intro hc
        rw [hc] at hold
        unfold findPage at hold
        rw [hp1] at hold
        cases hold
  · intro g hg0 hgn
    by_cases hgf : g = f
    · subst hgf
      exact Or.inr hfd
    · rw [hpool] at hgn
      have hne : (acquireFrame s).1 ≠ some g := by
        rw [hf]
        intro hc
        simp only [Option.some.injEq] at hc
        exact hgf hc.symm
      rcases hJ3 g hg0 hgn hne with hm | hm
      · left
        rw [hfree]
        exact hm
      · right
        rw [hfind g hgf]
        exact hm

/-- When the frame choice hands out nothing, tightness is kept. -/
theorem acquireFrame_none_tight (s : BufferPoolManager) (h : Inv s) (ht : Tight s)
    (hf : (acquireFrame s).1 = none) : Tight (acquireFrame s).2 := by
  obtain ⟨hnext, hsub, hJ1, hJ3⟩ := acquireFrame_tight s ht
  obtain ⟨_, _, hps, hpg⟩ := acquireFrame_inv s h
  refine ⟨?_, ?_, ?_⟩
  · intro g n hg
    rw [hpg]
    exact hJ1 g n hg
  · intro p g hp
    rw [hnext]
    exact ht.keys_issued p g (hsub p g hp)
  · intro g hg0 hgn
    rw [hps] at hgn
    exact hJ3 g hg0 hgn (by rw [hf]; simp)

theorem NewPage_tight (s : BufferPoolManager) (h : Inv s) (ht : Tight s) :
    Tight (after (NewPage s)) := by
  cases hf : (acquireFrame s).1 with
  | none =>
    rw [NewPage_none s hf]
    exact acquireFrame_none_tight s h ht hf
  | some f =>
    obtain ⟨s5, nd, hN, _, hps, hfl, hpt, hnx, _, hoth, hpf, hfd, _, hfind⟩ :=
      NewPage_frame s h f hf
    have hp : s.findPage s.next_page_id = none := by
      cases hq : s.findPage s.next_page_id with
      | none => rfl
      | some g => exact absurd (ht.keys_issued _ g hq) (lt_irrefl _)
    obtain ⟨_, hnew, hJ1, hJ3⟩ := install_tight s s5 ht f hf s.next_page_id hp hps hfl hpt
      hoth (by rw [hpf]) (by rw [hfd]; simp) hfind
    rw [hN]
    refine ⟨hJ1, ?_, hJ3⟩
    intro q g hq
    show q < s5.next_page_id
    rw [hnx]
    rcases hnew q g hq with h1 | h1
    · have h2 : @Eq Int q s.next_page_id := h1
      show @LT.lt Int _ q (s.next_page_id + 1)
      omega
    · have h2 : @LT.lt Int _ q s.next_page_id := ht.keys_issued q g h1
      show @LT.lt Int _ q (s.next_page_id + 1)
      omega

theorem FetchPage_tight (s : BufferPoolManager) (h : Inv s) (ht : Tight s) (p : page_id_t)
    (hlt : p < s.next_page_id) : Tight (after (FetchPage s p)) := by
  cases hp : s.findPage p with
  | some f =>
    obtain ⟨s1, n1, hF, _, hps, hpt, hfl, hnx, _, _, hoth, hpf, hfind, hfd, _⟩ :=
      FetchPage_hit_inv s h p f hp
    rw [hF]
    have hfp : ∀ q, s1.findPage q = s.findPage q := by
      intro q
      unfold findPage
      rw [hpt]
    have hid : ∀ g, (s1.pages g).page_id = (s.pages g).page_id := by
      intro g
      by_cases hg : g = f
      · subst hg
        rw [hpf]
      · rw [hoth g hg]
    refine ⟨?_, ?_, ?_⟩
    · intro g n hg
      show s1.findPage (s1.pages g).page_id = some g
      rw [hfp, hid]
      by_cases hgf : g = f
      · subst hgf
        have := (h.table_ok p g hp).2
        rw [this]
        exact hp
      · have hg2 : s1.replacer.find g = some n := hg
        rw [hfind g hgf] at hg2
        exact ht.tracked_mapped g n hg2
    · intro q g hq
      show q < s1.next_page_id
      rw [hnx]
      have hq2 : s1.findPage q = some g := hq
      rw [hfp] at hq2
      exact ht.keys_issued q g hq2
    · intro g hg0 hgn
      show g ∈ s1.free_list ∨ s1.replacer.find g ≠ none
      have hgn2 : g < s.pool_size := by
        have : g < s1.pool_size := hgn
        rw [hps] at this
        exact this
      by_cases hgf : g = f
      · subst hgf
        right
        rw [hfd]
        simp
      · rw [hfl, hfind g hgf]
        exact ht.frames_placed g hg0 hgn2
  | none =>
    cases hf : (acquireFrame s).1 with
    | none =>
      rw [FetchPage_miss_none s p hp hf]
      exact acquireFrame_none_tight s h ht hf
    | some f =>
      obtain ⟨s5, nd, hN, _, hps, hfl, hpt, hnx, _, hoth, hpf, hfd, _, hfind⟩ :=
        FetchPage_miss_frame s h p hp f hf
      obtain ⟨_, hnew, hJ1, hJ3⟩ := install_tight s s5 ht f hf p hp hps hfl hpt
        hoth (by rw [hpf]) (by rw [hfd]; simp) hfind
      rw [hN]
      refine ⟨hJ1, ?_, hJ3⟩
      intro q g hq
      show q < s5.next_page_id
      rw [hnx]
      rcases hnew q g hq with h1 | h1
      · rw [h1]
        exact hlt
      · exact ht.keys_issued q g h1

end BufferPoolManager

namespace BufferPoolManager

/-- Tightness depends only on the two maps' lookups, the free list, the page id counter,
the pool size and the frames' page ids. -/
theorem Tight.transfer (s s1 : BufferPoolManager) (ht : Tight s)
    (hps : s1.pool_size = s.pool_size) (hpt : ∀ q, s1.findPage q = s.findPage q)
    (hfl : s1.free_list = s.free_list) (hnx : s1.next_page_id = s.next_page_id)
    (hid : ∀ g, (s1.pages g).page_id = (s.pages g).page_id)
    (hfind : ∀ g, s1.replacer.find g = none ↔ s.replacer.find g = none) : Tight s1 := by
  refine ⟨?_, ?_, ?_⟩
  · intro g n hg
    rw [hpt, hid]
    cases hs : s.replacer.find g with
    | none =>
      rw [(hfind g).2 hs] at hg
      cases hg
    | some m => exact ht.tracked_mapped g m hs
  · intro q g hq
    rw [hnx]
    rw [hpt] at hq
    exact ht.keys_issued q g hq
  · intro g hg0 hgn
    rw [hps] at hgn
    rw [hfl]
    rcases ht.frames_placed g hg0 hgn with hm | hm
    · exact Or.inl hm
    · exact Or.inr (fun hc => hm ((hfind g).1 hc))

theorem UnpinPage_tight (s : BufferPoolManager) (h : Inv s) (ht : Tight s) (p : page_id_t)
    (d : Bool) : Tight (after (UnpinPage s p d)) := by
  cases hp : s.findPage p with
  | none =>
    rw [UnpinPage_not_resident s p d hp]
    exact ht
  | some f =>
    by_cases hpin : (s.pages f).pin_count ≤ 0
    · rw [UnpinPage_unpinned s p d f hp hpin]
      exact ht
    · obtain ⟨s1, n, hU, _, hn, _, hps, hpt, hfl, hnx, _, _, hoth, hpf, hfind, hz, hnz⟩ :=
        UnpinPage_pinned_inv s h p d f hp (by omega)
      rw [hU]
      apply Tight.transfer s s1 ht hps (fun q => by unfold findPage; rw [hpt]) hfl hnx
      · intro g
        by_cases hg : g = f
        · subst hg
          rw [hpf]
        · rw [hoth g hg]
      · intro g
        by_cases hg : g = f
        · subst hg
          rw [hn]
          by_cases hz0 : (s.pages g).pin_count - 1 = 0
          · rw [(hz hz0).2]
            simp
          · rw [hnz hz0, hn]
        · rw [hfind g hg]

theorem FlushPage_tight (s : BufferPoolManager) (ht : Tight s) (p : page_id_t) :
    Tight (FlushPage s p).2 := by
  obtain ⟨h1, h2, h3, h4, h5, _, h7, _⟩ := FlushPage_frame s p
  exact Tight.transfer s _ ht h1 (fun q => by unfold findPage; rw [h4]) h3 h5
    (fun g => (h7 g).2.1) (fun g => by rw [h2])

theorem flushAll_tight (l : List (page_id_t × frame_id_t)) (s : BufferPoolManager)
    (ht : Tight s) : Tight (l.foldl (fun acc it => (FlushPage acc it.1).2) s) := by
  induction l generalizing s with
  | nil => exact ht
  | cons x xs ih => exact ih _ (FlushPage_tight s ht x.1)

theorem FlushAllPages_tight (s : BufferPoolManager) (ht : Tight s) :
    Tight (FlushAllPages s) :=
  flushAll_tight s.page_table s ht

theorem WriteData_tight (s : BufferPoolManager) (ht : Tight s) (f : frame_id_t)
    (b : PageData) : Tight (WriteData s f b) := by
  apply Tight.transfer s (WriteData s f b) ht rfl (fun q => rfl) rfl rfl
  · intro g
    by_cases hg : g = f
    · subst hg
      simp [WriteData, setPage]
    · simp [WriteData, setPage, hg]
  · intro g
    rfl

theorem DeletePage_tight (s : BufferPoolManager) (h : Inv s) (ht : Tight s)
    (p : page_id_t) : Tight (after (DeletePage s p)) := by
  cases hp : s.findPage p with
  | none =>
    rw [DeletePage_not_resident s p hp]
    exact ht
  | some f =>
    by_cases hpin : 0 < (s.pages f).pin_count
    · rw [DeletePage_pinned s p f hp hpin]
      exact ht
    · obtain ⟨r1, _, hD, _, hfind⟩ := DeletePage_unpinned_inv s h p f hp hpin
      rw [hD]
      refine ⟨?_, ?_, ?_⟩
      · intro g n hg
        simp only [after] at hg ⊢
        rw [hfind] at hg
        split_ifs at hg with hgf
        have hold := ht.tracked_mapped g n hg
        unfold findPage
        simp only
        rw [tableFind_erase, if_neg]
        · exact hold
        · intro hc
          rw [hc, hp] at hold
          simp only [Option.some.injEq] at hold
          exact hgf hold.symm
      · intro q g hq
        simp only [after] at hq ⊢
        unfold findPage at hq
        simp only at hq
        rw [tableFind_erase] at hq
        split_ifs at hq
        exact ht.keys_issued q g hq
      · intro g hg0 hgn
        simp only [after] at hgn ⊢
        by_cases hgf : g = f
        · left
          rw [hgf]
          simp
        · rcases ht.frames_placed g hg0 hgn with hm | hm
          · left
            exact List.mem_append_left _ hm
          · right
            rw [hfind, if_neg hgf]
            exact hm

theorem new_tight (pool_size replacer_k : Nat) (disk : DiskManager) :
    Tight (new pool_size replacer_k disk) := by
  refine ⟨?_, ?_, ?_⟩
  · intro f n hf
    simp [new, LRUKReplacer.new, LRUKReplacer.find] at hf
  · intro p f hp
    simp [new, findPage, tableFind] at hp
  · intro f hf0 hfn
    left
    simp only [new, List.mem_map, List.mem_range]
    refine ⟨f.toNat, ?_, ?_⟩
    · have hfn2 : @LT.lt Int _ f (pool_size : Int) := hfn
      have hf02 : @LE.le Int _ 0 f := hf0
      omega
    · show (f.toNat : Int) = f
      have hf02 : @LE.le Int _ 0 f := hf0
      omega

theorem reorder_tight (s : BufferPoolManager) (h : Inv s) (ht : Tight s)
    (ns : List (frame_id_t × LRUKNode)) (pt : List (page_id_t × frame_id_t))
    (hns : ns.Perm s.replacer.node_store) (hpt : pt.Perm s.page_table) :
    Tight { s with replacer := { s.replacer with node_store := ns }, page_table := pt } := by
  have hfind : ∀ g, LRUKReplacer.find { s.replacer with node_store := ns } g =
      s.replacer.find g := by
    intro g
    unfold LRUKReplacer.find
    simp only
    rw [find_perm_key _ _ g h.keys_nodup hns]
  have htab : ∀ q, tableFind pt q = tableFind s.page_table q := by
    intro q
    unfold tableFind
    rw [find_perm_key _ _ q h.table_nodup hpt]
  exact Tight.transfer s
    { s with replacer := { s.replacer with node_store := ns }, page_table := pt } ht rfl
    (fun q => htab q) rfl rfl (fun g => rfl) (fun g => by
      show LRUKReplacer.find { s.replacer with node_store := ns } g = none ↔ _
      rw [hfind])

/-- A run that fetches only issued page ids is a run. -/
theorem ReachableIssued.reachable (s : BufferPoolManager) (h : ReachableIssued s) :
    Reachable s := by
  induction h with
  | init n k disk hn => exact Reachable.init n k disk hn
  | step s op _ _ ih => exact Reachable.step s op ih
  | reorder s ns pt _ hns hpt ih => exact Reachable.reorder s ns pt ih hns hpt

/-- Every state of a run that fetches only issued page ids is tight. -/
theorem ReachableIssued.tight (s : BufferPoolManager) (h : ReachableIssued s) :
    Tight s := by
  induction h with
  | init n k disk hn => exact new_tight n k disk
  | step s op hs hop ih =>
    have hI := Reachable.bpm_inv s (ReachableIssued.reachable s hs)
    cases op with
    | NewPage => exact NewPage_tight s hI ih
    | FetchPage p => exact FetchPage_tight s hI ih p hop
    | UnpinPage p d => exact UnpinPage_tight s hI ih p d
    | FlushPage p => exact FlushPage_tight s ih p
    | FlushAllPages => exact FlushAllPages_tight s ih
    | DeletePage p => exact DeletePage_tight s hI ih p
    | WriteData f b => exact WriteData_tight s ih f b
  | reorder s ns pt hs hns hpt ih =>
    exact reorder_tight s (Reachable.bpm_inv s (ReachableIssued.reachable s hs)) ih ns pt
      hns hpt

end BufferPoolManager

namespace BufferPoolManager

/-- The entries of the page table and its lookups agree. -/
theorem mem_table_iff (s : BufferPoolManager) (h : Inv s) (p : page_id_t) (f : frame_id_t) :
    (p, f) ∈ s.page_table ↔ s.findPage p = some f := by
  constructor
  · intro he
    unfold findPage tableFind
    rw [find_key_of_mem s.page_table (p, f) h.table_nodup he]
    rfl
  · intro hp
    unfold findPage tableFind at hp
    cases hq : s.page_table.find? (fun e => e.1 == p) with
    | none =>
      rw [hq] at hp
      cases hp
    | some e =>
      rw [hq] at hp
      simp only [Option.map_some', Option.some.injEq] at hp
      obtain ⟨hm, hk⟩ := find_key_mem s.page_table p e hq
      have : e = (p, f) := Prod.ext hk hp
      rw [← this]
      exact hm

/-- The frames in the image of the page table are those some page id is mapped to. -/
theorem mem_image_iff (s : BufferPoolManager) (h : Inv s) (f : frame_id_t) :
    f ∈ s.page_table.map Prod.snd ↔ ∃ p, s.findPage p = some f := by
  rw [List.mem_map]
  constructor
  · rintro ⟨e, he, hf⟩
    refine ⟨e.1, (mem_table_iff s h e.1 f).1 ?_⟩
    rw [← hf]
    exact he
  · rintro ⟨p, hp⟩
    exact ⟨(p, f), (mem_table_iff s h p f).2 hp, rfl⟩

/-- No frame is the image of two entries of the page table. -/
theorem image_nodup (s : BufferPoolManager) (h : Inv s) :
    (s.page_table.map Prod.snd).Nodup := by
  apply List.Nodup.map_on
  · intro e1 he1 e2 he2 h12
    have h1 := (h.table_ok e1.1 e1.2 ((mem_table_iff s h e1.1 e1.2).1 he1)).2
    have h2 := (h.table_ok e2.1 e2.2 ((mem_table_iff s h e2.1 e2.2).1 he2)).2
    rw [h12] at h1
    exact Prod.ext (by rw [← h1, ← h2]) h12
  · exact List.Nodup.of_map _ h.table_nodup

theorem strayPool_reachable : Reachable strayPool :=
  Reachable.step _ _ (Reachable.init 2 2 {} (by decide))

theorem clashPool_reachable : Reachable clashPool :=
  Reachable.step _ _ strayPool_reachable

theorem busyPool_issued : ReachableIssued busyPool := by
  unfold busyPool execAll
  simp only [List.foldl_cons, List.foldl_nil]
  exact ReachableIssued.step _ (.UnpinPage 0 true)
    (ReachableIssued.step _ .NewPage
      (ReachableIssued.step _ (.WriteData 0 [65])
        (ReachableIssued.step _ .NewPage (ReachableIssued.init 2 2 {} (by decide)) trivial)
        trivial)
      trivial)
    trivial

end BufferPoolManager

/-! ## Lemmas: the disk bytes of a page that is not resident -/

namespace BufferPoolManager

theorem bytes_WritePage (d : DiskManager) (q p : page_id_t) (data : PageData) :
    (d.WritePage q data).bytes p = if q = p then data else d.bytes p := by
  unfold DiskManager.WritePage DiskManager.bytes
  simp only [List.find?_cons]
  by_cases hqp : q = p
  · subst hqp
    simp
  · have : (q == p) = false := by simpa using hqp
    rw [this, if_neg hqp]

/-- The frame choice when the free list is empty and `Evict` names a frame. -/
theorem acquireFrame_evict (s : BufferPoolManager) (f : frame_id_t)
    (hfl : s.free_list = []) (hE : (LRUKReplacer.Evict s.replacer).1 = some f) :
    acquireFrame s = (some f,
      { s with replacer := (LRUKReplacer.Evict s.replacer).2,
               disk_manager :=
                 if (s.pages f).is_dirty then
                   s.disk_manager.WritePage (s.pages f).page_id (s.pages f).data
                 else s.disk_manager,
               page_table := tableErase s.page_table (s.pages f).page_id }) := by
  rcases hE2 : s.replacer.Evict with ⟨o, r1⟩
  rw [hE2] at hE
  simp only at hE
  subst hE
  unfold acquireFrame
  simp only [hfl, hE2]

/-- The frame choice neither maps a page that is not resident nor, when tracked frames
are mapped, writes to its bytes on disk. -/
theorem acquireFrame_away (s : BufferPoolManager) (ht : Tight s) (p : page_id_t)
    (hp : s.findPage p = none) :
    (acquireFrame s).2.disk_manager.bytes p = s.disk_manager.bytes p ∧
    (acquireFrame s).2.findPage p = none := by
  have hnone : (acquireFrame s).2.findPage p = none := by
    cases hq : (acquireFrame s).2.findPage p with
    | none => rfl
    | some g =>
      have := (acquireFrame_tight s ht).2.1 p g hq
      rw [hp] at this
      cases this
  refine ⟨?_, hnone⟩
  rcases acquireFrame_cases s with ⟨_, _, _, hA⟩ | ⟨_, _, hA⟩ | ⟨_, f, _, hmem, _, hA⟩
  · rw [hA]
  · rw [hA]
  · rw [hA]
    simp only
    obtain ⟨nf, hnf⟩ := LRUKReplacer.find_ne_none_of_mem s.replacer f hmem
    have hf := ht.tracked_mapped f nf hnf
    have hne : (s.pages f).page_id ≠ p := by
      intro hc
      rw [hc, hp] at hf
      cases hf
    split_ifs
    · rw [bytes_WritePage, if_neg hne]
    · rfl

/-- One operation that does not bring page `p` in leaves it non-resident, its bytes on
disk untouched, and its id below the page id counter. -/
theorem exec_away (t : BufferPoolManager) (hI : Inv t) (ht : Tight t) (p : page_id_t)
    (op : Op) (hq : op = .FetchPage p → returned (FetchPage t p) = some none)
    (h1 : t.findPage p = none) (h3 : p < t.next_page_id) :
    (exec t op).findPage p = none ∧
    (exec t op).disk_manager.bytes p = t.disk_manager.bytes p ∧
    p < (exec t op).next_page_id := by
  obtain ⟨hab, han⟩ := acquireFrame_away t ht p h1
  have hnext := (acquireFrame_tight t ht).1
  have h3i : @LT.lt Int _ p t.next_page_id := h3
  cases op with
  | NewPage =>
    have hex : exec t .NewPage = after (NewPage t) := rfl
    rw [hex]
    cases hf : (acquireFrame t).1 with
    | none =>
      rw [NewPage_none t hf]
      exact ⟨han, hab, by simp only [after]; rw [hnext]; exact h3⟩
    | some f =>
      obtain ⟨s5, nd, hN, _, _, _, hpt, hnx, hdm, _⟩ := NewPage_frame t hI f hf
      rw [hN]
      refine ⟨?_, ?_, ?_⟩
      · show s5.findPage p = none
        unfold findPage
        rw [hpt, tableFind_insert, if_neg]
        · exact han
        · intro hc
          have hc2 : @Eq Int p t.next_page_id := hc
          omega
      · show s5.disk_manager.bytes p = t.disk_manager.bytes p
        rw [hdm, hab]
      · show @LT.lt Int _ p s5.next_page_id
        rw [hnx]
        omega
  | FetchPage q =>
    have hex : exec t (.FetchPage q) = after (FetchPage t q) := rfl
    rw [hex]
    cases hpq : t.findPage q with
    | some f =>
      obtain ⟨s1, _, hF, _, _, hpt, _, hnx, hdm, _⟩ := FetchPage_hit_inv t hI q f hpq
      rw [hF]
      refine ⟨?_, ?_, ?_⟩
      · show s1.findPage p = none
        unfold findPage
        rw [hpt]
        exact h1
      · show s1.disk_manager.bytes p = t.disk_manager.bytes p
        rw [hdm]
      · show p < s1.next_page_id
        rw [hnx]
        exact h3
    | none =>
      cases hf : (acquireFrame t).1 with
      | none =>
        rw [FetchPage_miss_none t q hpq hf]
        exact ⟨han, hab, by simp only [after]; rw [hnext]; exact h3⟩
      | some f =>
        obtain ⟨s5, nd, hN, _, _, _, hpt, hnx, hdm, _⟩ := FetchPage_miss_frame t hI q hpq f hf
        have hne : p ≠ q := by
          intro hc
          subst hc
          have := hq rfl
          rw [hN] at this
          simp [returned] at this
        rw [hN]
        refine ⟨?_, ?_, ?_⟩
        · show s5.findPage p = none
          unfold findPage
          rw [hpt, tableFind_insert, if_neg hne]
          exact han
        · show s5.disk_manager.bytes p = t.disk_manager.bytes p
          rw [hdm, ← hab]
          rfl
        · show p < s5.next_page_id
          rw [hnx]
          exact h3
  | UnpinPage q d =>
    have hex : exec t (.UnpinPage q d) = after (UnpinPage t q d) := rfl
    rw [hex]
    cases hpq : t.findPage q with
    | none =>
      rw [UnpinPage_not_resident t q d hpq]
      exact ⟨h1, rfl, h3⟩
    | some f =>
      by_cases hpin : (t.pages f).pin_count ≤ 0
      · rw [UnpinPage_unpinned t q d f hpq hpin]
        exact ⟨h1, rfl, h3⟩
      · obtain ⟨s1, _, hU, _, _, _, _, hpt, _, hnx, hdm, _⟩ :=
          UnpinPage_pinned_inv t hI q d f hpq (by omega)
        rw [hU]
        refine ⟨?_, ?_, ?_⟩
        · show s1.findPage p = none
          unfold findPage
          rw [hpt]
          exact h1
        · show s1.disk_manager.bytes p = t.disk_manager.bytes p
          rw [hdm]
        · show p < s1.next_page_id
          rw [hnx]
          exact h3
  | FlushPage q =>
    have hex : exec t (.FlushPage q) = (FlushPage t q).2 := rfl
    rw [hex]
    cases hpq : t.findPage q with
    | none =>
      rw [FlushPage_not_resident t q hpq]
      exact ⟨h1, rfl, h3⟩
    | some f =>
      rw [FlushPage_resident t q f hpq]
      have hne : q ≠ p := by
        intro hc
        rw [hc, h1] at hpq
        cases hpq
      refine ⟨h1, ?_, h3⟩
      show (t.disk_manager.WritePage q (t.pages f).data).bytes p = t.disk_manager.bytes p
      rw [bytes_WritePage, if_neg hne]
  | FlushAllPages =>
    have hex : exec t .FlushAllPages =
        t.page_table.foldl (fun acc it => (FlushPage acc it.1).2) t := rfl
    rw [hex]
    have key : ∀ (l : List (page_id_t × frame_id_t)) (u : BufferPoolManager),
        u.findPage p = none →
        (l.foldl (fun acc it => (FlushPage acc it.1).2) u).findPage p = none ∧
        (l.foldl (fun acc it => (FlushPage acc it.1).2) u).disk_manager.bytes p =
          u.disk_manager.bytes p ∧
        (l.foldl (fun acc it => (FlushPage acc it.1).2) u).next_page_id =
          u.next_page_id := by
      intro l
      induction l with
      | nil =>
        intro u hu
        exact ⟨hu, rfl, rfl⟩
      | cons x xs ih =>
        intro u hu
        have hstep : (FlushPage u x.1).2.findPage p = none ∧
            (FlushPage u x.1).2.disk_manager.bytes p = u.disk_manager.bytes p ∧
            (FlushPage u x.1).2.next_page_id = u.next_page_id := by
          cases hpq : u.findPage x.1 with
          | none =>
            rw [FlushPage_not_resident u x.1 hpq]
            exact ⟨hu, rfl, rfl⟩
          | some f =>
            rw [FlushPage_resident u x.1 f hpq]
            have hne : x.1 ≠ p := by
              intro hc
              rw [hc, hu] at hpq
              cases hpq
            refine ⟨hu, ?_, rfl⟩
            show (u.disk_manager.WritePage x.1 (u.pages f).data).bytes p = _
            rw [bytes_WritePage, if_neg hne]
        obtain ⟨a, b, c⟩ := ih _ hstep.1
        simp only [List.foldl_cons]
        exact ⟨a, by rw [b, hstep.2.1], by rw [c, hstep.2.2]⟩
    obtain ⟨a, b, c⟩ := key t.page_table t h1
    exact ⟨a, b, by rw [c]; exact h3⟩
  | DeletePage q =>
    have hex : exec t (.DeletePage q) = after (DeletePage t q) := rfl
    rw [hex]
    cases hpq : t.findPage q with
    | none =>
      rw [DeletePage_not_resident t q hpq]
      exact ⟨h1, rfl, h3⟩
    | some f =>
      by_cases hpin : 0 < (t.pages f).pin_count
      · rw [DeletePage_pinned t q f hpq hpin]
        exact ⟨h1, rfl, h3⟩
      · obtain ⟨r1, _, hD, _⟩ := DeletePage_unpinned_inv t hI q f hpq hpin
        rw [hD]
        refine ⟨?_, rfl, h3⟩
        simp only [after]
        unfold findPage
        simp only
        rw [tableFind_erase]
        split_ifs
        · rfl
        · exact h1
  | WriteData f b => exact ⟨h1, rfl, h3⟩

end BufferPoolManager

namespace BufferPoolManager

/-- Along a stretch in which page `p` is not brought in, it stays non-resident with its
bytes on disk untouched. -/
theorem Away.keeps (p : page_id_t) (s t : BufferPoolManager) (ha : Away p s t)
    (hs : ReachableIssued s) (h1 : s.findPage p = none) (h3 : p < s.next_page_id) :
    ReachableIssued t ∧ t.findPage p = none ∧
    t.disk_manager.bytes p = s.disk_manager.bytes p ∧ p < t.next_page_id := by
  induction ha with
  | refl => exact ⟨hs, h1, rfl, h3⟩
  | step t op _ hop hq ih =>
    obtain ⟨hr, a, b, c⟩ := ih
    have hI := Reachable.bpm_inv t (ReachableIssued.reachable t hr)
    obtain ⟨a1, b1, c1⟩ := exec_away t hI (ReachableIssued.tight t hr) p op hq a c
    exact ⟨ReachableIssued.step t op hr hop, a1, by rw [b1, b], c1⟩
  | reorder t ns pt _ hns hpt ih =>
    obtain ⟨hr, a, b, c⟩ := ih
    have hI := Reachable.bpm_inv t (ReachableIssued.reachable t hr)
    refine ⟨ReachableIssued.reorder t ns pt hr hns hpt, ?_, b, c⟩
    unfold findPage tableFind
    simp only
    rw [find_perm_key _ _ p hI.table_nodup hpt]
    exact a

/-- The call that evicts a dirty page `p` leaves it non-resident with the evicted bytes
on disk. -/
theorem evict_dirty_away (s : BufferPoolManager) (hI : Inv s) (ht : Tight s)
    (f : frame_id_t) (hfl : s.free_list = [])
    (hE : (LRUKReplacer.Evict s.replacer).1 = some f)
    (hd : (s.pages f).is_dirty = true) (op : Op)
    (hop : op = .NewPage ∨ ∃ q, op = .FetchPage q ∧ s.findPage q = none) :
    (exec s op).findPage (s.pages f).page_id = none ∧
    (exec s op).disk_manager.bytes (s.pages f).page_id = (s.pages f).data ∧
    (s.pages f).page_id < (exec s op).next_page_id := by
  have hA := acquireFrame_evict s f hfl hE
  rw [if_pos hd] at hA
  have hf : (acquireFrame s).1 = some f := by rw [hA]
  have hmem : s.findPage (s.pages f).page_id = some f := by
    rcases acquireFrame_cases s with ⟨_, _, h0, _⟩ | ⟨_, _, hA2⟩ | ⟨_, f1, _, hm, _, hA2⟩
    · rw [hfl] at h0
      cases h0
    · rw [hA2] at hf
      cases hf
    · rw [hA2] at hf
      simp only [Option.some.injEq] at hf
      subst hf
      obtain ⟨nf, hnf⟩ := LRUKReplacer.find_ne_none_of_mem s.replacer f1 hm
      exact ht.tracked_mapped f1 nf hnf
  have hlt : @LT.lt Int _ (s.pages f).page_id s.next_page_id := ht.keys_issued _ f hmem
  have hpt : (acquireFrame s).2.page_table = tableErase s.page_table (s.pages f).page_id := by
    rw [hA]
  have hdm : (acquireFrame s).2.disk_manager =
      s.disk_manager.WritePage (s.pages f).page_id (s.pages f).data := by
    rw [hA]
  rcases hop with rfl | ⟨q, rfl, hq⟩
  · have hex : exec s .NewPage = after (NewPage s) := rfl
    obtain ⟨s5, nd, hN, _, _, _, hpt5, hnx, hdm5, _⟩ := NewPage_frame s hI f hf
    rw [hex, hN]
    refine ⟨?_, ?_, ?_⟩
    · show s5.findPage (s.pages f).page_id = none
      unfold findPage
      rw [hpt5, tableFind_insert, if_neg, hpt, tableFind_erase, if_pos rfl]
      intro hc
      have hc2 : @Eq Int (s.pages f).page_id s.next_page_id := hc
      omega
    · show s5.disk_manager.bytes (s.pages f).page_id = (s.pages f).data
      rw [hdm5, hdm, bytes_WritePage, if_pos rfl]
    · show @LT.lt Int _ (s.pages f).page_id s5.next_page_id
      rw [hnx]
      omega
  · have hex : exec s (.FetchPage q) = after (FetchPage s q) := rfl
    obtain ⟨s5, nd, hN, _, _, _, hpt5, hnx, hdm5, _⟩ := FetchPage_miss_frame s hI q hq f hf
    have hne : (s.pages f).page_id ≠ q := by
      intro hc
      rw [hc, hq] at hmem
      cases hmem
    rw [hex, hN]
    refine ⟨?_, ?_, ?_⟩
    · show s5.findPage (s.pages f).page_id = none
      unfold findPage
      rw [hpt5, tableFind_insert, if_neg hne, hpt, tableFind_erase, if_pos rfl]
    · show s5.disk_manager.bytes (s.pages f).page_id = (s.pages f).data
      rw [hdm5, hdm]
      show (s.disk_manager.WritePage (s.pages f).page_id (s.pages f).data).bytes
        (s.pages f).page_id = (s.pages f).data
      rw [bytes_WritePage, if_pos rfl]
    · show (s.pages f).page_id < s5.next_page_id
      rw [hnx]
      exact hlt

/-- Fetching a page that is not resident returns; a frame it returns holds the page's
bytes on disk. -/
theorem FetchPage_miss_data (t : BufferPoolManager) (hI : Inv t) (ht : Tight t)
    (p : page_id_t) (h1 : t.findPage p = none) :
    ∃ res t1, FetchPage t p = .ok (res, t1) ∧
      ∀ g, res = some g → (t1.pages g).data = t.disk_manager.bytes p := by
  cases hf : (acquireFrame t).1 with
  | none =>
    refine ⟨none, _, FetchPage_miss_none t p h1 hf, ?_⟩
    intro g hg
    cases hg
  | some f =>
    obtain ⟨s5, nd, hN, _, _, _, _, _, _, _, hpf, _⟩ := FetchPage_miss_frame t hI p h1 f hf
    refine ⟨some f, s5, hN, ?_⟩
    intro g hg
    simp only [Option.some.injEq] at hg
    subst hg
    rw [hpf]
    exact (acquireFrame_away t ht p h1).1

theorem stalePool_reachable : Reachable stalePool := by
  unfold stalePool execAll
  simp only [List.foldl_cons, List.foldl_nil]
  exact Reachable.step _ (.UnpinPage 0 false)
    (Reachable.step _ (.WriteData 0 [67])
      (Reachable.step _ .NewPage
        (Reachable.step _ (.UnpinPage 1 true)
          (Reachable.step _ (.WriteData 0 [66])
            (Reachable.step _ (.FetchPage 1) (Reachable.init 1 2 {} (by decide)))))))

end BufferPoolManager

namespace BufferPoolManager

/-- A call that returned a value did not throw, and left the state `after` names. -/
theorem ok_of_returned {α : Type} (x : Except BufferPoolManager (α × BufferPoolManager))
    (a : α) (h : returned x = some a) : x = .ok (a, after x) := by
  cases x with
  | error e => simp [returned] at h
  | ok v =>
    obtain ⟨b, t⟩ := v
    simp only [returned, Option.some.injEq] at h
    subst h
    rfl

end BufferPoolManager

/-! ## The replacer: victim selection and size -/

namespace LRUKReplacer

/-- C1 (fails on the code).  The claim: when no tracked node is evictable, `Evict` returns
false and removes no node.  The code: after `RecordAccess(0)` on a fresh replacer the store
holds one node, not evictable, and `Evict` returns frame 0 and erases its node, because
`target_it` starts at `node_store_.begin()` and only an empty store makes it `end()`. -/
theorem Evict_returns_frame_without_evictable_node :
    onePinned.node_store ≠ [] ∧
    (∀ e ∈ onePinned.node_store, e.2.is_evictable = false) ∧
    (Evict onePinned).1 = some 0 ∧
    onePinned.find 0 ≠ none ∧
    (Evict onePinned).2.find 0 = none := by
  decide

/-- C3.  In every well-formed replacer state with the clock below `INT_MAX` in which some
evictable frame has fewer than `k` recorded timestamps, `Evict` returns an evictable frame
that has fewer than `k` recorded timestamps; and in scenario 3 of the spec (`k = 2`,
accesses f0, f1, f2, f0, f1, all evictable) `Evict` returns f2. -/
theorem Evict_prefers_fewer_than_k_accesses :
    (∀ r : LRUKReplacer, WF r → r.current_timestamp < INT_MAX →
      (∃ f n, r.find f = some n ∧ n.is_evictable = true ∧ n.history.length < r.k) →
      ∃ f n, (Evict r).1 = some f ∧ r.find f = some n ∧ n.is_evictable = true ∧
        n.history.length < r.k) ∧
    (Evict scenario3).1 = some 2 := by
  refine ⟨?_, by decide⟩
  intro r hwf hclock ⟨f, n, hf, hev, hlen⟩
  obtain ⟨e, he, hres, hev1, hlen1, _⟩ :=
    Evict_under_k r hwf hclock ⟨(f, n), find_some_mem r f n hf, hev, hlen⟩
  exact ⟨e.1, e.2, hres, find_of_mem r e hwf.1 he, hev1, hlen1⟩

/-- C3, at scenario 3 of the spec: the state is reachable and well formed, its clock is 5,
f2 is evictable with one timestamp, and the frame `Evict` returns is f2. -/
theorem Evict_prefers_fewer_than_k_accesses_scenario3 :
    Reachable scenario3 ∧ WF scenario3 ∧ scenario3.current_timestamp = 5 ∧
    (Evict scenario3).1 = some 2 ∧
    ∃ f n, (Evict scenario3).1 = some f ∧ scenario3.find f = some n ∧
      n.is_evictable = true ∧ n.history.length < scenario3.k :=
  ⟨scenario3_reachable, by decide, by decide, by decide,
    Evict_prefers_fewer_than_k_accesses.1 scenario3 (by decide) (by decide)
      ⟨2, { history := [3], k := 2, fid := 2, is_evictable := true },
        by decide, by decide, by decide⟩⟩

/-- Past `INT_MAX` the stand-in for the infinite distance (line 34) no longer dominates:
in the reachable state `lateState` (`k = 2`) frames f1 and f2 are evictable with one
timestamp each, and `Evict` returns f0, which has two. -/
theorem Evict_under_k_fails_past_INT_MAX :
    Reachable lateState ∧ WF lateState ∧ lateState.k = 2 ∧
    lateState.find 1 =
      some { history := [2147483651], k := 2, fid := 1, is_evictable := true } ∧
    lateState.find 2 =
      some { history := [2147483652], k := 2, fid := 2, is_evictable := true } ∧
    lateState.find 0 = some { history := [2, 1], k := 2, fid := 0, is_evictable := true } ∧
    (Evict lateState).1 = some 0 :=
  ⟨lateState_reachable, by decide, by decide, by decide, by decide, by decide, by decide⟩

/-- C6 (fails on the code).  The claim: in every reachable state `Size()` is the number of
tracked evictable nodes.  The code: `RecordAccess(0)` then `Evict()` on a fresh replacer
leaves no node at all, yet `Size()` is `2 ^ 64 - 1`, because `Evict` took the
non-evictable node at `begin()` and ran `evictable_size_--` on zero. -/
theorem Size_wraps_after_Evict_of_pinned_node :
    Reachable (Evict onePinned).2 ∧
    Size onePinned = 0 ∧ evictableCount onePinned = 0 ∧
    (Evict onePinned).2.node_store = [] ∧
    evictableCount (Evict onePinned).2 = 0 ∧
    Size (Evict onePinned).2 = 18446744073709551615 :=
  ⟨Reachable.evict _ onePinned_reachable (by decide), by decide, by decide, by decide,
    by decide, by decide⟩

end LRUKReplacer

/-! ## The buffer pool manager: pinning, unpinning, deleting, flushing -/

namespace BufferPoolManager

theorem fullPool_reachable : Reachable fullPool :=
  Reachable.step _ _ (Reachable.init 1 2 {} (by decide))

theorem dirtyPool_reachable : Reachable dirtyPool :=
  Reachable.step _ _ fullPool_reachable

/-- C2 (fails on the code).  The claim: with the free list empty and every frame pinned,
`NewPage` and `FetchPage` of a non-resident page return null and change no page id, pin
count or page-table entry.  The code, in a pool of one frame holding page 0 with pin
count 1: `NewPage` returns frame 0 relabelled as page 1 with pin count 2, and
`FetchPage(7)` returns frame 0 relabelled as page 7; page 0 leaves the page table.
`Evict` handed out the pinned frame (the defect of C1). -/
theorem NewPage_FetchPage_reuse_pinned_frame :
    Reachable fullPool ∧ fullPool.pool_size = 1 ∧ fullPool.free_list = [] ∧
    (∀ f : frame_id_t, 0 ≤ f → f < fullPool.pool_size → 0 < (fullPool.pages f).pin_count) ∧
    (fullPool.pages 0).page_id = 0 ∧ (fullPool.pages 0).pin_count = 1 ∧
    fullPool.findPage 0 = some 0 ∧
    returned (NewPage fullPool) = some (some (0, 1)) ∧
    ((after (NewPage fullPool)).pages 0).page_id = 1 ∧
    ((after (NewPage fullPool)).pages 0).pin_count = 2 ∧
    (after (NewPage fullPool)).findPage 0 = none ∧
    fullPool.findPage 7 = none ∧
    returned (FetchPage fullPool 7) = some (some 0) ∧
    ((after (FetchPage fullPool 7)).pages 0).page_id = 7 ∧
    ((after (FetchPage fullPool 7)).pages 0).pin_count = 2 ∧
    (after (FetchPage fullPool 7)).findPage 0 = none := by
  refine ⟨fullPool_reachable, by decide, by decide, ?_, by decide, by decide, by decide,
    by decide, by decide, by decide, by decide, by decide, by decide, by decide, by decide,
    by decide⟩
  intro f h0 h1
  have hf : f = 0 := by
    have hp : fullPool.pool_size = 1 := by decide
    rw [hp] at h1
    have a : @LE.le Int _ 0 f := h0
    have b : @LT.lt Int _ f 1 := by simpa using h1
    show @Eq Int f 0
    omega
  subst hf
  decide

/-- C7.  In every reachable state: `UnpinPage(p, d)` returns `false` exactly when `p` is
not resident or its frame's pin count is 0, and then the state is unchanged; otherwise it
returns `true`, lowers that frame's pin count by one and leaves every other pin count,
and the frame's replacer node is evictable afterwards exactly when the count reached 0
(the replacer is untouched when it did not, and is the result of
`SetEvictable(f, true)` when it did).  Pin counts are non-negative before and after. -/
theorem UnpinPage_contract (s : BufferPoolManager) (hs : Reachable s) (p : page_id_t)
    (d : Bool) :
    (∀ f, 0 ≤ (s.pages f).pin_count) ∧
    (returned (UnpinPage s p d) = some false ↔
      (s.findPage p = none ∨ ∃ f, s.findPage p = some f ∧ (s.pages f).pin_count = 0)) ∧
    ((s.findPage p = none ∨ ∃ f, s.findPage p = some f ∧ (s.pages f).pin_count = 0) →
      UnpinPage s p d = .ok (false, s)) ∧
    (∀ f, s.findPage p = some f → (s.pages f).pin_count ≠ 0 →
      ∃ s1, UnpinPage s p d = .ok (true, s1) ∧
        (s1.pages f).pin_count = (s.pages f).pin_count - 1 ∧
        (∀ g, g ≠ f → (s1.pages g).pin_count = (s.pages g).pin_count) ∧
        (∃ n, s1.replacer.find f = some n ∧
          (n.is_evictable = true ↔ (s1.pages f).pin_count = 0)) ∧
        ((s1.pages f).pin_count = 0 → s.replacer.SetEvictable f true = .ok s1.replacer) ∧
        ((s1.pages f).pin_count ≠ 0 → s1.replacer = s.replacer) ∧
        (∀ g, 0 ≤ (s1.pages g).pin_count)) := by
  have h := Reachable.bpm_inv s hs
  have hfalse : (s.findPage p = none ∨ ∃ f, s.findPage p = some f ∧ (s.pages f).pin_count = 0) →
      UnpinPage s p d = .ok (false, s) := by
    rintro (hp | ⟨f, hp, h0⟩)
    · exact UnpinPage_not_resident s p d hp
    · exact UnpinPage_unpinned s p d f hp (by omega)
  have htrue : ∀ f, s.findPage p = some f → (s.pages f).pin_count ≠ 0 →
      ∃ s1, UnpinPage s p d = .ok (true, s1) ∧
        (s1.pages f).pin_count = (s.pages f).pin_count - 1 ∧
        (∀ g, g ≠ f → (s1.pages g).pin_count = (s.pages g).pin_count) ∧
        (∃ n, s1.replacer.find f = some n ∧
          (n.is_evictable = true ↔ (s1.pages f).pin_count = 0)) ∧
        ((s1.pages f).pin_count = 0 → s.replacer.SetEvictable f true = .ok s1.replacer) ∧
        ((s1.pages f).pin_count ≠ 0 → s1.replacer = s.replacer) ∧
        (∀ g, 0 ≤ (s1.pages g).pin_count) := by
    intro f hp hne
    have hpos : 0 < (s.pages f).pin_count := by
      have := h.pin_nonneg f
      omega
    obtain ⟨s1, n, hU, hI, hn, hnev, _, hpt, _, _, _, _, hoth, hpf, _, hzero, hnz⟩ :=
      UnpinPage_pinned_inv s h p d f hp hpos
    have hpin1 : (s1.pages f).pin_count = (s.pages f).pin_count - 1 := by rw [hpf]
    have hp1 : tableFind s1.page_table p = some f := by
      rw [hpt]
      exact hp
    obtain ⟨m, hm⟩ : ∃ m, s1.replacer.find f = some m := by
      cases hf : s1.replacer.find f with
      | none => exact absurd hf (hI.table_ok p f hp1).1
      | some m => exact ⟨m, rfl⟩
    refine ⟨s1, hU, hpin1, fun g hg => by rw [hoth g hg], ⟨m, hm, hI.evictable_iff f m hm⟩,
      ?_, ?_, hI.pin_nonneg⟩
    · intro h0
      rw [hpin1] at h0
      exact (hzero h0).1
    · intro h0
      rw [hpin1] at h0
      exact hnz h0
  refine ⟨h.pin_nonneg, ⟨?_, fun hc => by rw [hfalse hc]; rfl⟩, hfalse, htrue⟩
  intro hret
  cases hp : s.findPage p with
  | none => exact Or.inl rfl
  | some f =>
    right
    refine ⟨f, rfl, ?_⟩
    by_contra hne
    obtain ⟨s1, hU, _⟩ := htrue f hp hne
    rw [hU] at hret
    simp [returned] at hret

/-- C7 at a concrete reachable state: in a pool of one frame holding page 0 with pin
count 1, `UnpinPage(0, true)` returns `true`, the count becomes 0 and the frame's node
becomes evictable. -/
theorem UnpinPage_contract_fullPool :
    Reachable fullPool ∧ fullPool.findPage 0 = some 0 ∧ (fullPool.pages 0).pin_count = 1 ∧
    ∃ s1, UnpinPage fullPool 0 true = .ok (true, s1) ∧
      (s1.pages 0).pin_count = (fullPool.pages 0).pin_count - 1 ∧
      (∀ g, g ≠ 0 → (s1.pages g).pin_count = (fullPool.pages g).pin_count) ∧
      (∃ n, s1.replacer.find 0 = some n ∧
        (n.is_evictable = true ↔ (s1.pages 0).pin_count = 0)) ∧
      ((s1.pages 0).pin_count = 0 →
        fullPool.replacer.SetEvictable 0 true = .ok s1.replacer) ∧
      ((s1.pages 0).pin_count ≠ 0 → s1.replacer = fullPool.replacer) ∧
      (∀ g, 0 ≤ (s1.pages g).pin_count) :=
  ⟨fullPool_reachable, by decide, by decide,
    (UnpinPage_contract fullPool fullPool_reachable 0 true).2.2.2 0 (by decide) (by decide)⟩

/-- C9.  In every reachable state: `DeletePage(p)` returns `true` and changes nothing when
`p` is not resident; returns `false` and changes nothing when `p` is resident with a
positive pin count; otherwise returns `true`, after which `p` is not in the page table,
its frame is untracked by the replacer and sits at the back of the free list.  It returns
`false` only for a pinned page. -/
theorem DeletePage_contract (s : BufferPoolManager) (hs : Reachable s) (p : page_id_t) :
    (s.findPage p = none → DeletePage s p = .ok (true, s)) ∧
    (∀ f, s.findPage p = some f → 0 < (s.pages f).pin_count →
      DeletePage s p = .ok (false, s)) ∧
    (∀ f, s.findPage p = some f → ¬ 0 < (s.pages f).pin_count →
      ∃ s1, DeletePage s p = .ok (true, s1) ∧ s1.findPage p = none ∧
        s1.replacer.find f = none ∧ s1.free_list = s.free_list ++ [f]) ∧
    (returned (DeletePage s p) = some false →
      ∃ f, s.findPage p = some f ∧ 0 < (s.pages f).pin_count) := by
  have h := Reachable.bpm_inv s hs
  have hdel : ∀ f, s.findPage p = some f → ¬ 0 < (s.pages f).pin_count →
      ∃ s1, DeletePage s p = .ok (true, s1) ∧ s1.findPage p = none ∧
        s1.replacer.find f = none ∧ s1.free_list = s.free_list ++ [f] := by
    intro f hp hpin
    obtain ⟨r1, _, hD, _, hfind⟩ := DeletePage_unpinned_inv s h p f hp hpin
    refine ⟨_, hD, ?_, ?_, rfl⟩
    · show tableFind (tableErase s.page_table p) p = none
      rw [tableFind_erase, if_pos rfl]
    · show r1.find f = none
      rw [hfind, if_pos rfl]
  refine ⟨DeletePage_not_resident s p, DeletePage_pinned s p, hdel, ?_⟩
  intro hret
  cases hp : s.findPage p with
  | none =>
    rw [DeletePage_not_resident s p hp] at hret
    simp [returned] at hret
  | some f =>
    refine ⟨f, rfl, ?_⟩
    by_contra hpin
    obtain ⟨s1, hD, _⟩ := hdel f hp hpin
    rw [hD] at hret
    simp [returned] at hret

/-- C9 at a concrete reachable state: in a pool of one frame holding page 0 unpinned,
`DeletePage(0)` returns `true`, page 0 leaves the page table, frame 0 is untracked and
joins the free list. -/
theorem DeletePage_contract_dirtyPool :
    Reachable dirtyPool ∧ dirtyPool.findPage 0 = some 0 ∧ (dirtyPool.pages 0).pin_count = 0 ∧
    ∃ s1, DeletePage dirtyPool 0 = .ok (true, s1) ∧ s1.findPage 0 = none ∧
      s1.replacer.find 0 = none ∧ s1.free_list = dirtyPool.free_list ++ [0] :=
  ⟨dirtyPool_reachable, by decide, by decide,
    (DeletePage_contract dirtyPool dirtyPool_reachable 0).2.2.1 0 (by decide) (by decide)⟩

/-- C10.  In every state: `FlushPage(p)` returns `false` exactly when `p` is not resident,
and then the state (the disk included) is unchanged; for a resident `p` in frame `f` it
returns `true`, the disk receives the write of the frame's bytes under `p` whatever the
dirty flag was, the flag is `false` afterwards, and pin counts, page ids, bytes, other
frames, page table, free list and replacer are unchanged.  The disk is unchanged exactly
when `p` is not resident. -/
theorem FlushPage_contract (s : BufferPoolManager) (p : page_id_t) :
    ((FlushPage s p).1 = false ↔ s.findPage p = none) ∧
    ((FlushPage s p).2.disk_manager = s.disk_manager ↔ s.findPage p = none) ∧
    (s.findPage p = none → FlushPage s p = (false, s)) ∧
    (∀ f, s.findPage p = some f →
      (FlushPage s p).1 = true ∧
      (FlushPage s p).2.disk_manager = s.disk_manager.WritePage p (s.pages f).data ∧
      ((FlushPage s p).2.pages f).is_dirty = false ∧
      (∀ g, ((FlushPage s p).2.pages g).pin_count = (s.pages g).pin_count ∧
        ((FlushPage s p).2.pages g).page_id = (s.pages g).page_id ∧
        ((FlushPage s p).2.pages g).data = (s.pages g).data) ∧
      (∀ g, g ≠ f → (FlushPage s p).2.pages g = s.pages g) ∧
      (FlushPage s p).2.page_table = s.page_table ∧
      (FlushPage s p).2.free_list = s.free_list ∧
      (FlushPage s p).2.replacer = s.replacer) := by
  obtain ⟨_, h2, h3, h4, _, _, h7, h8⟩ := FlushPage_frame s p
  cases hp : s.findPage p with
  | none =>
    rw [FlushPage_not_resident s p hp]
    simp
  | some f =>
    have hF := FlushPage_resident s p f hp
    refine ⟨by rw [hF]; simp, ?_, by simp, ?_⟩
    · rw [hF]
      simp only [setPage, DiskManager.WritePage]
      constructor
      · intro hc
        have := congrArg DiskManager.writes hc
        simp only at this
        exact absurd this (List.cons_ne_self _ _)
      · intro hc
        cases hc
    · intro g hg
      simp only [Option.some.injEq] at hg
      subst hg
      refine ⟨by rw [hF], by rw [hF]; rfl, by rw [hF]; simp [setPage], h7, ?_, h4, h3, h2⟩
      intro g hg
      apply h8
      rw [hp]
      simp only [ne_eq, Option.some.injEq]
      exact fun hc => hg hc.symm

/-- C10 at a concrete state: page 0 sits in frame 0 with its dirty flag set; `FlushPage(0)`
returns `true`, writes the frame's bytes under page 0 and clears the flag. -/
theorem FlushPage_contract_dirtyPool :
    dirtyPool.findPage 0 = some 0 ∧ (dirtyPool.pages 0).is_dirty = true ∧
    (FlushPage dirtyPool 0).1 = true ∧
    (FlushPage dirtyPool 0).2.disk_manager =
      dirtyPool.disk_manager.WritePage 0 (dirtyPool.pages 0).data ∧
    ((FlushPage dirtyPool 0).2.pages 0).is_dirty = false ∧
    (∀ g, ((FlushPage dirtyPool 0).2.pages g).pin_count = (dirtyPool.pages g).pin_count ∧
      ((FlushPage dirtyPool 0).2.pages g).page_id = (dirtyPool.pages g).page_id ∧
      ((FlushPage dirtyPool 0).2.pages g).data = (dirtyPool.pages g).data) ∧
    (∀ g, g ≠ 0 → (FlushPage dirtyPool 0).2.pages g = dirtyPool.pages g) ∧
    (FlushPage dirtyPool 0).2.page_table = dirtyPool.page_table ∧
    (FlushPage dirtyPool 0).2.free_list = dirtyPool.free_list ∧
    (FlushPage dirtyPool 0).2.replacer = dirtyPool.replacer :=
  ⟨by decide, by decide, (FlushPage_contract dirtyPool 0).2.2.2 0 (by decide)⟩

/-- C8.  In every state: a call `UnpinPage(p, d)` that returns `true` leaves the dirty
flag of the page's frame equal to (flag before) OR `d`; and a set dirty flag survives
every operation except a flush of a page mapped to that frame (`FlushPage`, or
`FlushAllPages` when some page is mapped to it) and the reuse of that frame by `NewPage`
or by a `FetchPage` miss (the frame taken by `acquireFrame`).  In a reachable state the
only page mapped to a frame is the page the frame holds. -/
theorem UnpinPage_dirty_sticky (s : BufferPoolManager) :
    (∀ p d f s1, s.findPage p = some f → UnpinPage s p d = .ok (true, s1) →
      (s1.pages f).is_dirty = ((s.pages f).is_dirty || d)) ∧
    (∀ op f, (s.pages f).is_dirty = true →
      ((exec s op).pages f).is_dirty = true ∨
      ((∃ q, op = .FlushPage q ∧ s.findPage q = some f) ∨
        (op = .FlushAllPages ∧ ∃ q, s.findPage q = some f)) ∨
      ((op = .NewPage ∨ ∃ q, op = .FetchPage q ∧ s.findPage q = none) ∧
        (acquireFrame s).1 = some f)) ∧
    (Reachable s → ∀ q f, s.findPage q = some f → (s.pages f).page_id = q) := by
  refine ⟨?_, ?_, fun hs q f hq => ((Reachable.bpm_inv s hs).table_ok q f hq).2⟩
  · intro p d f s1 hp hU
    by_cases hpin : (s.pages f).pin_count ≤ 0
    · rw [UnpinPage_unpinned s p d f hp hpin] at hU
      simp at hU
    · obtain ⟨herr, hok⟩ := UnpinPage_pinned s p d f hp (by omega)
      cases hm : (if (s.pages f).pin_count - 1 = 0 then s.replacer.SetEvictable f true
          else .ok s.replacer : Except LRUKReplacer LRUKReplacer) with
      | error r =>
        obtain ⟨s2, hU2, _⟩ := herr r hm
        rw [hU2] at hU
        cases hU
      | ok r =>
        obtain ⟨s2, hU2, _, _, _, _, _, _, _, _, hpf⟩ := hok r hm
        rw [hU2] at hU
        simp only [Except.ok.injEq, Prod.mk.injEq, true_and] at hU
        subst hU
        rw [hpf]
  · intro op f hd
    cases op with
    | NewPage =>
      by_cases hg : (acquireFrame s).1 = some f
      · exact Or.inr (Or.inr ⟨Or.inl rfl, hg⟩)
      · left
        show ((after (NewPage s)).pages f).is_dirty = true
        rw [NewPage_pages_other s f hg]
        exact hd
    | FetchPage q =>
      cases hq : s.findPage q with
      | some g =>
        left
        show ((after (FetchPage s q)).pages f).is_dirty = true
        rw [FetchPage_hit_dirty s q g f hq]
        exact hd
      | none =>
        by_cases hg : (acquireFrame s).1 = some f
        · exact Or.inr (Or.inr ⟨Or.inr ⟨q, rfl, hq⟩, hg⟩)
        · left
          show ((after (FetchPage s q)).pages f).is_dirty = true
          rw [FetchPage_miss_pages_other s q f hq hg]
          exact hd
    | UnpinPage q d =>
      left
      exact UnpinPage_keeps_dirty s q d f hd
    | FlushPage q =>
      by_cases hq : s.findPage q = some f
      · exact Or.inr (Or.inl (Or.inl ⟨q, rfl, hq⟩))
      · left
        show ((FlushPage s q).2.pages f).is_dirty = true
        rw [(FlushPage_frame s q).2.2.2.2.2.2.2 f hq]
        exact hd
    | FlushAllPages =>
      by_cases hq : ∃ q, s.findPage q = some f
      · exact Or.inr (Or.inl (Or.inr ⟨rfl, hq⟩))
      · left
        show ((FlushAllPages s).pages f).is_dirty = true
        unfold FlushAllPages
        rw [flushAll_pages s.page_table s f (fun x _ hx => hq ⟨x.1, hx⟩)]
        exact hd
    | DeletePage q =>
      left
      show ((after (DeletePage s q)).pages f).is_dirty = true
      rw [DeletePage_pages]
      exact hd
    | WriteData g b =>
      left
      show ((WriteData s g b).pages f).is_dirty = true
      by_cases hgf : f = g
      · subst hgf
        simp [WriteData, setPage, hd]
      · simp [WriteData, setPage, hgf, hd]

/-- C8 at concrete states: page 0 is pinned in frame 0 with its dirty flag set;
`UnpinPage(0, false)` returns `true` and the flag stays set; and the flag of the unpinned
dirty page survives `DeletePage(0)`. -/
theorem UnpinPage_dirty_sticky_refetched :
    refetched.findPage 0 = some 0 ∧ (refetched.pages 0).is_dirty = true ∧
    returned (UnpinPage refetched 0 false) = some true ∧
    ((after (UnpinPage refetched 0 false)).pages 0).is_dirty =
      ((refetched.pages 0).is_dirty || false) ∧
    ((after (UnpinPage refetched 0 false)).pages 0).is_dirty = true ∧
    ((exec refetched (.DeletePage 0)).pages 0).is_dirty = true :=
  ⟨by decide, by decide, by decide,
    (UnpinPage_dirty_sticky refetched).1 0 false 0 (after (UnpinPage refetched 0 false))
      (by decide) rfl,
    by decide,
    ((UnpinPage_dirty_sticky refetched).2.1 (.DeletePage 0) 0 (by decide)).resolve_right
      (by simp)⟩

end BufferPoolManager

/-! ## The replacer: `SetEvictable`, `Remove`, `RecordAccess` -/

namespace LRUKReplacer

theorem wrappedSize_reachable : Reachable wrappedSize :=
  Reachable.recordAll _ _ (Reachable.evict _ onePinned_reachable (by decide)) (by decide)

theorem zeroSize_reachable : Reachable zeroSize :=
  Reachable.markAll _ _ wrappedSize_reachable

/-- C14 (fails on the code).  The claim: `SetEvictable(f, true)` on a tracked,
non-evictable frame raises `Size()` by one.  The code, after `RecordAccess(0)`, `Evict`,
`RecordAccess(0)` on a fresh replacer: frame 0 is tracked and not evictable, no node is
evictable, `Size()` is `2 ^ 64 - 1`, and `SetEvictable(0, true)` returns with frame 0
evictable and `Size()` at 0.  `Evict` had taken the non-evictable node at `begin()` and
run `evictable_size_--` on zero (the defect of C1 and C6). -/
theorem SetEvictable_Size_wraps_to_zero :
    Reachable wrappedSize ∧
    wrappedSize.find 0 = some { history := [3], k := 2, fid := 0, is_evictable := false } ∧
    evictableCount wrappedSize = 0 ∧ Size wrappedSize = 18446744073709551615 ∧
    SetEvictable wrappedSize 0 true = .ok (after (SetEvictable wrappedSize 0 true)) ∧
    (after (SetEvictable wrappedSize 0 true)).find 0 =
      some { history := [3], k := 2, fid := 0, is_evictable := true } ∧
    evictableCount (after (SetEvictable wrappedSize 0 true)) = 1 ∧
    Size (after (SetEvictable wrappedSize 0 true)) = 0 ∧
    Size (after (SetEvictable wrappedSize 0 true)) ≠ Size wrappedSize + 1 :=
  ⟨wrappedSize_reachable, by decide, by decide, by decide, rfl, by decide, by decide,
    by decide, by decide⟩

/-- C15 (fails on the code).  The claim: `Remove(f)` on a tracked, evictable frame lowers
`Size()` by exactly one.  The code, after `RecordAccess(0)`, `Evict`, `RecordAccess(0)`,
`SetEvictable(0, true)` on a fresh replacer: frame 0 is tracked and evictable, the tracked
count is 1 and `Size()` is 0; `Remove(0)` returns with the node erased, the tracked count
at 0 and `Size()` at `2 ^ 64 - 1`.  The counter had lost one when `Evict` took the
non-evictable node at `begin()` (the defect of C1 and C6). -/
theorem Remove_Size_wraps_below_zero :
    Reachable zeroSize ∧
    zeroSize.find 0 = some { history := [3], k := 2, fid := 0, is_evictable := true } ∧
    evictableCount zeroSize = 1 ∧ zeroSize.curr_size = 1 ∧ Size zeroSize = 0 ∧
    Remove zeroSize 0 = .ok (after (Remove zeroSize 0)) ∧
    (after (Remove zeroSize 0)).find 0 = none ∧
    (after (Remove zeroSize 0)).curr_size = 0 ∧
    Size (after (Remove zeroSize 0)) = 18446744073709551615 ∧
    Size (after (Remove zeroSize 0)) + 1 ≠ Size zeroSize :=
  ⟨zeroSize_reachable, by decide, by decide, by decide, by decide, rfl, by decide,
    by decide, by decide, by decide⟩

/-- What `SetEvictable` itself does, in every replacer state: `SetEvictable(f, e)` raises
exactly when `f` is untracked, and then the state is unchanged; for a tracked `f` it
returns, the node of `f` keeps its history and has flag `e`, `Size()` goes up by one
(`++` on `size_t`) when the flag goes false to true, down by one (`--` on `size_t`) when
it goes true to false, and the whole state is unchanged when the flag already equals `e`;
no other node, no key, and neither the tracked count, the clock, `k` nor the capacity
changes.  The step is exactly one unless the counter wraps. -/
theorem SetEvictable_contract (r : LRUKReplacer) (f : frame_id_t) (e : Bool) :
    ((∃ r1, SetEvictable r f e = .error r1) ↔ r.find f = none) ∧
    (r.find f = none → SetEvictable r f e = .error r) ∧
    (∀ n, r.find f = some n →
      ∃ r1, SetEvictable r f e = .ok r1 ∧
        r1.find f = some { n with is_evictable := e } ∧
        (∀ g, g ≠ f → r1.find g = r.find g) ∧
        r1.node_store.map Prod.fst = r.node_store.map Prod.fst ∧
        r1.curr_size = r.curr_size ∧ r1.current_timestamp = r.current_timestamp ∧
        r1.k = r.k ∧ r1.replacer_size = r.replacer_size ∧
        (n.is_evictable = false → e = true →
          Size r1 = size_inc (Size r) ∧ (Size r + 1 < SIZE_MOD → Size r1 = Size r + 1)) ∧
        (n.is_evictable = true → e = false →
          Size r1 = size_dec (Size r) ∧
          (0 < Size r → Size r < SIZE_MOD → Size r1 + 1 = Size r)) ∧
        (n.is_evictable = e → r1 = r)) := by
  have hnone : r.find f = none → SetEvictable r f e = .error r := by
    intro h
    unfold SetEvictable
    rw [h]
  have hsome : ∀ n, r.find f = some n →
      ∃ r1, SetEvictable r f e = .ok r1 ∧
        r1.find f = some { n with is_evictable := e } ∧
        (∀ g, g ≠ f → r1.find g = r.find g) ∧
        r1.node_store.map Prod.fst = r.node_store.map Prod.fst ∧
        r1.curr_size = r.curr_size ∧ r1.current_timestamp = r.current_timestamp ∧
        r1.k = r.k ∧ r1.replacer_size = r.replacer_size ∧
        (n.is_evictable = false → e = true →
          Size r1 = size_inc (Size r) ∧ (Size r + 1 < SIZE_MOD → Size r1 = Size r + 1)) ∧
        (n.is_evictable = true → e = false →
          Size r1 = size_dec (Size r) ∧
          (0 < Size r → Size r < SIZE_MOD → Size r1 + 1 = Size r)) ∧
        (n.is_evictable = e → r1 = r) := by
    intro n hn
    obtain ⟨r1, hSE, hfind, hkeys, hcs, hrs, hk, hclk, hsame, hup, hdown⟩ :=
      SetEvictable_tracked r f e n hn
    refine ⟨r1, hSE, ?_, ?_, hkeys, hcs, hclk, hk, hrs, ?_, ?_, hsame⟩
    · rw [hfind, if_pos rfl]
      rfl
    · intro g hg
      rw [hfind, if_neg hg]
    · intro h1 h2
      have h3 : Size r1 = size_inc (Size r) := hup h1 h2
      refine ⟨h3, fun hlt => ?_⟩
      rw [h3, size_inc_eq _ hlt]
    · intro h1 h2
      have h3 : Size r1 = size_dec (Size r) := hdown h1 h2
      refine ⟨h3, fun h0 hlt => ?_⟩
      rw [h3, size_dec_eq _ h0 hlt]
      omega
  refine ⟨⟨?_, fun h => ⟨r, hnone h⟩⟩, hnone, hsome⟩
  rintro ⟨r1, h1⟩
  cases hf : r.find f with
  | none => rfl
  | some n =>
    obtain ⟨r2, h2, _⟩ := hsome n hf
    rw [h2] at h1
    cases h1

/-- The call `SetEvictable(0, true)` at a concrete state: frame 0 is tracked and not
evictable; the call returns, sets the flag and raises `Size()` from 1 to 2. -/
theorem SetEvictable_contract_mixedPair :
    mixedPair.find 0 = some { history := [1], k := 2, fid := 0, is_evictable := false } ∧
    Size mixedPair = 1 ∧
    ∃ r1, SetEvictable mixedPair 0 true = .ok r1 ∧
      r1.find 0 = some { history := [1], k := 2, fid := 0, is_evictable := true } ∧
      (∀ g, g ≠ 0 → r1.find g = mixedPair.find g) ∧
      r1.node_store.map Prod.fst = mixedPair.node_store.map Prod.fst ∧
      r1.curr_size = mixedPair.curr_size ∧
      r1.current_timestamp = mixedPair.current_timestamp ∧
      r1.k = mixedPair.k ∧ r1.replacer_size = mixedPair.replacer_size ∧
      ((false : Bool) = false → true = true →
        Size r1 = size_inc (Size mixedPair) ∧
        (Size mixedPair + 1 < SIZE_MOD → Size r1 = Size mixedPair + 1)) ∧
      ((false : Bool) = true → true = false →
        Size r1 = size_dec (Size mixedPair) ∧
        (0 < Size mixedPair → Size mixedPair < SIZE_MOD → Size r1 + 1 = Size mixedPair)) ∧
      ((false : Bool) = true → r1 = mixedPair) :=
  ⟨by decide, by decide,
    (SetEvictable_contract mixedPair 0 true).2.2
      { history := [1], k := 2, fid := 0, is_evictable := false } (by decide)⟩

/-- What `Remove` itself does, in every replacer state: `Remove(f)` returns and changes
nothing when `f` is untracked; raises and changes nothing when `f` is tracked and not
evictable; and otherwise returns with the node of `f` erased, the tracked count and
`Size()` each lowered by one (`--` on `size_t`), and every other node, the clock, `k` and
the capacity unchanged.  The step is exactly one unless the counter is zero. -/
theorem Remove_contract (r : LRUKReplacer) (f : frame_id_t) :
    (r.find f = none → Remove r f = .ok r) ∧
    (∀ n, r.find f = some n → n.is_evictable = false → Remove r f = .error r) ∧
    (∀ n, r.find f = some n → n.is_evictable = true →
      ∃ r1, Remove r f = .ok r1 ∧ r1.find f = none ∧
        (∀ g, g ≠ f → r1.find g = r.find g) ∧
        r1.node_store = eraseKey r.node_store f ∧
        r1.curr_size = size_dec r.curr_size ∧
        (0 < r.curr_size → r.curr_size < SIZE_MOD → r1.curr_size + 1 = r.curr_size) ∧
        Size r1 = size_dec (Size r) ∧
        (0 < Size r → Size r < SIZE_MOD → Size r1 + 1 = Size r) ∧
        r1.current_timestamp = r.current_timestamp ∧ r1.k = r.k ∧
        r1.replacer_size = r.replacer_size) := by
  refine ⟨?_, ?_, ?_⟩
  · intro h
    unfold Remove
    rw [h]
  · intro n h hev
    unfold Remove
    rw [h]
    simp [hev]
  · intro n h hev
    obtain ⟨r1, hR, hfind, hstore, hcs, hrs, hes, hk, hclk⟩ := Remove_evictable r f n h hev
    refine ⟨r1, hR, by rw [hfind, if_pos rfl], fun g hg => by rw [hfind, if_neg hg], hstore,
      hcs, ?_, hes, ?_, hclk, hk, hrs⟩
    · intro h0 hlt
      rw [hcs, size_dec_eq _ h0 hlt]
      omega
    · intro h0 hlt
      have h3 : Size r1 = size_dec (Size r) := hes
      rw [h3, size_dec_eq _ h0 hlt]
      omega

/-- The call `Remove(1)` at a concrete state: frame 1 is tracked and evictable; the call
returns, erases its node and lowers the tracked count from 2 to 1 and `Size()` from 1 to
0, and frame 0 keeps its node. -/
theorem Remove_contract_mixedPair :
    mixedPair.find 1 = some { history := [2], k := 2, fid := 1, is_evictable := true } ∧
    mixedPair.curr_size = 2 ∧ Size mixedPair = 1 ∧
    ∃ r1, Remove mixedPair 1 = .ok r1 ∧ r1.find 1 = none ∧
      (∀ g, g ≠ 1 → r1.find g = mixedPair.find g) ∧
      r1.node_store = eraseKey mixedPair.node_store 1 ∧
      r1.curr_size = size_dec mixedPair.curr_size ∧
      (0 < mixedPair.curr_size → mixedPair.curr_size < SIZE_MOD →
        r1.curr_size + 1 = mixedPair.curr_size) ∧
      Size r1 = size_dec (Size mixedPair) ∧
      (0 < Size mixedPair → Size mixedPair < SIZE_MOD → Size r1 + 1 = Size mixedPair) ∧
      r1.current_timestamp = mixedPair.current_timestamp ∧ r1.k = mixedPair.k ∧
      r1.replacer_size = mixedPair.replacer_size :=
  ⟨by decide, by decide, by decide,
    (Remove_contract mixedPair 1).2.2
      { history := [2], k := 2, fid := 1, is_evictable := true } (by decide) (by decide)⟩

/-- C17, as stated, fails: in scenario 4 of the spec (`k = 2`, accesses f0, f1, f2, f0,
f1, f2 at timestamps 1..6, all evictable) `Evict` does not return f1. -/
theorem Evict_scenario4_is_not_f1 : (Evict scenario4).1 ≠ some 1 := by
  decide

/-- C17, amended.  In scenario 4 of the spec (`k = 2`, capacity 3, accesses f0, f1, f2,
f0, f1, f2 at timestamps 1..6 on a fresh replacer, all three frames evictable) `Evict`
returns f0. -/
theorem Evict_scenario4_returns_f0 :
    scenario4.find 0 = some { history := [4, 1], k := 2, fid := 0, is_evictable := true } ∧
    scenario4.find 1 = some { history := [5, 2], k := 2, fid := 1, is_evictable := true } ∧
    scenario4.find 2 = some { history := [6, 3], k := 2, fid := 2, is_evictable := true } ∧
    scenario4.current_timestamp = 6 ∧
    (Evict scenario4).1 = some 0 := by
  decide

end LRUKReplacer

namespace LRUKReplacer

/-- C16.  In every reachable replacer state (capacity within `size_t`): `RecordAccess(f)`
raises exactly when `f` is untracked and the tracked count equals `replacer_size`;
otherwise it returns with the clock advanced by one (`++` on `size_t`) and the new
timestamp at the front of the history of `f`.  For an untracked `f` the node is new, holds
that single timestamp and is not evictable, the tracked count goes up by one and `Size()`
stays; for a tracked `f` its evictable flag, the tracked count and `Size()` stay.  No
other node changes. -/
theorem RecordAccess_contract (r : LRUKReplacer) (hr : Reachable r)
    (hcap : r.replacer_size < SIZE_MOD) (f : frame_id_t) :
    ((∃ r1, RecordAccess r f = .error r1) ↔
      (r.find f = none ∧ r.curr_size = r.replacer_size)) ∧
    (∀ n, r.find f = some n →
      ∃ r1 n1, RecordAccess r f = .ok r1 ∧
        r1.current_timestamp = size_inc r.current_timestamp ∧
        (r.current_timestamp + 1 < SIZE_MOD →
          r1.current_timestamp = r.current_timestamp + 1) ∧
        r1.find f = some n1 ∧ n1.history.head? = some r1.current_timestamp ∧
        n1.is_evictable = n.is_evictable ∧
        (∀ g, g ≠ f → r1.find g = r.find g) ∧
        r1.node_store.map Prod.fst = r.node_store.map Prod.fst ∧
        r1.curr_size = r.curr_size ∧ Size r1 = Size r) ∧
    (r.find f = none → r.curr_size ≠ r.replacer_size →
      ∃ r1 n1, RecordAccess r f = .ok r1 ∧
        r1.current_timestamp = size_inc r.current_timestamp ∧
        (r.current_timestamp + 1 < SIZE_MOD →
          r1.current_timestamp = r.current_timestamp + 1) ∧
        r1.find f = some n1 ∧ n1.history = [r1.current_timestamp] ∧
        n1.is_evictable = false ∧
        (∀ g, g ≠ f → r1.find g = r.find g) ∧
        r1.node_store.map Prod.fst = f :: r.node_store.map Prod.fst ∧
        r1.curr_size = r.curr_size + 1 ∧ Size r1 = Size r) := by
  obtain ⟨_, hk, hnk⟩ := Reachable.inv r hr
  obtain ⟨hlen, hle⟩ := Reachable.counted r hr hcap
  have htracked : ∀ n, r.find f = some n →
      ∃ r1 n1, RecordAccess r f = .ok r1 ∧
        r1.current_timestamp = size_inc r.current_timestamp ∧
        (r.current_timestamp + 1 < SIZE_MOD →
          r1.current_timestamp = r.current_timestamp + 1) ∧
        r1.find f = some n1 ∧ n1.history.head? = some r1.current_timestamp ∧
        n1.is_evictable = n.is_evictable ∧
        (∀ g, g ≠ f → r1.find g = r.find g) ∧
        r1.node_store.map Prod.fst = r.node_store.map Prod.fst ∧
        r1.curr_size = r.curr_size ∧ Size r1 = Size r := by
    intro n hn
    obtain ⟨r1, hRA, hfind, hkeys, hcs, _, hes, _, hclk⟩ := RecordAccess_tracked r f n hn
    have hnk1 : 1 ≤ n.k := by
      have := hnk (f, n) (find_some_mem r f n hn)
      simp only at this
      omega
    refine ⟨r1, n.addHistory (size_inc r.current_timestamp), hRA, hclk,
      fun hlt => by rw [hclk, size_inc_eq _ hlt], by rw [hfind, if_pos rfl], ?_, rfl,
      fun g hg => by rw [hfind, if_neg hg], hkeys, hcs, hes⟩
    rw [hclk]
    exact addHistory_head n _ hnk1
  have hnew : r.find f = none → r.curr_size ≠ r.replacer_size →
      ∃ r1 n1, RecordAccess r f = .ok r1 ∧
        r1.current_timestamp = size_inc r.current_timestamp ∧
        (r.current_timestamp + 1 < SIZE_MOD →
          r1.current_timestamp = r.current_timestamp + 1) ∧
        r1.find f = some n1 ∧ n1.history = [r1.current_timestamp] ∧
        n1.is_evictable = false ∧
        (∀ g, g ≠ f → r1.find g = r.find g) ∧
        r1.node_store.map Prod.fst = f :: r.node_store.map Prod.fst ∧
        r1.curr_size = r.curr_size + 1 ∧ Size r1 = Size r := by
    intro hf hne
    have hroom : r.curr_size < r.replacer_size := by omega
    have hfind0 : find { r with current_timestamp := size_inc r.current_timestamp } f = none :=
      hf
    have hRA : RecordAccess r f = .ok
        { r with current_timestamp := size_inc r.current_timestamp,
                 node_store :=
                   (f, ({ k := r.k, fid := f } : LRUKNode).addHistory
                     (size_inc r.current_timestamp)) :: r.node_store,
                 curr_size := size_inc r.curr_size } := by
      unfold RecordAccess
      simp only [hfind0]
      rw [if_neg (by simpa using hroom)]
    refine ⟨_, _, hRA, rfl, fun hlt => size_inc_eq _ hlt, find_cons r _ f f _ rfl |>.trans
      (if_pos rfl), ?_, rfl, fun g hg => (find_cons r _ f g _ rfl).trans (if_neg hg), rfl,
      size_inc_eq _ (by omega), rfl⟩
    unfold LRUKNode.addHistory
    simp only [List.nil_append, List.length_singleton]
    rw [if_neg (by omega)]
  refine ⟨⟨?_, ?_⟩, htracked, hnew⟩
  · rintro ⟨r1, h1⟩
    cases hf : r.find f with
    | some n =>
      obtain ⟨r2, _, h2, _⟩ := htracked n hf
      rw [h2] at h1
      cases h1
    | none =>
      refine ⟨rfl, ?_⟩
      by_contra hne
      obtain ⟨r2, _, h2, _⟩ := hnew hf hne
      rw [h2] at h1
      cases h1
  · rintro ⟨hf, heq⟩
    exact ⟨_, RecordAccess_full r f hf (by omega)⟩

/-- C16 at a concrete reachable state: frame 1 is tracked and evictable with history
`[2]`; `RecordAccess(1)` returns with the clock at 3, the history of frame 1 headed by 3,
and the flag, the tracked count and `Size()` as before. -/
theorem RecordAccess_contract_mixedPair :
    Reachable mixedPair ∧
    mixedPair.find 1 = some { history := [2], k := 2, fid := 1, is_evictable := true } ∧
    mixedPair.current_timestamp = 2 ∧
    ∃ r1 n1, RecordAccess mixedPair 1 = .ok r1 ∧
      r1.current_timestamp = size_inc mixedPair.current_timestamp ∧
      (mixedPair.current_timestamp + 1 < SIZE_MOD →
        r1.current_timestamp = mixedPair.current_timestamp + 1) ∧
      r1.find 1 = some n1 ∧ n1.history.head? = some r1.current_timestamp ∧
      n1.is_evictable = true ∧
      (∀ g, g ≠ 1 → r1.find g = mixedPair.find g) ∧
      r1.node_store.map Prod.fst = mixedPair.node_store.map Prod.fst ∧
      r1.curr_size = mixedPair.curr_size ∧ Size r1 = Size mixedPair :=
  ⟨mixedPair_reachable, by decide, by decide,
    (RecordAccess_contract mixedPair mixedPair_reachable (by decide) 1).2.1
      { history := [2], k := 2, fid := 1, is_evictable := true } (by decide)⟩

end LRUKReplacer

/-! ## The buffer pool manager: fetching a resident page, and calls into the replacer -/

namespace BufferPoolManager

/-- C12.  In every reachable state, for a page `p` mapped to frame `f`: `FetchPage(p)`
returns `f`, raises that frame's pin count by exactly one, leaves its node in the
replacer non-evictable, issues no disk read and no disk write (the disk manager is
unchanged), and leaves the frame's bytes, dirty flag and page id, every other frame, the
page table and the free list unchanged. -/
theorem FetchPage_resident_contract (s : BufferPoolManager) (hs : Reachable s)
    (p : page_id_t) (f : frame_id_t) (hp : s.findPage p = some f) :
    ∃ s1, FetchPage s p = .ok (some f, s1) ∧
      (s1.pages f).pin_count = (s.pages f).pin_count + 1 ∧
      (∃ n1, s1.replacer.find f = some n1 ∧ n1.is_evictable = false) ∧
      s1.disk_manager = s.disk_manager ∧
      (s1.pages f).data = (s.pages f).data ∧
      (s1.pages f).is_dirty = (s.pages f).is_dirty ∧
      (s1.pages f).page_id = (s.pages f).page_id ∧
      (∀ g, g ≠ f → s1.pages g = s.pages g) ∧
      s1.page_table = s.page_table ∧ s1.free_list = s.free_list := by
  obtain ⟨s1, n1, hF, _, _, hpt, hfl, _, hdm, _, hoth, hpf, _, hn1, hev⟩ :=
    FetchPage_hit_inv s (Reachable.bpm_inv s hs) p f hp
  exact ⟨s1, hF, by rw [hpf], ⟨n1, hn1, hev⟩, hdm, by rw [hpf], by rw [hpf], by rw [hpf],
    hoth, hpt, hfl⟩

/-- C12 at a concrete reachable state: page 0 sits unpinned in frame 0; `FetchPage(0)`
returns frame 0 with pin count 1 and touches neither the disk nor the page table. -/
theorem FetchPage_resident_contract_dirtyPool :
    Reachable dirtyPool ∧ (dirtyPool.pages 0).pin_count = 0 ∧
    ∃ s1, FetchPage dirtyPool 0 = .ok (some 0, s1) ∧
      (s1.pages 0).pin_count = (dirtyPool.pages 0).pin_count + 1 ∧
      (∃ n1, s1.replacer.find 0 = some n1 ∧ n1.is_evictable = false) ∧
      s1.disk_manager = dirtyPool.disk_manager ∧
      (s1.pages 0).data = (dirtyPool.pages 0).data ∧
      (s1.pages 0).is_dirty = (dirtyPool.pages 0).is_dirty ∧
      (s1.pages 0).page_id = (dirtyPool.pages 0).page_id ∧
      (∀ g, g ≠ 0 → s1.pages g = dirtyPool.pages g) ∧
      s1.page_table = dirtyPool.page_table ∧ s1.free_list = dirtyPool.free_list :=
  ⟨dirtyPool_reachable, by decide,
    FetchPage_resident_contract dirtyPool dirtyPool_reachable 0 0 (by decide)⟩

/-- C20.  In every state reachable from construction, no public operation raises:
`NewPage`, `FetchPage`, `UnpinPage` and `DeletePage` all return (`FlushPage` and
`FlushAllPages` make no replacer call).  At the call sites: a mapped frame is tracked, so
`SetEvictable` is never called on an untracked frame; the node of a mapped frame whose
pin count is not positive is evictable, so `Remove` is never called on a tracked
non-evictable frame; and the frame taken for a new page is untracked with the tracked
count below the capacity, so `RecordAccess` never exceeds it. -/
theorem replacer_calls_never_raise (s : BufferPoolManager) (hs : Reachable s) :
    (∃ res s1, NewPage s = .ok (res, s1)) ∧
    (∀ p, ∃ res s1, FetchPage s p = .ok (res, s1)) ∧
    (∀ p d, ∃ res s1, UnpinPage s p d = .ok (res, s1)) ∧
    (∀ p, ∃ res s1, DeletePage s p = .ok (res, s1)) ∧
    (∀ p f, s.findPage p = some f →
      ∃ n, s.replacer.find f = some n ∧
        ((s.pages f).pin_count ≤ 0 → n.is_evictable = true)) ∧
    (∀ f, (acquireFrame s).1 = some f →
      (acquireFrame s).2.replacer.find f = none ∧
      (acquireFrame s).2.replacer.curr_size < (acquireFrame s).2.replacer.replacer_size) := by
  have h := Reachable.bpm_inv s hs
  refine ⟨?_, ?_, ?_, ?_, ?_, ?_⟩
  · obtain ⟨res, s1, hN, _⟩ := NewPage_inv s h
    exact ⟨res, s1, hN⟩
  · intro p
    obtain ⟨res, s1, hN, _⟩ := FetchPage_inv s h p
    exact ⟨res, s1, hN⟩
  · intro p d
    obtain ⟨res, s1, hN, _⟩ := UnpinPage_inv s h p d
    exact ⟨res, s1, hN⟩
  · intro p
    obtain ⟨res, s1, hN, _⟩ := DeletePage_inv s h p
    exact ⟨res, s1, hN⟩
  · intro p f hp
    cases hf : s.replacer.find f with
    | none => exact absurd hf (h.table_ok p f hp).1
    | some n =>
      refine ⟨n, rfl, fun hpin => (h.evictable_iff f n hf).2 ?_⟩
      have := h.pin_nonneg f
      omega
  · intro f hf
    obtain ⟨hI, hD, _, _⟩ := acquireFrame_inv s h
    obtain ⟨hf0, hfn, hfind, _, _⟩ := hD f hf
    refine ⟨hfind, ?_⟩
    have hnotkey : f ∉ (acquireFrame s).2.replacer.node_store.map Prod.fst :=
      (LRUKReplacer.find_none_iff _ _).1 hfind
    have hlen := length_lt_of_nodup_range _ (acquireFrame s).2.pool_size f hI.keys_nodup
      hI.keys_range hf0 hfn hnotkey
    rw [hI.curr_size_eq, hI.capacity]
    simpa using hlen

/-- C20 at a concrete reachable state: with the only frame pinned, all four operations
return. -/
theorem replacer_calls_never_raise_fullPool :
    Reachable fullPool ∧
    (∃ res s1, NewPage fullPool = .ok (res, s1)) ∧
    (∀ p, ∃ res s1, FetchPage fullPool p = .ok (res, s1)) ∧
    (∀ p d, ∃ res s1, UnpinPage fullPool p d = .ok (res, s1)) ∧
    (∀ p, ∃ res s1, DeletePage fullPool p = .ok (res, s1)) ∧
    (∀ p f, fullPool.findPage p = some f →
      ∃ n, fullPool.replacer.find f = some n ∧
        ((fullPool.pages f).pin_count ≤ 0 → n.is_evictable = true)) ∧
    (∀ f, (acquireFrame fullPool).1 = some f →
      (acquireFrame fullPool).2.replacer.find f = none ∧
      (acquireFrame fullPool).2.replacer.curr_size <
        (acquireFrame fullPool).2.replacer.replacer_size) :=
  ⟨fullPool_reachable, replacer_calls_never_raise fullPool fullPool_reachable⟩

end BufferPoolManager

/-! ## The buffer pool manager: the page table, the free list and the replacer -/

namespace BufferPoolManager

/-- C18 (fails as stated).  The claim: in every state reachable by public operations,
each frame index is exactly once on the free list or the image of exactly one page-table
entry.  In a pool of two frames, `FetchPage(0)` followed by `NewPage` (which issues page
id 0, already a key of the page table, so that `insert` adds nothing) leaves frame 1
labelled page 0 and pinned, off the free list and not in the image of the page table. -/
theorem clashPool_frame_unplaced :
    Reachable clashPool ∧ clashPool.pool_size = 2 ∧
    clashPool.free_list = [] ∧ clashPool.page_table = [(0, 0)] ∧
    (clashPool.pages 1).page_id = 0 ∧ (clashPool.pages 1).pin_count = 1 ∧
    clashPool.free_list.count 1 + (clashPool.page_table.map Prod.snd).count 1 = 0 :=
  ⟨clashPool_reachable, by decide, by decide, by decide, by decide, by decide, by decide⟩

/-- C18 (amended).  In every reachable state each page-table entry points at a frame
labelled with the entry's page id, and no two entries share a frame.  When moreover every
`FetchPage` of the run asked for a page id below the page id counter, each frame index in
`[0, pool_size)` occurs exactly once in the free list or is the image of exactly one
page-table entry, never both: its occurrences in the two add up to one. -/
theorem page_table_free_list_partition (s : BufferPoolManager) (hs : Reachable s) :
    (∀ e ∈ s.page_table, (s.pages e.2).page_id = e.1) ∧
    (∀ e1 ∈ s.page_table, ∀ e2 ∈ s.page_table, e1.2 = e2.2 → e1 = e2) ∧
    (ReachableIssued s → ∀ f : frame_id_t, 0 ≤ f → f < s.pool_size →
      s.free_list.count f + (s.page_table.map Prod.snd).count f = 1) := by
  have h := Reachable.bpm_inv s hs
  have hlab : ∀ e ∈ s.page_table, (s.pages e.2).page_id = e.1 := fun e he =>
    (h.table_ok e.1 e.2 ((mem_table_iff s h e.1 e.2).1 he)).2
  refine ⟨hlab, ?_, ?_⟩
  · intro e1 he1 e2 he2 h12
    have h1 := hlab e1 he1
    have h2 := hlab e2 he2
    rw [h12] at h1
    exact Prod.ext (by rw [← h1, ← h2]) h12
  · intro hsi f hf0 hfn
    have ht := ReachableIssued.tight s hsi
    rcases ht.frames_placed f hf0 hfn with hm | hm
    · have hnot : f ∉ s.page_table.map Prod.snd := by
        intro hc
        obtain ⟨p, hp⟩ := (mem_image_iff s h f).1 hc
        exact mapped_not_free s h p f hp hm
      rw [List.count_eq_one_of_mem h.free_nodup hm, List.count_eq_zero_of_not_mem hnot]
    · obtain ⟨n, hn⟩ : ∃ n, s.replacer.find f = some n := by
        cases hf : s.replacer.find f with
        | none => exact absurd hf hm
        | some n => exact ⟨n, rfl⟩
      have hp := ht.tracked_mapped f n hn
      have hin : f ∈ s.page_table.map Prod.snd := (mem_image_iff s h f).2 ⟨_, hp⟩
      have hnot : f ∉ s.free_list := mapped_not_free s h _ f hp
      rw [List.count_eq_one_of_mem (image_nodup s h) hin,
        List.count_eq_zero_of_not_mem hnot]

/-- C18 (amended) at a concrete state: two pages in a pool of two frames, page 0
unpinned; both frames are images of one entry each and the free list is empty. -/
theorem page_table_free_list_partition_busyPool :
    Reachable busyPool ∧ ReachableIssued busyPool ∧ busyPool.pool_size = 2 ∧
    (∀ e ∈ busyPool.page_table, (busyPool.pages e.2).page_id = e.1) ∧
    (∀ e1 ∈ busyPool.page_table, ∀ e2 ∈ busyPool.page_table, e1.2 = e2.2 → e1 = e2) ∧
    (∀ f : frame_id_t, 0 ≤ f → f < busyPool.pool_size →
      busyPool.free_list.count f + (busyPool.page_table.map Prod.snd).count f = 1) :=
  ⟨ReachableIssued.reachable _ busyPool_issued, busyPool_issued, by decide,
    (page_table_free_list_partition busyPool
      (ReachableIssued.reachable _ busyPool_issued)).1,
    (page_table_free_list_partition busyPool
      (ReachableIssued.reachable _ busyPool_issued)).2.1,
    (page_table_free_list_partition busyPool
      (ReachableIssued.reachable _ busyPool_issued)).2.2 busyPool_issued⟩

end BufferPoolManager

namespace BufferPoolManager

/-- C19 (fails as stated).  The claim: in every reachable state the frames tracked by the
replacer are exactly the image of the page table.  In a pool of two frames after
`FetchPage(0)` and `NewPage`, frame 1 is tracked (and non-evictable, pin count 1) while no
page-table entry points at it. -/
theorem clashPool_tracked_unmapped :
    Reachable clashPool ∧
    (1 : frame_id_t) ∈ clashPool.replacer.node_store.map Prod.fst ∧
    (clashPool.replacer.find 1).map (fun n => n.is_evictable) = some false ∧
    (1 : frame_id_t) ∉ clashPool.page_table.map Prod.snd :=
  ⟨clashPool_reachable, by decide, by decide, by decide⟩

/-- C19 (amended).  In every reachable state each frame in the image of the page table
is tracked by the replacer, and a tracked frame is non-evictable iff its pin count is
greater than 0.  When moreover every `FetchPage` of the run asked for a page id below the
page id counter, the tracked frames are exactly the image of the page table. -/
theorem replacer_tracks_page_table (s : BufferPoolManager) (hs : Reachable s) :
    (∀ f ∈ s.page_table.map Prod.snd, f ∈ s.replacer.node_store.map Prod.fst) ∧
    (∀ f n, s.replacer.find f = some n →
      (n.is_evictable = false ↔ 0 < (s.pages f).pin_count)) ∧
    (ReachableIssued s →
      ∀ f, f ∈ s.replacer.node_store.map Prod.fst ↔ f ∈ s.page_table.map Prod.snd) := by
  have h := Reachable.bpm_inv s hs
  have hsub : ∀ f ∈ s.page_table.map Prod.snd, f ∈ s.replacer.node_store.map Prod.fst := by
    intro f hf
    obtain ⟨p, hp⟩ := (mem_image_iff s h f).1 hf
    by_contra hc
    exact (h.table_ok p f hp).1 ((LRUKReplacer.find_none_iff _ _).2 hc)
  refine ⟨hsub, ?_, ?_⟩
  · intro f n hn
    have h1 := h.evictable_iff f n hn
    have h2 := h.pin_nonneg f
    constructor
    · intro he
      have : (s.pages f).pin_count ≠ 0 := fun hc => by
        rw [h1.2 hc] at he
        cases he
      omega
    · intro hp
      cases he : n.is_evictable with
      | false => rfl
      | true =>
        have := h1.1 he
        omega
  · intro hsi f
    have ht := ReachableIssued.tight s hsi
    constructor
    · intro hf
      obtain ⟨n, hn⟩ := LRUKReplacer.find_ne_none_of_mem s.replacer f hf
      exact (mem_image_iff s h f).2 ⟨_, ht.tracked_mapped f n hn⟩
    · exact hsub f

/-- C19 (amended) at a concrete state: two pages in a pool of two frames, page 0
unpinned and page 1 pinned. -/
theorem replacer_tracks_page_table_busyPool :
    Reachable busyPool ∧ ReachableIssued busyPool ∧
    (busyPool.pages 0).pin_count = 0 ∧ (busyPool.pages 1).pin_count = 1 ∧
    (∀ f ∈ busyPool.page_table.map Prod.snd,
      f ∈ busyPool.replacer.node_store.map Prod.fst) ∧
    (∀ f n, busyPool.replacer.find f = some n →
      (n.is_evictable = false ↔ 0 < (busyPool.pages f).pin_count)) ∧
    (∀ f, f ∈ busyPool.replacer.node_store.map Prod.fst ↔
      f ∈ busyPool.page_table.map Prod.snd) :=
  ⟨ReachableIssued.reachable _ busyPool_issued, busyPool_issued, by decide, by decide,
    (replacer_tracks_page_table busyPool (ReachableIssued.reachable _ busyPool_issued)).1,
    (replacer_tracks_page_table busyPool (ReachableIssued.reachable _ busyPool_issued)).2.1,
    (replacer_tracks_page_table busyPool (ReachableIssued.reachable _ busyPool_issued)).2.2
      busyPool_issued⟩

end BufferPoolManager

namespace BufferPoolManager

/-- C11 (fails as stated).  The claim: in every reachable state, after a `NewPage` that
returns a frame the page table maps the new page id to that frame.  In a pool of two
frames after `FetchPage(0)`, `NewPage` returns frame 1 with the fresh page id 0; the
frame is labelled page 0 with pin count 1, but the page table still maps page id 0 to
frame 0 (`insert` leaves the entry of an existing key alone). -/
theorem NewPage_issues_mapped_id :
    Reachable strayPool ∧ strayPool.findPage 0 = some 0 ∧ strayPool.next_page_id = 0 ∧
    returned (NewPage strayPool) = some (some (1, 0)) ∧
    ((after (NewPage strayPool)).pages 1).page_id = 0 ∧
    ((after (NewPage strayPool)).pages 1).pin_count = 1 ∧
    (after (NewPage strayPool)).findPage 0 = some 0 :=
  ⟨strayPool_reachable, by decide, by decide, by decide, by decide, by decide, by decide⟩

/-- C11 (amended).  In every reachable state, a `NewPage` call that returns a frame whose
pin count was 0 (as it is for every frame off the free list and every frame whose node
was evictable) returns the old value of the page id counter as the new id and leaves the
frame with that `page_id`, `pin_count` exactly 1 and `is_dirty` false, tracked and
non-evictable in the replacer; when every `FetchPage` of the run asked for a page id
below the page id counter, the page table maps the new id to the frame.  A `FetchPage`
of a non-resident page that returns a frame whose pin count was 0 leaves it with the
page id asked for, `pin_count` exactly 1 and `is_dirty` false, mapped from that page id,
tracked and non-evictable. -/
theorem NewPage_FetchPage_install (s : BufferPoolManager) (hs : Reachable s) :
    (∀ f id s1, NewPage s = .ok (some (f, id), s1) → (s.pages f).pin_count = 0 →
      id = s.next_page_id ∧ s1.next_page_id = s.next_page_id + 1 ∧
      (s1.pages f).page_id = id ∧ (s1.pages f).pin_count = 1 ∧
      (s1.pages f).is_dirty = false ∧
      (∃ n, s1.replacer.find f = some n ∧ n.is_evictable = false) ∧
      (ReachableIssued s → s1.findPage id = some f)) ∧
    (∀ p f s1, s.findPage p = none → FetchPage s p = .ok (some f, s1) →
      (s.pages f).pin_count = 0 →
      (s1.pages f).page_id = p ∧ (s1.pages f).pin_count = 1 ∧
      (s1.pages f).is_dirty = false ∧
      (∃ n, s1.replacer.find f = some n ∧ n.is_evictable = false) ∧
      s1.findPage p = some f) ∧
    (∀ f, ((∃ id s1, NewPage s = .ok (some (f, id), s1)) ∨
        (∃ p s1, s.findPage p = none ∧ FetchPage s p = .ok (some f, s1))) →
      (s.free_list ≠ [] ∨ ∃ n, s.replacer.find f = some n ∧ n.is_evictable = true) →
      (s.pages f).pin_count = 0) := by
  have h := Reachable.bpm_inv s hs
  refine ⟨?_, ?_, ?_⟩
  · intro f id s1 hN hzero
    cases hf : (acquireFrame s).1 with
    | none =>
      rw [NewPage_none s hf] at hN
      cases hN
    | some f0 =>
      obtain ⟨s5, nd, hN5, _, hps, hfl, hpt, hnx, _, hoth, hpf, hfd, hev, hfind⟩ :=
        NewPage_frame s h f0 hf
      rw [hN5] at hN
      simp only [Except.ok.injEq, Prod.mk.injEq, Option.some.injEq] at hN
      obtain ⟨⟨hff, hid⟩, hss⟩ := hN
      subst hff
      subst hid
      subst hss
      have hpin : (s5.pages f0).pin_count = (s.pages f0).pin_count + 1 := by rw [hpf]
      refine ⟨rfl, hnx, by rw [hpf], by rw [hpin, hzero]; rfl, by rw [hpf],
        ⟨nd, hfd, hev⟩, ?_⟩
      intro hsi
      have ht := ReachableIssued.tight s hsi
      have hp : s.findPage s.next_page_id = none := by
        cases hq : s.findPage s.next_page_id with
        | none => rfl
        | some g => exact absurd (ht.keys_issued _ g hq) (lt_irrefl _)
      exact (install_tight s s5 ht f0 hf s.next_page_id hp hps hfl hpt hoth
        (by rw [hpf]) (by rw [hfd]; simp) hfind).1
  · intro p f s1 hp hN hzero
    cases hf : (acquireFrame s).1 with
    | none =>
      rw [FetchPage_miss_none s p hp hf] at hN
      cases hN
    | some f0 =>
      obtain ⟨s5, nd, hN5, _, hps, hfl, hpt, hnx, _, hoth, hpf, hfd, hev, hfind⟩ :=
        FetchPage_miss_frame s h p hp f0 hf
      rw [hN5] at hN
      simp only [Except.ok.injEq, Prod.mk.injEq, Option.some.injEq] at hN
      obtain ⟨hff, hss⟩ := hN
      subst hff
      subst hss
      have hpin : (s5.pages f0).pin_count = (s.pages f0).pin_count + 1 := by rw [hpf]
      refine ⟨by rw [hpf], by rw [hpin, hzero]; rfl, by rw [hpf], ⟨nd, hfd, hev⟩, ?_⟩
      have hsub : ∀ q g, (acquireFrame s).2.findPage q = some g →
          s.findPage q = some g := by
        intro q g hq
        rcases acquireFrame_cases s with ⟨_, _, _, hA⟩ | ⟨_, _, hA⟩ | ⟨_, _, _, _, _, hA⟩
        · rw [hA] at hq
          exact hq
        · rw [hA] at hq
          exact hq
        · rw [hA] at hq
          unfold findPage at hq
          simp only at hq
          rw [tableFind_erase] at hq
          split_ifs at hq
          exact hq
      have hp1 : tableFind (acquireFrame s).2.page_table p = none := by
        cases hq : tableFind (acquireFrame s).2.page_table p with
        | none => rfl
        | some g =>
          have := hsub p g hq
          rw [hp] at this
          cases this
      unfold findPage
      rw [hpt, tableFind_insert, if_pos rfl, hp1]
      simp
  · intro f hret hcond
    have hf : (acquireFrame s).1 = some f := by
      cases hf0 : (acquireFrame s).1 with
      | none =>
        rcases hret with ⟨id, s1, hN⟩ | ⟨p, s1, hp, hN⟩
        · rw [NewPage_none s hf0] at hN
          cases hN
        · rw [FetchPage_miss_none s p hp hf0] at hN
          cases hN
      | some f0 =>
        rcases hret with ⟨id, s1, hN⟩ | ⟨p, s1, hp, hN⟩
        · obtain ⟨s5, _, hN5, _⟩ := NewPage_frame s h f0 hf0
          rw [hN5] at hN
          simp only [Except.ok.injEq, Prod.mk.injEq, Option.some.injEq] at hN
          rw [hN.1.1]
        · obtain ⟨s5, _, hN5, _⟩ := FetchPage_miss_frame s h p hp f0 hf0
          rw [hN5] at hN
          simp only [Except.ok.injEq, Prod.mk.injEq, Option.some.injEq] at hN
          rw [hN.1]
    rcases hcond with hne | ⟨n, hn, he⟩
    · rcases acquireFrame_cases s with ⟨f1, rest, hfl, hA⟩ | ⟨hfl, _⟩ | ⟨hfl, _⟩
      · rw [hA] at hf
        simp only [Option.some.injEq] at hf
        subst hf
        exact (h.free_ok f1 (by rw [hfl]; exact List.mem_cons_self _ _)).2.2.2.2
      · exact absurd hfl hne
      · exact absurd hfl hne
    · exact (h.evictable_iff f n hn).1 he

/-- C11 (amended) at a concrete state: in a pool of two frames holding pages 0 (unpinned,
dirty) and 1 (pinned), `NewPage` returns frame 0 as page 2 with pin count 1, and
`FetchPage(5)` returns frame 0 as page 5 with pin count 1. -/
theorem NewPage_FetchPage_install_busyPool :
    Reachable busyPool ∧ ReachableIssued busyPool ∧ busyPool.findPage 5 = none ∧
    (busyPool.pages 0).pin_count = 0 ∧
    NewPage busyPool = .ok (some (0, 2), after (NewPage busyPool)) ∧
    FetchPage busyPool 5 = .ok (some 0, after (FetchPage busyPool 5)) ∧
    (busyPool.replacer.find 0).map (fun n => n.is_evictable) = some true ∧
    (2 = busyPool.next_page_id ∧
      (after (NewPage busyPool)).next_page_id = busyPool.next_page_id + 1 ∧
      ((after (NewPage busyPool)).pages 0).page_id = 2 ∧
      ((after (NewPage busyPool)).pages 0).pin_count = 1 ∧
      ((after (NewPage busyPool)).pages 0).is_dirty = false ∧
      (∃ n, (after (NewPage busyPool)).replacer.find 0 = some n ∧ n.is_evictable = false) ∧
      (after (NewPage busyPool)).findPage 2 = some 0) ∧
    (((after (FetchPage busyPool 5)).pages 0).page_id = 5 ∧
      ((after (FetchPage busyPool 5)).pages 0).pin_count = 1 ∧
      ((after (FetchPage busyPool 5)).pages 0).is_dirty = false ∧
      (∃ n, (after (FetchPage busyPool 5)).replacer.find 0 = some n ∧
        n.is_evictable = false) ∧
      (after (FetchPage busyPool 5)).findPage 5 = some 0) :=
  ⟨ReachableIssued.reachable _ busyPool_issued, busyPool_issued, by decide, by decide,
    ok_of_returned _ _ (by decide), ok_of_returned _ _ (by decide), by decide,
    (fun r => ⟨r.1, r.2.1, r.2.2.1, r.2.2.2.1, r.2.2.2.2.1, r.2.2.2.2.2.1,
        r.2.2.2.2.2.2 busyPool_issued⟩)
      ((NewPage_FetchPage_install busyPool
        (ReachableIssued.reachable _ busyPool_issued)).1 0 2 (after (NewPage busyPool))
        (ok_of_returned _ _ (by decide)) (by decide)),
    (NewPage_FetchPage_install busyPool
      (ReachableIssued.reachable _ busyPool_issued)).2.1 5 0 (after (FetchPage busyPool 5))
      (by decide) (ok_of_returned _ _ (by decide)) (by decide)⟩

end BufferPoolManager

/-! ## The buffer pool manager: writing back a dirty victim -/

namespace BufferPoolManager

/-- C13 (fails as stated).  The claim: a page whose bytes were unpinned dirty and that is
later evicted comes back with those bytes at the next successful `FetchPage`.  In a pool
of one frame, page id 1 is fetched before it is issued, filled with `[66]`, unpinned
dirty and evicted by `NewPage` (the bytes go to disk under id 1); the new page 0 is
filled with `[67]` and unpinned; the next `NewPage` issues id 1 for the frame, which
keeps `[67]`; `FetchPage(1)` then finds id 1 in the page table and returns the frame with
`[67]`, while the disk holds `[66]` for page 1. -/
theorem FetchPage_after_reissued_id :
    Reachable stalePool ∧
    (execAll (new 1 2 {}) [.FetchPage 1, .WriteData 0 [66], .UnpinPage 1 true]).pages 0 =
      { data := [66], page_id := 1, pin_count := 0, is_dirty := true } ∧
    stalePool.findPage 1 = none ∧ stalePool.disk_manager.bytes 1 = [66] ∧
    returned (NewPage stalePool) = some (some (0, 1)) ∧
    returned (FetchPage (exec stalePool .NewPage) 1) = some (some 0) ∧
    ((after (FetchPage (exec stalePool .NewPage) 1)).pages 0).data = [67] ∧
    (after (FetchPage (exec stalePool .NewPage) 1)).disk_manager.bytes 1 = [66] :=
  ⟨stalePool_reachable, by decide, by decide, by decide, by decide, by decide, by decide,
    by decide⟩

/-- C13 (amended).  In every reachable state with an empty free list in which `Evict`
names a frame `f` whose dirty flag is set: `NewPage` returns `f` and leaves the disk as
it was plus one write of the frame's old bytes under its old page id; `FetchPage` of a
non-resident page `q` returns `f`, the disk is that write followed by the read of `q`,
and the frame receives the bytes the disk holds for `q` after the write.  When moreover
every `FetchPage` of the run asks for a page id below the page id counter: after such an
eviction of page `p` with bytes `B`, and any further operations among which no
`FetchPage(p)` returns a frame, `FetchPage(p)` returns, and a frame it returns holds
`B`. -/
theorem dirty_victim_written_back (s : BufferPoolManager) (hs : Reachable s)
    (f : frame_id_t) (hfl : s.free_list = [])
    (hE : (LRUKReplacer.Evict s.replacer).1 = some f)
    (hd : (s.pages f).is_dirty = true) :
    (∃ s1, NewPage s = .ok (some (f, s.next_page_id), s1) ∧
      s1.disk_manager = s.disk_manager.WritePage (s.pages f).page_id (s.pages f).data) ∧
    (∀ q, s.findPage q = none →
      ∃ s1, FetchPage s q = .ok (some f, s1) ∧
        s1.disk_manager =
          ((s.disk_manager.WritePage (s.pages f).page_id (s.pages f).data).ReadPage q).2 ∧
        (s1.pages f).data =
          (s.disk_manager.WritePage (s.pages f).page_id (s.pages f).data).bytes q) ∧
    (ReachableIssued s → ∀ op,
      (op = .NewPage ∨ ∃ q, op = .FetchPage q ∧ q < s.next_page_id ∧ s.findPage q = none) →
      ∀ t, Away (s.pages f).page_id (exec s op) t →
        ∃ res t1, FetchPage t (s.pages f).page_id = .ok (res, t1) ∧
          ∀ g, res = some g → (t1.pages g).data = (s.pages f).data) := by
  have hI := Reachable.bpm_inv s hs
  have hA := acquireFrame_evict s f hfl hE
  rw [if_pos hd] at hA
  have hf : (acquireFrame s).1 = some f := by rw [hA]
  have hdm : (acquireFrame s).2.disk_manager =
      s.disk_manager.WritePage (s.pages f).page_id (s.pages f).data := by
    rw [hA]
  refine ⟨?_, ?_, ?_⟩
  · obtain ⟨s5, _, hN, _, _, _, _, _, hdm5, _⟩ := NewPage_frame s hI f hf
    exact ⟨s5, hN, by rw [hdm5, hdm]⟩
  · intro q hq
    obtain ⟨s5, _, hN, _, _, _, _, _, hdm5, _, hpf, _⟩ := FetchPage_miss_frame s hI q hq f hf
    exact ⟨s5, hN, by rw [hdm5, hdm], by rw [hpf, hdm]⟩
  · intro hsi op hop t ha
    have ht := ReachableIssued.tight s hsi
    have hiss : Op.issued s op := by
      rcases hop with rfl | ⟨q, rfl, hq, _⟩
      · trivial
      · exact hq
    have hop2 : op = .NewPage ∨ ∃ q, op = .FetchPage q ∧ s.findPage q = none := by
      rcases hop with h0 | ⟨q, h0, _, hq⟩
      · exact Or.inl h0
      · exact Or.inr ⟨q, h0, hq⟩
    obtain ⟨a, b, c⟩ := evict_dirty_away s hI ht f hfl hE hd op hop2
    obtain ⟨hr, a1, b1, _⟩ := Away.keeps (s.pages f).page_id (exec s op) t ha
      (ReachableIssued.step s op hsi hiss) a c
    obtain ⟨res, t1, hF, hdata⟩ := FetchPage_miss_data t
      (Reachable.bpm_inv t (ReachableIssued.reachable t hr)) (ReachableIssued.tight t hr)
      (s.pages f).page_id a1
    refine ⟨res, t1, hF, ?_⟩
    intro g hg
    rw [hdata g hg, b1, b]

/-- C13 (amended) at a concrete state: a pool of two frames holds page 0 (bytes `[65]`,
unpinned, dirty) and page 1 (pinned).  `NewPage` evicts page 0 and writes `[65]` to disk
under id 0; after `UnpinPage(2, false)`, `FetchPage(0)` returns frame 0 with `[65]`. -/
theorem dirty_victim_written_back_busyPool :
    Reachable busyPool ∧ ReachableIssued busyPool ∧ busyPool.free_list = [] ∧
    (LRUKReplacer.Evict busyPool.replacer).1 = some 0 ∧
    (busyPool.pages 0).is_dirty = true ∧ (busyPool.pages 0).page_id = 0 ∧
    (busyPool.pages 0).data = [65] ∧
    (∃ s1, NewPage busyPool = .ok (some (0, busyPool.next_page_id), s1) ∧
      s1.disk_manager =
        busyPool.disk_manager.WritePage (busyPool.pages 0).page_id (busyPool.pages 0).data) ∧
    (∀ q, busyPool.findPage q = none →
      ∃ s1, FetchPage busyPool q = .ok (some 0, s1) ∧
        s1.disk_manager =
          ((busyPool.disk_manager.WritePage (busyPool.pages 0).page_id
            (busyPool.pages 0).data).ReadPage q).2 ∧
        (s1.pages 0).data =
          (busyPool.disk_manager.WritePage (busyPool.pages 0).page_id
            (busyPool.pages 0).data).bytes q) ∧
    returned (FetchPage (exec (exec busyPool .NewPage) (.UnpinPage 2 false)) 0) =
      some (some 0) ∧
    (∃ res t1,
      FetchPage (exec (exec busyPool .NewPage) (.UnpinPage 2 false))
        (busyPool.pages 0).page_id = .ok (res, t1) ∧
      ∀ g, res = some g → (t1.pages g).data = (busyPool.pages 0).data) :=
  ⟨ReachableIssued.reachable _ busyPool_issued, busyPool_issued, by decide, by decide,
    by decide, by decide, by decide,
    (dirty_victim_written_back busyPool (ReachableIssued.reachable _ busyPool_issued) 0
      (by decide) (by decide) (by decide)).1,
    (dirty_victim_written_back busyPool (ReachableIssued.reachable _ busyPool_issued) 0
      (by decide) (by decide) (by decide)).2.1,
    by decide,
    (dirty_victim_written_back busyPool (ReachableIssued.reachable _ busyPool_issued) 0
      (by decide) (by decide) (by decide)).2.2 busyPool_issued .NewPage (Or.inl rfl) _
      (Away.step _ _ (.UnpinPage 2 false) (Away.refl _) trivial (fun h => by cases h))⟩

end BufferPoolManager

end bustub
